import Mathlib

/-!
Verification of the linear-octree core of the `tmr` repository
(`src/src/TMROctree.c`), against its natural-language specification.

The octree element and node containers (`TMROctant`, `TMROctantArray`,
`TMROctantHash`, `TMROctantQueue`, `TMRIndexWeight`) are declared in headers
that are not part of the repository snapshot; their operations are modelled
from the specification (Morton order by bit interleaving, sibling/parent/
childId arithmetic, sorted-unique arrays, set-semantics hashes).  Everything
in `TMROctree.c` itself is translated directly from that source file.
-/

namespace TMR

/-- Modelled from the spec: `TMR_MAX_LEVEL` (`LMAX`) is a compile-time
constant defined in a header that is not in the snapshot; the spec says
"30 is a reasonable choice; fits a signed 32-bit int with headroom". -/
def TMR_MAX_LEVEL : Nat := 30

/-- `HMAX = 1 << LMAX`, the extent of the Morton coordinate domain. -/
def hmax : Nat := 2 ^ TMR_MAX_LEVEL

/-- Number of coordinate bits used by the Morton key (coordinates of node
octants may equal `HMAX`, hence one bit more than `LMAX`). -/
def KF : Nat := TMR_MAX_LEVEL + 1

/-! ### Bit interleaving (Morton keys)

Modelled from the spec: octants are "totally ordered by interleaving the
bits of `x`, `y`, `z` (least-significant bit of x occupies bit 0, of y
bit 1, of z bit 2, etc.)".  `ilv f x y z` interleaves the low `f` bits. -/

def ilv : Nat → Nat → Nat → Nat → Nat
  | 0, _, _, _ => 0
  | f + 1, x, y, z =>
      x % 2 + 2 * (y % 2) + 4 * (z % 2) + 8 * ilv f (x / 2) (y / 2) (z / 2)

theorem ilv_zero (f : Nat) : ilv f 0 0 0 = 0 := by
  induction f with
  | zero => rfl
  | succ f ih => simp [ilv, ih]

theorem ilv_lt (f : Nat) {x y z : Nat} (hx : x < 2 ^ f) (hy : y < 2 ^ f)
    (hz : z < 2 ^ f) : ilv f x y z < 8 ^ f := by
  induction f generalizing x y z with
  | zero =>
      interval_cases x
      interval_cases y
      interval_cases z
      simp [ilv]
  | succ f ih =>
      have hx2 : x / 2 < 2 ^ f := Nat.div_lt_of_lt_mul (by
        rw [pow_succ] at hx; omega)
      have hy2 : y / 2 < 2 ^ f := Nat.div_lt_of_lt_mul (by
        rw [pow_succ] at hy; omega)
      have hz2 : z / 2 < 2 ^ f := Nat.div_lt_of_lt_mul (by
        rw [pow_succ] at hz; omega)
      have h := ih hx2 hy2 hz2
      have hxm : x % 2 < 2 := Nat.mod_lt _ (by norm_num)
      have hym : y % 2 < 2 := Nat.mod_lt _ (by norm_num)
      have hzm : z % 2 < 2 := Nat.mod_lt _ (by norm_num)
      have : (8 : Nat) ^ (f + 1) = 8 * 8 ^ f := by rw [pow_succ]; ring
      rw [ilv, this]
      omega

theorem ilv_split {k f : Nat} (hk : k ≤ f) {x y z : Nat} (u v w : Nat)
    (hx : x < 2 ^ k) (hy : y < 2 ^ k) (hz : z < 2 ^ k) :
    ilv f (x + 2 ^ k * u) (y + 2 ^ k * v) (z + 2 ^ k * w) =
      ilv k x y z + 8 ^ k * ilv (f - k) u v w := by
  induction k generalizing f x y z u v w with
  | zero =>
      have hx0 : x = 0 := by omega
      have hy0 : y = 0 := by omega
      have hz0 : z = 0 := by omega
      subst hx0; subst hy0; subst hz0
      simp [ilv]
  | succ k ih =>
      obtain ⟨f', rfl⟩ : ∃ f', f = f' + 1 := ⟨f - 1, by omega⟩
      have hkf : k ≤ f' := by omega
      have e2 : (2 : Nat) ^ (k + 1) = 2 * 2 ^ k := by rw [pow_succ]; ring
      have hxd : (x + 2 ^ (k + 1) * u) / 2 = x / 2 + 2 ^ k * u := by
        rw [e2, mul_assoc]; omega
      have hyd : (y + 2 ^ (k + 1) * v) / 2 = y / 2 + 2 ^ k * v := by
        rw [e2, mul_assoc]; omega
      have hzd : (z + 2 ^ (k + 1) * w) / 2 = z / 2 + 2 ^ k * w := by
        rw [e2, mul_assoc]; omega
      have hxm : (x + 2 ^ (k + 1) * u) % 2 = x % 2 := by
        rw [e2, mul_assoc]; omega
      have hym : (y + 2 ^ (k + 1) * v) % 2 = y % 2 := by
        rw [e2, mul_assoc]; omega
      have hzm : (z + 2 ^ (k + 1) * w) % 2 = z % 2 := by
        rw [e2, mul_assoc]; omega
      have hx2 : x / 2 < 2 ^ k := by rw [e2] at hx; omega
      have hy2 : y / 2 < 2 ^ k := by rw [e2] at hy; omega
      have hz2 : z / 2 < 2 ^ k := by rw [e2] at hz; omega
      have hrec := ih hkf u v w hx2 hy2 hz2
      rw [ilv, hxm, hym, hzm, hxd, hyd, hzd, hrec]
      have h8 : (8 : Nat) ^ (k + 1) = 8 * 8 ^ k := by rw [pow_succ]; ring
      have hsub : f' + 1 - (k + 1) = f' - k := by omega
      rw [ilv, h8, hsub]
      ring

/-- Interleaving is insensitive to extra fuel once all bits are covered. -/
theorem ilv_fuel {k f : Nat} (hk : k ≤ f) {x y z : Nat}
    (hx : x < 2 ^ k) (hy : y < 2 ^ k) (hz : z < 2 ^ k) :
    ilv f x y z = ilv k x y z := by
  have h := ilv_split hk 0 0 0 hx hy hz
  simpa [ilv_zero] using h

theorem ilv_inj (f : Nat) {x y z x' y' z' : Nat}
    (hx : x < 2 ^ f) (hy : y < 2 ^ f) (hz : z < 2 ^ f)
    (hx' : x' < 2 ^ f) (hy' : y' < 2 ^ f) (hz' : z' < 2 ^ f)
    (h : ilv f x y z = ilv f x' y' z') : x = x' ∧ y = y' ∧ z = z' := by
  induction f generalizing x y z x' y' z' with
  | zero => omega
  | succ f ih =>
      rw [ilv, ilv] at h
      have hb : x % 2 = x' % 2 ∧ y % 2 = y' % 2 ∧ z % 2 = z' % 2 := by omega
      have hr : ilv f (x / 2) (y / 2) (z / 2) =
          ilv f (x' / 2) (y' / 2) (z' / 2) := by omega
      have e2 : (2 : Nat) ^ (f + 1) = 2 * 2 ^ f := by rw [pow_succ]; ring
      rw [e2] at hx hy hz hx' hy' hz'
      have := ih (by omega) (by omega) (by omega) (by omega) (by omega)
        (by omega) hr
      omega

theorem ilv_surj (f : Nat) : ∀ m < 8 ^ f,
    ∃ x y z, x < 2 ^ f ∧ y < 2 ^ f ∧ z < 2 ^ f ∧ ilv f x y z = m := by
  induction f with
  | zero =>
      intro m hm
      have hm0 : m = 0 := by simpa using hm
      exact ⟨0, 0, 0, by simp, by simp, by simp, by rw [hm0]; rfl⟩
  | succ f ih =>
      intro m hm
      have h8 : (8 : Nat) ^ (f + 1) = 8 * 8 ^ f := by rw [pow_succ]; ring
      have hdiv : m / 8 < 8 ^ f := by rw [h8] at hm; omega
      obtain ⟨x, y, z, hx, hy, hz, hilv⟩ := ih (m / 8) hdiv
      refine ⟨2 * x + m % 8 % 2, 2 * y + m % 8 / 2 % 2, 2 * z + m % 8 / 4,
        ?_, ?_, ?_, ?_⟩
      · have e2 : (2 : Nat) ^ (f + 1) = 2 * 2 ^ f := by rw [pow_succ]; ring
        omega
      · have e2 : (2 : Nat) ^ (f + 1) = 2 * 2 ^ f := by rw [pow_succ]; ring
        omega
      · have e2 : (2 : Nat) ^ (f + 1) = 2 * 2 ^ f := by rw [pow_succ]; ring
        have : m % 8 / 4 < 2 := by omega
        omega
      · rw [ilv]
        have hx2 : (2 * x + m % 8 % 2) / 2 = x := by omega
        have hy2 : (2 * y + m % 8 / 2 % 2) / 2 = y := by omega
        have hz2 : (2 * z + m % 8 / 4) / 2 = z := by
          have : m % 8 / 4 < 2 := by omega
          omega
        have hxm : (2 * x + m % 8 % 2) % 2 = m % 8 % 2 := by omega
        have hym : (2 * y + m % 8 / 2 % 2) % 2 = m % 8 / 2 % 2 := by omega
        have hzm : (2 * z + m % 8 / 4) % 2 = m % 8 / 4 := by
          have : m % 8 / 4 < 2 := by omega
          omega
        rw [hx2, hy2, hz2, hxm, hym, hzm, hilv]
        omega

theorem ilv_max (f : Nat) : ilv f (2 ^ f - 1) (2 ^ f - 1) (2 ^ f - 1) =
    8 ^ f - 1 := by
  induction f with
  | zero => rfl
  | succ f ih =>
      have e2 : (2 : Nat) ^ (f + 1) = 2 * 2 ^ f := by rw [pow_succ]; ring
      have h2 : (1 : Nat) ≤ 2 ^ f := Nat.one_le_two_pow
      have hm : (2 ^ (f + 1) - 1) % 2 = 1 := by rw [e2]; omega
      have hd : (2 ^ (f + 1) - 1) / 2 = 2 ^ f - 1 := by rw [e2]; omega
      have h8 : (8 : Nat) ^ (f + 1) = 8 * 8 ^ f := by rw [pow_succ]; ring
      have h81 : (1 : Nat) ≤ 8 ^ f := Nat.one_le_pow _ _ (by norm_num)
      rw [ilv, hm, hd, ih, h8]
      omega

/-! ### Octants

Modelled from the spec: the octant key type `(x, y, z, level, tag)` and its
algebra (`TMROctant` is declared in a header not present in the snapshot). -/

structure TMROctant where
  x : Nat
  y : Nat
  z : Nat
  level : Nat
  tag : Int
deriving DecidableEq, Repr

/-- Edge length `h = 1 << (TMR_MAX_LEVEL - level)` of an octant's cube. -/
def hOct (o : TMROctant) : Nat := 2 ^ (TMR_MAX_LEVEL - o.level)

/-- Morton key of an octant's anchor `(x, y, z)`: bit interleaving, LSB of
`x` in bit 0, of `y` in bit 1, of `z` in bit 2, and so on. -/
def okey (o : TMROctant) : Nat := ilv KF o.x o.y o.z

/-- Modelled from the spec: `TMROctant::compare` orders by the interleaved
Morton key with `level` as tie-breaker (same origin: shallower first).
`octLt a b` means `a.compare(&b) < 0`. -/
def octLt (a b : TMROctant) : Prop :=
  okey a < okey b ∨ (okey a = okey b ∧ a.level < b.level)

/-- Non-strict version of `octLt` (`a.compare(&b) <= 0`). -/
def octLe (a b : TMROctant) : Prop :=
  okey a < okey b ∨ (okey a = okey b ∧ a.level ≤ b.level)

/-- `a.compare(&b) == 0`: equal Morton key and equal level. -/
def octCmpEq (a b : TMROctant) : Prop := okey a = okey b ∧ a.level = b.level

/-- Equality on the hash/uniquify key `(x, y, z, level)` (tags ignored). -/
def octFieldsEq (a b : TMROctant) : Prop :=
  a.x = b.x ∧ a.y = b.y ∧ a.z = b.z ∧ a.level = b.level

instance : DecidableRel octLt := fun a b => by unfold octLt; infer_instance

instance : DecidableRel octLe := fun a b => by unfold octLe; infer_instance

instance : DecidableRel octCmpEq := fun a b => by
  unfold octCmpEq; infer_instance

instance : DecidableRel octFieldsEq := fun a b => by
  unfold octFieldsEq; infer_instance

/-- Clear bit `m` of `x` (the `x & ~h` of the C code, `h = 1 << m`). -/
def clearBit (x m : Nat) : Nat := if x.testBit m then x - 2 ^ m else x

/-- Modelled from the spec: `TMROctant::getSibling(id)` returns the `id`-th
sibling sharing the same parent (bit `TMR_MAX_LEVEL - level` of each
coordinate is cleared and re-set from the bits of `id`); an octant of level
0 is returned unchanged. -/
def getSibling (id : Nat) (o : TMROctant) : TMROctant :=
  if o.level = 0 then o
  else
    { o with
      x := clearBit o.x (TMR_MAX_LEVEL - o.level) +
        id % 2 * 2 ^ (TMR_MAX_LEVEL - o.level)
      y := clearBit o.y (TMR_MAX_LEVEL - o.level) +
        id / 2 % 2 * 2 ^ (TMR_MAX_LEVEL - o.level)
      z := clearBit o.z (TMR_MAX_LEVEL - o.level) +
        id / 4 % 2 * 2 ^ (TMR_MAX_LEVEL - o.level) }

/-- Modelled from the spec: `TMROctant::parent` masks the coordinates to the
parent's `2h`-grid and decrements the level (callers only use it on octants
of positive level). -/
def parentOct (o : TMROctant) : TMROctant :=
  { o with
    x := clearBit o.x (TMR_MAX_LEVEL - o.level)
    y := clearBit o.y (TMR_MAX_LEVEL - o.level)
    z := clearBit o.z (TMR_MAX_LEVEL - o.level)
    level := o.level - 1 }

/-- Modelled from the spec: `childId` is
`((x & h) ? 1 : 0) | ((y & h) ? 2 : 0) | ((z & h) ? 4 : 0)` with `h` the
octant's own edge length. -/
def childId (o : TMROctant) : Nat :=
  (if o.x.testBit (TMR_MAX_LEVEL - o.level) then 1 else 0) +
    (if o.y.testBit (TMR_MAX_LEVEL - o.level) then 2 else 0) +
    (if o.z.testBit (TMR_MAX_LEVEL - o.level) then 4 else 0)

/-- The containment test inlined in `TMROctree::findEnclosing`:
`e.x <= o.x && o.x + hoct <= e.x + h` on each axis. -/
def containsCube (e o : TMROctant) : Prop :=
  e.x ≤ o.x ∧ o.x + hOct o ≤ e.x + hOct e ∧
  e.y ≤ o.y ∧ o.y + hOct o ≤ e.y + hOct e ∧
  e.z ≤ o.z ∧ o.z + hOct o ≤ e.z + hOct e

instance : DecidableRel containsCube := fun a b => by
  unfold containsCube; infer_instance

/-- Spec invariant for octants: level within `[0, LMAX]`, coordinates
multiples of the octant's own `h` with `x + h ≤ HMAX` on each axis. -/
def validOct (o : TMROctant) : Prop :=
  o.level ≤ TMR_MAX_LEVEL ∧
  hOct o ∣ o.x ∧ hOct o ∣ o.y ∧ hOct o ∣ o.z ∧
  o.x + hOct o ≤ hmax ∧ o.y + hOct o ≤ hmax ∧ o.z + hOct o ≤ hmax

instance : DecidablePred validOct := fun o => by
  unfold validOct; infer_instance

/-- Disjointness of the (half-open) cubes of two octants. -/
def cubesDisjoint (a b : TMROctant) : Prop :=
  a.x + hOct a ≤ b.x ∨ b.x + hOct b ≤ a.x ∨
  a.y + hOct a ≤ b.y ∨ b.y + hOct b ≤ a.y ∨
  a.z + hOct a ≤ b.z ∨ b.z + hOct b ≤ a.z

instance : DecidableRel cubesDisjoint := fun a b => by
  unfold cubesDisjoint; infer_instance

/-- Membership of an integer grid point in an octant's half-open cube. -/
def pointInCube (o : TMROctant) (px py pz : Nat) : Prop :=
  o.x ≤ px ∧ px < o.x + hOct o ∧
  o.y ≤ py ∧ py < o.y + hOct o ∧
  o.z ≤ pz ∧ pz < o.z + hOct o

instance (o : TMROctant) (px py pz : Nat) :
    Decidable (pointInCube o px py pz) := by
  unfold pointInCube; infer_instance

/-- The `k`-th child of an octant (anchor shifted by the bits of `k` times
the child edge length, level incremented, tag carried along). -/
def childOct (p : TMROctant) (k : Nat) : TMROctant :=
  { p with
    x := p.x + k % 2 * 2 ^ (TMR_MAX_LEVEL - (p.level + 1))
    y := p.y + k / 2 % 2 * 2 ^ (TMR_MAX_LEVEL - (p.level + 1))
    z := p.z + k / 4 % 2 * 2 ^ (TMR_MAX_LEVEL - (p.level + 1))
    level := p.level + 1 }

/-- The eight children of an octant, in `childId` order. -/
def childrenList (p : TMROctant) : List TMROctant :=
  [childOct p 0, childOct p 1, childOct p 2, childOct p 3,
   childOct p 4, childOct p 5, childOct p 6, childOct p 7]

/-! ### Morton-key geometry of valid octants -/

theorem hOct_pos (o : TMROctant) : 0 < hOct o := Nat.pos_pow_of_pos _ (by norm_num)

theorem hOct_le (o : TMROctant) : hOct o ≤ hmax :=
  Nat.pow_le_pow_right (by norm_num) (by omega)

theorem hmax_lt_KF : hmax < 2 ^ KF := by
  unfold hmax KF TMR_MAX_LEVEL; norm_num

theorem coord_lt_of_valid {o : TMROctant} (h : validOct o) :
    o.x < 2 ^ KF ∧ o.y < 2 ^ KF ∧ o.z < 2 ^ KF := by
  obtain ⟨_, _, _, _, hx, hy, hz⟩ := h
  have := hOct_pos o
  have := hmax_lt_KF
  omega

/-- Offset form of the Morton key: the key of any grid point inside a valid
octant's cube is the octant's key plus the interleave of the offsets. -/
theorem okey_offset {e : TMROctant} (he : validOct e) {dx dy dz : Nat}
    (hdx : dx < hOct e) (hdy : dy < hOct e) (hdz : dz < hOct e) :
    ilv KF (e.x + dx) (e.y + dy) (e.z + dz) =
      okey e + ilv (TMR_MAX_LEVEL - e.level) dx dy dz := by
  obtain ⟨hl, ⟨X, hX⟩, ⟨Y, hY⟩, ⟨Z, hZ⟩, _, _, _⟩ := he
  set m := TMR_MAX_LEVEL - e.level with hm
  have hmKF : m ≤ KF := by unfold KF; omega
  have hh : hOct e = 2 ^ m := rfl
  rw [hh] at hX hY hZ hdx hdy hdz
  have h1 : ilv KF (e.x + dx) (e.y + dy) (e.z + dz) =
      ilv m dx dy dz + 8 ^ m * ilv (KF - m) X Y Z := by
    have := ilv_split hmKF X Y Z hdx hdy hdz
    rw [hX, hY, hZ]
    rw [Nat.add_comm dx _, Nat.add_comm dy _, Nat.add_comm dz _] at this
    exact this
  have h0 : okey e = 8 ^ m * ilv (KF - m) X Y Z := by
    have h2 : (0 : Nat) < 2 ^ m := Nat.pos_pow_of_pos _ (by norm_num)
    have := @ilv_split m KF hmKF 0 0 0 X Y Z h2 h2 h2
    unfold okey
    rw [hX, hY, hZ]
    simpa [ilv_zero] using this
  omega

/-- The key of every point of a valid octant's cube lies in the octant's
key interval `[okey, okey + 8 ^ (LMAX - level))`. -/
theorem point_key_mem {e : TMROctant} (he : validOct e) {px py pz : Nat}
    (hp : pointInCube e px py pz) :
    okey e ≤ ilv KF px py pz ∧
      ilv KF px py pz < okey e + 8 ^ (TMR_MAX_LEVEL - e.level) := by
  obtain ⟨h1, h2, h3, h4, h5, h6⟩ := hp
  obtain ⟨dx, rfl⟩ : ∃ d, px = e.x + d := ⟨px - e.x, by omega⟩
  obtain ⟨dy, rfl⟩ : ∃ d, py = e.y + d := ⟨py - e.y, by omega⟩
  obtain ⟨dz, rfl⟩ : ∃ d, pz = e.z + d := ⟨pz - e.z, by omega⟩
  have hdx : dx < hOct e := by omega
  have hdy : dy < hOct e := by omega
  have hdz : dz < hOct e := by omega
  rw [okey_offset he hdx hdy hdz]
  have := ilv_lt (TMR_MAX_LEVEL - e.level) hdx hdy hdz
  omega

/-- Every key in a valid octant's key interval is the key of a point of its
cube. -/
theorem key_mem_point {e : TMROctant} (he : validOct e) {k : Nat}
    (h1 : okey e ≤ k) (h2 : k < okey e + 8 ^ (TMR_MAX_LEVEL - e.level)) :
    ∃ px py pz, pointInCube e px py pz ∧ ilv KF px py pz = k := by
  obtain ⟨dx, dy, dz, hdx, hdy, hdz, hilv⟩ :=
    ilv_surj (TMR_MAX_LEVEL - e.level) (k - okey e) (by omega)
  refine ⟨e.x + dx, e.y + dy, e.z + dz, ?_, ?_⟩
  · have hh : hOct e = 2 ^ (TMR_MAX_LEVEL - e.level) := rfl
    unfold pointInCube
    omega
  · rw [okey_offset he hdx hdy hdz, hilv]
    omega

/-- Disjoint valid cubes have disjoint Morton-key intervals. -/
theorem key_intervals_disjoint {a b : TMROctant} (ha : validOct a)
    (hb : validOct b) (hd : cubesDisjoint a b) {k : Nat}
    (h1 : okey a ≤ k) (h2 : k < okey a + 8 ^ (TMR_MAX_LEVEL - a.level))
    (h3 : okey b ≤ k) (h4 : k < okey b + 8 ^ (TMR_MAX_LEVEL - b.level)) :
    False := by
  obtain ⟨px, py, pz, hpin, hpk⟩ := key_mem_point ha h1 h2
  obtain ⟨qx, qy, qz, hqin, hqk⟩ := key_mem_point hb h3 h4
  have hbp := coord_lt_of_valid ha
  have hbq := coord_lt_of_valid hb
  have hhp := hOct_pos a
  have hhq := hOct_pos b
  have hple : px < 2 ^ KF ∧ py < 2 ^ KF ∧ pz < 2 ^ KF := by
    obtain ⟨_, _, _, _, hx, hy, hz⟩ := ha
    have := hmax_lt_KF
    unfold pointInCube at hpin
    omega
  have hqle : qx < 2 ^ KF ∧ qy < 2 ^ KF ∧ qz < 2 ^ KF := by
    obtain ⟨_, _, _, _, hx, hy, hz⟩ := hb
    have := hmax_lt_KF
    unfold pointInCube at hqin
    omega
  have heq := ilv_inj KF hple.1 hple.2.1 hple.2.2 hqle.1 hqle.2.1 hqle.2.2
    (by rw [hpk, hqk])
  unfold pointInCube at hpin hqin
  unfold cubesDisjoint at hd
  omega

/-- Valid octants with the same Morton key have the same anchor. -/
theorem okey_eq_coords {a b : TMROctant} (ha : validOct a) (hb : validOct b)
    (h : okey a = okey b) : a.x = b.x ∧ a.y = b.y ∧ a.z = b.z := by
  have hpa := coord_lt_of_valid ha
  have hpb := coord_lt_of_valid hb
  exact ilv_inj KF hpa.1 hpa.2.1 hpa.2.2 hpb.1 hpb.2.1 hpb.2.2 h

/-- Disjoint valid octants have distinct Morton keys. -/
theorem okey_ne_of_disjoint {a b : TMROctant} (ha : validOct a)
    (hb : validOct b) (hd : cubesDisjoint a b) : okey a ≠ okey b := by
  intro h
  obtain ⟨hx, hy, hz⟩ := okey_eq_coords ha hb h
  have := hOct_pos a
  have := hOct_pos b
  unfold cubesDisjoint at hd
  omega

/-- For disjoint valid octants, `octLt` separates the key intervals. -/
theorem key_interval_le_of_octLt {a b : TMROctant} (ha : validOct a)
    (hb : validOct b) (hd : cubesDisjoint a b) (hlt : octLt a b) :
    okey a + 8 ^ (TMR_MAX_LEVEL - a.level) ≤ okey b := by
  have hne := okey_ne_of_disjoint ha hb hd
  have hklt : okey a < okey b := by
    rcases hlt with h | ⟨h, _⟩
    · exact h
    · exact absurd h hne
  by_contra hcon
  push_neg at hcon
  exact key_intervals_disjoint ha hb hd (le_of_lt hklt) hcon le_rfl
    (by have : (0:Nat) < 8 ^ (TMR_MAX_LEVEL - b.level) :=
          Nat.pos_pow_of_pos _ (by norm_num)
        omega)

/-- Cube containment of valid octants yields nested key intervals and the
order `octLe e o`. -/
theorem containsCube_keys {e o : TMROctant} (he : validOct e)
    (ho : validOct o) (hc : containsCube e o) :
    okey e ≤ okey o ∧
      okey o + 8 ^ (TMR_MAX_LEVEL - o.level) ≤
        okey e + 8 ^ (TMR_MAX_LEVEL - e.level) ∧
      octLe e o := by
  obtain ⟨h1, h2, h3, h4, h5, h6⟩ := hc
  have hho := hOct_pos o
  have hfirst : okey e ≤ okey o ∧
      okey o < okey e + 8 ^ (TMR_MAX_LEVEL - e.level) := by
    have : pointInCube e o.x o.y o.z := by
      unfold pointInCube; omega
    exact point_key_mem he this
  have hlast : okey o + 8 ^ (TMR_MAX_LEVEL - o.level) ≤
      okey e + 8 ^ (TMR_MAX_LEVEL - e.level) := by
    have hpt : pointInCube e (o.x + (hOct o - 1)) (o.y + (hOct o - 1))
        (o.z + (hOct o - 1)) := by
      unfold pointInCube; omega
    have hkey := (point_key_mem he hpt).2
    have hoff : ilv KF (o.x + (hOct o - 1)) (o.y + (hOct o - 1))
        (o.z + (hOct o - 1)) =
        okey o + (8 ^ (TMR_MAX_LEVEL - o.level) - 1) := by
      have hlt : hOct o - 1 < hOct o := by omega
      rw [okey_offset ho hlt hlt hlt]
      have : hOct o - 1 = 2 ^ (TMR_MAX_LEVEL - o.level) - 1 := rfl
      rw [this, ilv_max]
    have hp8 : (0:Nat) < 8 ^ (TMR_MAX_LEVEL - o.level) :=
      Nat.pos_pow_of_pos _ (by norm_num)
    omega
  refine ⟨hfirst.1, hlast, ?_⟩
  rcases Nat.lt_or_ge (okey e) (okey o) with hk | hk
  · exact Or.inl hk
  · have hk' : okey e = okey o := by omega
    refine Or.inr ⟨hk', ?_⟩
    have hxeq := okey_eq_coords he ho hk'
    have hle : hOct o ≤ hOct e := by omega
    unfold hOct at hle
    have hmm : TMR_MAX_LEVEL - o.level ≤ TMR_MAX_LEVEL - e.level :=
      (Nat.pow_le_pow_iff_right (by norm_num)).mp hle
    have hle1 := he.1
    have hle2 := ho.1
    omega

/-- One-dimensional dyadic interval lemma: two aligned intervals that share
a point are nested (the finer inside the coarser). -/
theorem dyadic1 {ha hb a b t : Nat} (hd : ha ∣ hb) (haa : ha ∣ a)
    (hbb : hb ∣ b) (h1 : a ≤ t) (h2 : t < a + ha) (h3 : b ≤ t)
    (h4 : t < b + hb) : b ≤ a ∧ a + ha ≤ b + hb := by
  have hab : ha ∣ b := dvd_trans hd hbb
  have hpos : 0 < ha := by
    rcases Nat.eq_zero_or_pos ha with h | h
    · omega
    · exact h
  constructor
  · by_contra hcon
    push_neg at hcon
    have hdvd : ha ∣ (b - a) := Nat.dvd_sub' hab haa
    have : ha ≤ b - a := Nat.le_of_dvd (by omega) hdvd
    omega
  · by_contra hcon
    push_neg at hcon
    have hbh : ha ∣ (b + hb) := Nat.dvd_add hab hd
    have hdvd : ha ∣ (b + hb - a) := Nat.dvd_sub' hbh haa
    have : ha ≤ b + hb - a := Nat.le_of_dvd (by omega) hdvd
    omega

/-- Valid octant cubes are nested or disjoint: if they intersect, the finer
cube is contained in the coarser one. -/
theorem nested_or_disjoint {a b : TMROctant} (ha : validOct a)
    (hb : validOct b) (hle : hOct a ≤ hOct b) (hnd : ¬cubesDisjoint a b) :
    containsCube b a := by
  have hdvd : hOct a ∣ hOct b := by
    unfold hOct at hle ⊢
    have hmm := (Nat.pow_le_pow_iff_right (a := 2) (by norm_num)).mp hle
    exact pow_dvd_pow 2 hmm
  obtain ⟨_, hax, hay, haz, _, _, _⟩ := ha
  obtain ⟨_, hbx, hby, hbz, _, _, _⟩ := hb
  unfold cubesDisjoint at hnd
  push_neg at hnd
  obtain ⟨n1, n2, n3, n4, n5, n6⟩ := hnd
  have hx := dyadic1 hdvd hax hbx (le_max_left a.x b.x)
    (by have := hOct_pos a; omega) (le_max_right a.x b.x)
    (by have := hOct_pos b; omega)
  have hy := dyadic1 hdvd hay hby (le_max_left a.y b.y)
    (by have := hOct_pos a; omega) (le_max_right a.y b.y)
    (by have := hOct_pos b; omega)
  have hz := dyadic1 hdvd haz hbz (le_max_left a.z b.z)
    (by have := hOct_pos a; omega) (le_max_right a.z b.z)
    (by have := hOct_pos b; omega)
  unfold containsCube
  omega

/-! ### Sibling, parent and child arithmetic -/

theorem aligned_div {c m b : Nat} (hc : 2 ^ (m + 1) ∣ c) (hb : b < 2) :
    (c + b * 2 ^ m) / 2 ^ m % 2 = b := by
  obtain ⟨C, rfl⟩ := hc
  have e2 : (2 : Nat) ^ (m + 1) = 2 ^ m * 2 := pow_succ 2 m
  have hpos : (0 : Nat) < 2 ^ m := Nat.pos_pow_of_pos _ (by norm_num)
  have : 2 ^ (m + 1) * C + b * 2 ^ m = 2 ^ m * (2 * C + b) := by
    rw [e2]; ring
  rw [this, Nat.mul_div_cancel_left _ hpos]
  omega

theorem testBit_aligned {c m b : Nat} (hc : 2 ^ (m + 1) ∣ c) (hb : b < 2) :
    (c + b * 2 ^ m).testBit m = decide (b = 1) := by
  rw [Nat.testBit_to_div_mod, aligned_div hc hb]

theorem clearBit_aligned {c m b : Nat} (hc : 2 ^ (m + 1) ∣ c) (hb : b < 2) :
    clearBit (c + b * 2 ^ m) m = c := by
  unfold clearBit
  rw [testBit_aligned hc hb]
  interval_cases b <;> simp

theorem two_pow_sub_one_succ {l : Nat} (hl : l < TMR_MAX_LEVEL) :
    TMR_MAX_LEVEL - l = TMR_MAX_LEVEL - (l + 1) + 1 := by omega

theorem hOct_parent_dvd {p : TMROctant} (hp : validOct p)
    (hl : p.level < TMR_MAX_LEVEL) :
    2 ^ (TMR_MAX_LEVEL - (p.level + 1) + 1) ∣ p.x ∧
    2 ^ (TMR_MAX_LEVEL - (p.level + 1) + 1) ∣ p.y ∧
    2 ^ (TMR_MAX_LEVEL - (p.level + 1) + 1) ∣ p.z := by
  obtain ⟨_, hx, hy, hz, _, _, _⟩ := hp
  rw [← two_pow_sub_one_succ hl]
  exact ⟨hx, hy, hz⟩

theorem getSibling_childOct {p : TMROctant} (hp : validOct p)
    (hl : p.level < TMR_MAX_LEVEL) (j k : Nat) :
    getSibling j (childOct p k) = childOct p j := by
  obtain ⟨hdx, hdy, hdz⟩ := hOct_parent_dvd hp hl
  unfold getSibling childOct
  simp only [if_neg (by omega : ¬p.level + 1 = 0)]
  have hm2 : k % 2 < 2 := Nat.mod_lt _ (by norm_num)
  have hm22 : k / 2 % 2 < 2 := Nat.mod_lt _ (by norm_num)
  have hm24 : k / 4 % 2 < 2 := Nat.mod_lt _ (by norm_num)
  rw [clearBit_aligned hdx hm2, clearBit_aligned hdy hm22,
    clearBit_aligned hdz hm24]

theorem childId_childOct {p : TMROctant} (hp : validOct p)
    (hl : p.level < TMR_MAX_LEVEL) (k : Nat) :
    childId (childOct p k) = k % 8 := by
  obtain ⟨hdx, hdy, hdz⟩ := hOct_parent_dvd hp hl
  unfold childId childOct
  simp only
  have hm2 : k % 2 < 2 := Nat.mod_lt _ (by norm_num)
  have hm22 : k / 2 % 2 < 2 := Nat.mod_lt _ (by norm_num)
  have hm24 : k / 4 % 2 < 2 := Nat.mod_lt _ (by norm_num)
  rw [testBit_aligned hdx hm2, testBit_aligned hdy hm22,
    testBit_aligned hdz hm24]
  by_cases h1 : k % 2 = 1 <;> by_cases h2 : k / 2 % 2 = 1 <;>
    by_cases h3 : k / 4 % 2 = 1 <;> simp [h1, h2, h3] <;> omega

theorem parent_childOct {p : TMROctant} (hp : validOct p)
    (hl : p.level < TMR_MAX_LEVEL) (k : Nat) :
    parentOct (childOct p k) = p := by
  obtain ⟨hdx, hdy, hdz⟩ := hOct_parent_dvd hp hl
  unfold parentOct childOct
  have hm2 : k % 2 < 2 := Nat.mod_lt _ (by norm_num)
  have hm22 : k / 2 % 2 < 2 := Nat.mod_lt _ (by norm_num)
  have hm24 : k / 4 % 2 < 2 := Nat.mod_lt _ (by norm_num)
  simp only
  rw [clearBit_aligned hdx hm2, clearBit_aligned hdy hm22,
    clearBit_aligned hdz hm24]
  have hlev : p.level + 1 - 1 = p.level := by omega
  rw [hlev]

theorem childOct_zero (p : TMROctant) :
    childOct p 0 = { p with level := p.level + 1 } := by
  unfold childOct
  simp

theorem ilv_bits (m a b c : Nat) (ha : a < 2) (hb : b < 2) (hc : c < 2) :
    ilv (m + 1) (a * 2 ^ m) (b * 2 ^ m) (c * 2 ^ m) =
      (a + 2 * b + 4 * c) * 8 ^ m := by
  have hp2 : (0:Nat) < 2 ^ m := Nat.pos_pow_of_pos _ (by norm_num)
  have h1 : a * 2 ^ m = 0 + 2 ^ m * a := by ring
  have h2 : b * 2 ^ m = 0 + 2 ^ m * b := by ring
  have h3 : c * 2 ^ m = 0 + 2 ^ m * c := by ring
  rw [h1, h2, h3, @ilv_split m (m + 1) (by omega) 0 0 0 a b c hp2 hp2 hp2,
    ilv_zero]
  have hsub : m + 1 - m = 1 := by omega
  rw [hsub]
  have hilv1 : ilv 1 a b c =
      a % 2 + 2 * (b % 2) + 4 * (c % 2) + 8 * ilv 0 (a / 2) (b / 2) (c / 2) :=
    rfl
  have hilv0 : ilv 0 (a / 2) (b / 2) (c / 2) = 0 := rfl
  rw [hilv1, hilv0]
  have e1 : a % 2 = a := by omega
  have e2 : b % 2 = b := by omega
  have e3 : c % 2 = c := by omega
  rw [e1, e2, e3]
  ring

theorem okey_childOct {p : TMROctant} (hp : validOct p)
    (hl : p.level < TMR_MAX_LEVEL) (k : Nat) :
    okey (childOct p k) =
      okey p + k % 8 * 8 ^ (TMR_MAX_LEVEL - (p.level + 1)) := by
  have hm2 : k % 2 < 2 := Nat.mod_lt _ (by norm_num)
  have hm22 : k / 2 % 2 < 2 := Nat.mod_lt _ (by norm_num)
  have hm24 : k / 4 % 2 < 2 := Nat.mod_lt _ (by norm_num)
  have hsplit : TMR_MAX_LEVEL - p.level = TMR_MAX_LEVEL - (p.level + 1) + 1 :=
    by omega
  have hhp : hOct p = 2 ^ (TMR_MAX_LEVEL - (p.level + 1)) * 2 := by
    unfold hOct; rw [hsplit, pow_succ]
  have hbound : ∀ b : Nat, b < 2 →
      b * 2 ^ (TMR_MAX_LEVEL - (p.level + 1)) < hOct p := by
    intro b hb
    rw [hhp]
    have hp2 : (0:Nat) < 2 ^ (TMR_MAX_LEVEL - (p.level + 1)) :=
      Nat.pos_pow_of_pos _ (by norm_num)
    nlinarith
  have hox : okey (childOct p k) =
      ilv KF (p.x + k % 2 * 2 ^ (TMR_MAX_LEVEL - (p.level + 1)))
        (p.y + k / 2 % 2 * 2 ^ (TMR_MAX_LEVEL - (p.level + 1)))
        (p.z + k / 4 % 2 * 2 ^ (TMR_MAX_LEVEL - (p.level + 1))) := by
    simp [okey, childOct]
  rw [hox, okey_offset hp (hbound _ hm2) (hbound _ hm22) (hbound _ hm24),
    hsplit, ilv_bits _ _ _ _ hm2 hm22 hm24]
  have hk8 : k % 2 + 2 * (k / 2 % 2) + 4 * (k / 4 % 2) = k % 8 := by omega
  rw [hk8]

theorem childOct_valid {p : TMROctant} (hp : validOct p)
    (hl : p.level < TMR_MAX_LEVEL) (k : Nat) :
    validOct (childOct p k) := by
  obtain ⟨hlev, hx, hy, hz, hbx, hby, hbz⟩ := hp
  unfold hOct at hx hy hz hbx hby hbz
  have hm2 : k % 2 < 2 := Nat.mod_lt _ (by norm_num)
  have hm22 : k / 2 % 2 < 2 := Nat.mod_lt _ (by norm_num)
  have hm24 : k / 4 % 2 < 2 := Nat.mod_lt _ (by norm_num)
  have hsplit : TMR_MAX_LEVEL - p.level = TMR_MAX_LEVEL - (p.level + 1) + 1 :=
    by omega
  rw [hsplit, pow_succ] at hx hy hz hbx hby hbz
  have hdl : (2:Nat) ^ (TMR_MAX_LEVEL - (p.level + 1)) ∣
      2 ^ (TMR_MAX_LEVEL - (p.level + 1)) * 2 := dvd_mul_right _ _
  have hfact : ∀ b : Nat, b < 2 →
      b * 2 ^ (TMR_MAX_LEVEL - (p.level + 1)) ≤
        2 ^ (TMR_MAX_LEVEL - (p.level + 1)) := by
    intro b hb
    calc b * 2 ^ (TMR_MAX_LEVEL - (p.level + 1)) ≤
        1 * 2 ^ (TMR_MAX_LEVEL - (p.level + 1)) :=
          Nat.mul_le_mul_right _ (by omega)
      _ = 2 ^ (TMR_MAX_LEVEL - (p.level + 1)) := one_mul _
  refine ⟨?_, ?_, ?_, ?_, ?_, ?_, ?_⟩
  · show p.level + 1 ≤ TMR_MAX_LEVEL
    omega
  · show (2:Nat) ^ (TMR_MAX_LEVEL - (p.level + 1)) ∣
      p.x + k % 2 * 2 ^ (TMR_MAX_LEVEL - (p.level + 1))
    exact Nat.dvd_add (dvd_trans hdl hx) (dvd_mul_left _ _)
  · show (2:Nat) ^ (TMR_MAX_LEVEL - (p.level + 1)) ∣
      p.y + k / 2 % 2 * 2 ^ (TMR_MAX_LEVEL - (p.level + 1))
    exact Nat.dvd_add (dvd_trans hdl hy) (dvd_mul_left _ _)
  · show (2:Nat) ^ (TMR_MAX_LEVEL - (p.level + 1)) ∣
      p.z + k / 4 % 2 * 2 ^ (TMR_MAX_LEVEL - (p.level + 1))
    exact Nat.dvd_add (dvd_trans hdl hz) (dvd_mul_left _ _)
  · show p.x + k % 2 * 2 ^ (TMR_MAX_LEVEL - (p.level + 1)) +
      2 ^ (TMR_MAX_LEVEL - (p.level + 1)) ≤ hmax
    have := hfact _ hm2
    omega
  · show p.y + k / 2 % 2 * 2 ^ (TMR_MAX_LEVEL - (p.level + 1)) +
      2 ^ (TMR_MAX_LEVEL - (p.level + 1)) ≤ hmax
    have := hfact _ hm22
    omega
  · show p.z + k / 4 % 2 * 2 ^ (TMR_MAX_LEVEL - (p.level + 1)) +
      2 ^ (TMR_MAX_LEVEL - (p.level + 1)) ≤ hmax
    have := hfact _ hm24
    omega

/-! ### Sorted unique octant arrays

Modelled from the spec: `TMROctantArray::sort` sorts in Morton order and
collapses duplicate `(x, y, z, level)` keys (§4.7 requires the arrays
produced by a bare `sort()` call to be sorted and unique);
`TMROctantHash` has set semantics on the key `(x, y, z, level)` and
`toArray()` produces a fresh sorted unique array. -/

instance : IsTotal TMROctant octLe := ⟨by
  intro a b
  unfold octLe
  omega⟩

instance : IsTrans TMROctant octLe := ⟨by
  intro a b c hab hbc
  unfold octLe at *
  omega⟩

instance : IsTrans TMROctant octLt := ⟨by
  intro a b c hab hbc
  unfold octLt at *
  omega⟩

instance : IsIrrefl TMROctant octLt := ⟨by
  intro a h
  unfold octLt at h
  omega⟩

instance : IsAntisymm TMROctant octLt := ⟨by
  intro a b hab hba
  unfold octLt at *
  omega⟩

theorem octLt_of_lt_of_le {a b c : TMROctant} (h1 : octLt a b)
    (h2 : octLe b c) : octLt a c := by
  unfold octLt octLe at *
  omega

theorem octLe_of_octLt {a b : TMROctant} (h : octLt a b) : octLe a b := by
  unfold octLt octLe at *
  omega

theorem not_octFieldsEq_of_octLt {a b : TMROctant} (h : octLt a b) :
    ¬octFieldsEq a b := by
  intro hf
  obtain ⟨hx, hy, hz, hl⟩ := hf
  unfold octLt at h
  unfold okey at h
  rw [hx, hy, hz] at h
  omega

/-- Coordinates small enough for the Morton key to be injective. -/
def coordBounded (o : TMROctant) : Prop :=
  o.x < 2 ^ KF ∧ o.y < 2 ^ KF ∧ o.z < 2 ^ KF

instance : DecidablePred coordBounded := fun o => by
  unfold coordBounded; infer_instance

theorem coordBounded_of_valid {o : TMROctant} (h : validOct o) :
    coordBounded o := coord_lt_of_valid h

theorem octLt_of_le_of_ne {a b : TMROctant} (ha : coordBounded a)
    (hb : coordBounded b) (hle : octLe a b) (hne : ¬octFieldsEq a b) :
    octLt a b := by
  rcases hle with h | ⟨hk, hl⟩
  · exact Or.inl h
  · obtain ⟨hx, hy, hz⟩ := ilv_inj KF ha.1 ha.2.1 ha.2.2 hb.1 hb.2.1 hb.2.2 hk
    refine Or.inr ⟨hk, ?_⟩
    rcases Nat.lt_or_ge a.level b.level with h | h
    · exact h
    · exact absurd ⟨hx, hy, hz, by omega⟩ hne

/-- Sort in Morton order (non-decreasing `octLe`). -/
def sortOcts (l : List TMROctant) : List TMROctant := List.insertionSort octLe l

/-- Walk a run of entries equal (by `(x, y, z, level)` key) to the previous
kept entry, dropping them; a differing entry is kept and becomes the new
reference. -/
def dedupRun (prev : TMROctant) : List TMROctant → List TMROctant
  | [] => []
  | b :: rest =>
      if octFieldsEq prev b then dedupRun prev rest
      else b :: dedupRun b rest

/-- Collapse runs of equal `(x, y, z, level)` keys, keeping the first
representative of each run. -/
def dedupKeys : List TMROctant → List TMROctant
  | [] => []
  | a :: rest => a :: dedupRun a rest

/-- `TMROctantArray::sort`: Morton sort followed by duplicate-key removal. -/
def sortUnique (l : List TMROctant) : List TMROctant := dedupKeys (sortOcts l)

/-- `TMROctantHash::addOctant`: append unless an octant with the same
`(x, y, z, level)` key is already present. -/
def hashAdd (l : List TMROctant) (o : TMROctant) : List TMROctant :=
  if l.any (fun b => decide (octFieldsEq b o)) then l else l ++ [o]

theorem sortOcts_sorted (l : List TMROctant) : List.Sorted octLe (sortOcts l) :=
  List.sorted_insertionSort octLe l

theorem sortOcts_perm (l : List TMROctant) : List.Perm (sortOcts l) l :=
  List.perm_insertionSort octLe l

theorem dedupRun_sublist (prev : TMROctant) :
    ∀ l : List TMROctant, List.Sublist (dedupRun prev l) l := by
  intro l
  induction l generalizing prev with
  | nil => rw [dedupRun]
  | cons b rest ih =>
      rw [dedupRun]
      by_cases hb : octFieldsEq prev b
      · rw [if_pos hb]
        exact (ih prev).cons b
      · rw [if_neg hb]
        exact (ih b).cons₂ b

theorem dedupKeys_sublist : ∀ l : List TMROctant,
    List.Sublist (dedupKeys l) l
  | [] => by rw [dedupKeys]
  | a :: rest => by
      rw [dedupKeys]
      exact (dedupRun_sublist a rest).cons₂ a

theorem dropWhile_head_false {p : TMROctant → Bool} :
    ∀ {l : List TMROctant} {c : TMROctant} {tl : List TMROctant},
      l.dropWhile p = c :: tl → p c = false
  | [], c, tl, h => by simp [List.dropWhile] at h
  | a :: rest, c, tl, h => by
      rw [List.dropWhile_cons] at h
      by_cases hp : p a = true
      · rw [if_pos hp] at h
        exact dropWhile_head_false h
      · rw [if_neg hp] at h
        cases h
        simpa using hp

theorem dedupRun_sorted :
    ∀ (rest : List TMROctant) (a : TMROctant),
      List.Sorted octLe (a :: rest) →
      (∀ o ∈ a :: rest, coordBounded o) →
      List.Sorted octLt (a :: dedupRun a rest) := by
  intro rest
  induction rest with
  | nil =>
      intro a _ _
      rw [dedupRun]
      simp
  | cons b tl ih =>
      intro a hs hb
      rw [List.sorted_cons] at hs
      obtain ⟨hall, hrest⟩ := hs
      rw [dedupRun]
      by_cases hfe : octFieldsEq a b
      · rw [if_pos hfe]
        have hs' : List.Sorted octLe (a :: tl) := by
          rw [List.sorted_cons]
          refine ⟨fun c hc => hall c (List.mem_cons_of_mem _ hc), ?_⟩
          rw [List.sorted_cons] at hrest
          exact hrest.2
        have hb' : ∀ o ∈ a :: tl, coordBounded o := by
          intro o ho
          rcases List.mem_cons.mp ho with rfl | ho
          · exact hb o (List.mem_cons_self _ _)
          · exact hb o (List.mem_cons_of_mem _ (List.mem_cons_of_mem _ ho))
        exact ih a hs' hb'
      · rw [if_neg hfe]
        have hab : octLt a b := octLt_of_le_of_ne
          (hb a (List.mem_cons_self _ _))
          (hb b (List.mem_cons_of_mem _ (List.mem_cons_self _ _)))
          (hall b (List.mem_cons_self _ _)) hfe
        have hb' : ∀ o ∈ b :: tl, coordBounded o := fun o ho =>
          hb o (List.mem_cons_of_mem _ ho)
        have htail := ih b hrest hb'
        rw [List.sorted_cons]
        refine ⟨?_, htail⟩
        intro c hc
        rcases List.mem_cons.mp hc with rfl | hc
        · exact hab
        · have hcin : c ∈ tl := (dedupRun_sublist b tl).mem hc
          rw [List.sorted_cons] at hrest
          exact octLt_of_lt_of_le hab (hrest.1 c hcin)

theorem dedupKeys_sorted (l : List TMROctant) (hs : List.Sorted octLe l)
    (hb : ∀ o ∈ l, coordBounded o) : List.Sorted octLt (dedupKeys l) := by
  cases l with
  | nil => rw [dedupKeys]; exact List.sorted_nil
  | cons a rest =>
      rw [dedupKeys]
      exact dedupRun_sorted rest a hs hb

theorem dedupRun_eq_self :
    ∀ {rest : List TMROctant} {a : TMROctant},
      (a :: rest).Chain' (fun a b => ¬octFieldsEq a b) → dedupRun a rest = rest := by
  intro rest
  induction rest with
  | nil =>
      intro a _
      rw [dedupRun]
  | cons b tl ih =>
      intro a h
      rw [List.chain'_cons] at h
      rw [dedupRun, if_neg h.1, ih h.2]

theorem dedupKeys_eq_self {l : List TMROctant}
    (h : l.Chain' (fun a b => ¬octFieldsEq a b)) : dedupKeys l = l := by
  cases l with
  | nil => rw [dedupKeys]
  | cons a rest =>
      rw [dedupKeys, dedupRun_eq_self h]

theorem sorted_octLt_of_sorted_nodup {l : List TMROctant}
    (hs : List.Sorted octLe l)
    (hn : l.Pairwise (fun a b => ¬octFieldsEq a b))
    (hb : ∀ o ∈ l, coordBounded o) : List.Sorted octLt l := by
  unfold List.Sorted at *
  have hcomb := hs.and hn
  refine hcomb.imp_of_mem ?_
  intro a b ha hbmem hab
  exact octLt_of_le_of_ne (hb a ha) (hb b hbmem) hab.1 hab.2

theorem sortUnique_sorted (l : List TMROctant)
    (hb : ∀ o ∈ l, coordBounded o) : List.Sorted octLt (sortUnique l) := by
  unfold sortUnique
  exact dedupKeys_sorted _ (sortOcts_sorted l)
    (fun o ho => hb o ((sortOcts_perm l).mem_iff.mp ho))

/-- On a list whose `(x, y, z, level)` keys are already pairwise distinct,
`sortUnique` is just the Morton sort (a permutation of the input). -/
theorem sortUnique_perm_of_nodupKeys {l : List TMROctant}
    (hn : l.Pairwise (fun a b => ¬octFieldsEq a b)) :
    List.Perm (sortUnique l) l := by
  unfold sortUnique
  have hsym : ∀ {a b : TMROctant}, ¬octFieldsEq a b → ¬octFieldsEq b a := by
    intro a b h hf
    exact h ⟨hf.1.symm, hf.2.1.symm, hf.2.2.1.symm, hf.2.2.2.symm⟩
  have hn' : (sortOcts l).Pairwise (fun a b => ¬octFieldsEq a b) :=
    ((sortOcts_perm l).pairwise_iff hsym).mpr hn
  rw [dedupKeys_eq_self hn'.chain']
  exact sortOcts_perm l

/-- A strictly sorted list is left unchanged by `sortUnique`. -/
theorem sortUnique_eq_self {l : List TMROctant}
    (hs : List.Sorted octLt l) : sortUnique l = l := by
  have hle : List.Sorted octLe l := hs.imp (fun h => octLe_of_octLt h)
  have hne : l.Pairwise (fun a b => ¬octFieldsEq a b) :=
    hs.imp (fun h => not_octFieldsEq_of_octLt h)
  unfold sortUnique sortOcts
  rw [List.Sorted.insertionSort_eq hle, dedupKeys_eq_self hne.chain']

/-- Two strictly Morton-sorted lists with the same members are equal. -/
theorem sorted_eq_of_mem_iff {l₁ l₂ : List TMROctant}
    (h₁ : List.Sorted octLt l₁) (h₂ : List.Sorted octLt l₂)
    (hm : ∀ o, o ∈ l₁ ↔ o ∈ l₂) : l₁ = l₂ := by
  have hn₁ : l₁.Nodup := h₁.imp (fun {a b} h => by
    intro he
    subst he
    exact (irrefl_of octLt a) h)
  have hn₂ : l₂.Nodup := h₂.imp (fun {a b} h => by
    intro he
    subst he
    exact (irrefl_of octLt a) h)
  have hperm : List.Perm l₁ l₂ := (List.perm_ext_iff_of_nodup hn₁ hn₂).mpr hm
  exact List.eq_of_perm_of_sorted hperm h₁ h₂

theorem mem_hashAdd {l : List TMROctant} {o b : TMROctant} :
    b ∈ hashAdd l o → b ∈ l ∨ b = o := by
  unfold hashAdd
  by_cases h : l.any (fun b => decide (octFieldsEq b o))
  · rw [if_pos h]
    exact fun hb => Or.inl hb
  · rw [if_neg h]
    intro hb
    rcases List.mem_append.mp hb with hb | hb
    · exact Or.inl hb
    · exact Or.inr (List.mem_singleton.mp hb)

theorem hashAdd_no_collision {l : List TMROctant} {o : TMROctant}
    (h : ∀ b ∈ l, ¬octFieldsEq b o) : hashAdd l o = l ++ [o] := by
  unfold hashAdd
  have hc : l.any (fun b => decide (octFieldsEq b o)) = false := by
    rw [List.any_eq_false]
    intro b hb
    simpa using h b hb
  rw [hc]
  simp

/-- Folding `hashAdd` over pairwise key-distinct octants appends them all. -/
theorem foldl_hashAdd_append : ∀ (os acc : List TMROctant),
    (acc ++ os).Pairwise (fun a b => ¬octFieldsEq a b) →
    os.foldl hashAdd acc = acc ++ os
  | [], acc, _ => by simp
  | o :: os, acc, h => by
      have hacc : ∀ b ∈ acc, ¬octFieldsEq b o := by
        intro b hb
        have := List.pairwise_append.mp h
        exact this.2.2 b hb o (List.mem_cons_self _ _)
      rw [List.foldl_cons, hashAdd_no_collision hacc]
      have h' : (acc ++ [o] ++ os).Pairwise
          (fun a b => ¬octFieldsEq a b) := by
        have : acc ++ [o] ++ os = acc ++ (o :: os) := by simp
        rw [this]
        exact h
      rw [foldl_hashAdd_append os (acc ++ [o]) h']
      simp

/-! ### The octree operations, translated from `src/src/TMROctree.c` -/

instance : Inhabited TMROctant := ⟨⟨0, 0, 0, 0, 0⟩⟩

/-- The entry clamp of `TMROctree::TMROctree(int refine_level)`:
`if (refine_level < 0) refine_level = 0;
 else if (refine_level-1 > TMR_MAX_LEVEL) refine_level = TMR_MAX_LEVEL-1;`. -/
def clampRefineLevel (rl : Int) : Int :=
  if rl < 0 then 0
  else if rl - 1 > (TMR_MAX_LEVEL : Int) then (TMR_MAX_LEVEL : Int) - 1
  else rl

/-- The octant grid generated by the level-uniform constructor: the loop
`for z step h { for y step h { for x step h { ... } } }` with
`h = 1 << (TMR_MAX_LEVEL - L)`, levels all `L`, before sorting.
(`tag` is left default-initialised by `new TMROctant[]`; modelled as 0.) -/
def uniformOctants (L : Nat) : List TMROctant :=
  (List.range (2 ^ L)).flatMap (fun zi =>
    (List.range (2 ^ L)).flatMap (fun yi =>
      (List.range (2 ^ L)).map (fun xi =>
        ⟨xi * 2 ^ (TMR_MAX_LEVEL - L), yi * 2 ^ (TMR_MAX_LEVEL - L),
         zi * 2 ^ (TMR_MAX_LEVEL - L), L, 0⟩)))

/-- `TMROctree::TMROctree(int refine_level)`: clamp, build the uniform grid,
sort.  When the clamped level still exceeds `TMR_MAX_LEVEL` (which the
clamp allows for `refine_level = TMR_MAX_LEVEL + 1`), the C code computes
`1 << (TMR_MAX_LEVEL - refine_level)` with a negative shift count, which is
undefined behaviour; this is modelled as an error outcome. -/
def tmrOctreeOfLevel (refine_level : Int) : Except Unit (List TMROctant) :=
  let L := clampRefineLevel refine_level
  if (TMR_MAX_LEVEL : Int) < L then Except.error ()
  else Except.ok (sortUnique (uniformOctants L.toNat))

/-- The seed inserted by `TMROctree::refine` for one element, by the sign of
its refinement entry (with the already-clamped `min_level`/`max_level`). -/
def refineSeed (o : TMROctant) (r : Int) (minc maxc : Int) : TMROctant :=
  if r = 0 then getSibling 0 o
  else if r < 0 then
    if minc < (o.level : Int) then
      { getSibling 0 o with level := o.level - 1 }
    else o
  else
    if (o.level : Int) < maxc then { o with level := o.level + 1 } else o

/-- The sibling-expansion loop of `TMROctree::refine`: for every entry of
the (sorted) seed array, add each of its eight siblings that lies inside
the domain to the (emptied) hash.  (The C guard also tests `q.x >= 0`
etc.; with `Nat` coordinates the lower bound holds trivially.) -/
def siblingExpand (child0s : List TMROctant) : List TMROctant :=
  child0s.foldl (fun acc o => (List.range 8).foldl
    (fun acc2 j =>
      let q := getSibling j o
      if q.x < hmax ∧ q.y < hmax ∧ q.z < hmax then hashAdd acc2 q
      else acc2) acc) []

/-- `TMROctree::refine`: clamp the level bounds, hash the per-element seeds,
convert to an array, add all in-domain siblings of every entry to the
(emptied) hash, and sort the result into the new element array. -/
def refine (elems : List TMROctant) (refinement : List Int)
    (min_level max_level : Int) : List TMROctant :=
  let maxc := if (TMR_MAX_LEVEL : Int) < max_level then
    (TMR_MAX_LEVEL : Int) else max_level
  let minc0 := if min_level < 0 then 0 else min_level
  let minc := if maxc < minc0 then maxc else minc0
  let seeds := (List.zip elems refinement).foldl
    (fun acc pr => hashAdd acc (refineSeed pr.1 pr.2 minc maxc)) []
  let child0_elems := sortUnique seeds
  sortUnique (sortUnique (siblingExpand child0_elems))

/-- The family test of one step of the `TMROctree::coarsen` scan: the
current entry has positive level and child id 0, the entry seven positions
later exists with child id 7, and its 0-sibling compares equal to the
current entry. -/
def famTest (a : TMROctant) (rest : List TMROctant) : Bool :=
  match rest.get? 6 with
  | none => false
  | some b =>
      decide (0 < a.level) && decide (childId a = 0) &&
        decide (childId b = 7) && decide (octCmpEq a (getSibling 0 b))

/-- The linear scan of `TMROctree::coarsen`: when the family test fires,
push the parent and skip the eight entries, otherwise push the entry.
This is the structural rendition of the scan; `coarsenLoopGo` below is the
index-based translation of the C loop, and the two are proved equal. -/
def coarsenScan : List TMROctant → List TMROctant
  | [] => []
  | a :: b1 :: b2 :: b3 :: b4 :: b5 :: b6 :: b7 :: tl =>
      if famTest a (b1 :: b2 :: b3 :: b4 :: b5 :: b6 :: b7 :: tl) then
        parentOct a :: coarsenScan tl
      else a :: coarsenScan (b1 :: b2 :: b3 :: b4 :: b5 :: b6 :: b7 :: tl)
  | a :: rest => a :: coarsenScan rest

theorem famTest_eq_false_of_short {a : TMROctant} {rest : List TMROctant}
    (h : rest.length < 7) : famTest a rest = false := by
  unfold famTest
  have hn : rest.get? 6 = none := List.get?_eq_none.mpr (by omega)
  rw [hn]

theorem coarsenScan_cons (a : TMROctant) (rest : List TMROctant) :
    coarsenScan (a :: rest) =
      if famTest a rest then parentOct a :: coarsenScan (rest.drop 7)
      else a :: coarsenScan rest := by
  rcases rest with _ | ⟨b1, _ | ⟨b2, _ | ⟨b3, _ | ⟨b4, _ | ⟨b5, _ |
    ⟨b6, _ | ⟨b7, tl⟩⟩⟩⟩⟩⟩⟩
  · rw [famTest_eq_false_of_short (by simp)]
    rfl
  · rw [famTest_eq_false_of_short (by simp)]
    rfl
  · rw [famTest_eq_false_of_short (by simp)]
    rfl
  · rw [famTest_eq_false_of_short (by simp)]
    rfl
  · rw [famTest_eq_false_of_short (by simp)]
    rfl
  · rw [famTest_eq_false_of_short (by simp)]
    rfl
  · rw [famTest_eq_false_of_short (by simp)]
    rfl
  · rfl

/-- The `for (i = 0; i < size; i++)` loop of `TMROctree::coarsen`, with the
literal condition order of the C code (`level > 0`, `childId() == 0`,
`i + offset < size`, `childId(array[i+offset]) == offset`, then the
0-sibling comparison) and the `i += offset` skip on a match.  The `fuel`
argument is an artifact of the embedding; `coarsen` supplies enough and
the loop is proved to consume at most `size - i` steps. -/
def coarsenLoopGo (arr : List TMROctant) : Nat → Nat → List TMROctant
  | 0, _ => []
  | fuel + 1, i =>
      if hi : i < arr.length then
        let a := arr.get ⟨i, hi⟩
        if 0 < a.level ∧ childId a = 0 ∧ i + 7 < arr.length ∧
            childId (arr.getD (i + 7) default) = 7 ∧
            octCmpEq a (getSibling 0 (arr.getD (i + 7) default)) then
          parentOct a :: coarsenLoopGo arr fuel (i + 8)
        else a :: coarsenLoopGo arr fuel (i + 1)
      else []

/-- `TMROctree::coarsen`: the scan result is handed to
`TMROctree(TMROctantArray*)`, whose constructor sorts it; the returned
list is the element array of the new octree. -/
def coarsen (elems : List TMROctant) : List TMROctant :=
  sortUnique (coarsenLoopGo elems (elems.length + 1) 0)

/-- Outcome of `TMROctree::findEnclosing`: a pointer to the element at some
index, the null pointer, or an out-of-bounds array access (undefined
behaviour in the C code). -/
inductive FEOutcome where
  | found (i : Nat)
  | nullPtr
  | oob
deriving DecidableEq, Repr

/-- Bounds-checked array access `elems[i]` for a C `int` index. -/
def getI (elems : List TMROctant) (i : Int) : Option TMROctant :=
  if 0 ≤ i ∧ i < (elems.length : Int) then elems.get? i.toNat else none

/-- The code after the search loop of `findEnclosing`: check `elems[mid]`,
then `elems[low]`, return NULL if neither contains the octant. -/
def fePost (elems : List TMROctant) (o : TMROctant) (low mid : Int) :
    FEOutcome :=
  match getI elems mid with
  | none => FEOutcome.oob
  | some em =>
      if containsCube em o then FEOutcome.found mid.toNat
      else
        match getI elems low with
        | none => FEOutcome.oob
        | some el =>
            if containsCube el o then FEOutcome.found low.toNat
            else FEOutcome.nullPtr

/-- The `while (high != mid)` loop of `findEnclosing`.  The `fuel` bound is
an artifact of the embedding; `findEnclosing` supplies enough fuel and the
loop is proved to terminate within it.  The mid-point update is
`mid = high - (high - low)/2` with C's truncating division. -/
def feGo (elems : List TMROctant) (o : TMROctant) :
    Nat → Int → Int → Int → Option FEOutcome
  | 0, _, _, _ => none
  | fuel + 1, low, high, mid =>
      if high = mid then some (fePost elems o low mid)
      else
        match getI elems mid with
        | none => some FEOutcome.oob
        | some em =>
            if containsCube em o then some (FEOutcome.found mid.toNat)
            else
              if octLt o em then
                feGo elems o fuel low (mid - 1)
                  (mid - 1 - Int.tdiv (mid - 1 - low) 2)
              else
                feGo elems o fuel (mid + 1) high
                  (high - Int.tdiv (high - (mid + 1)) 2)

/-- `TMROctree::findEnclosing`: `low = 0`, `high = size-1`,
`mid = low + (high - low)/2`, then the loop. -/
def findEnclosing (elems : List TMROctant) (o : TMROctant) :
    Option FEOutcome :=
  feGo elems o (elems.length + 2) 0 ((elems.length : Int) - 1)
    (0 + Int.tdiv ((elems.length : Int) - 1 - 0) 2)

/-- `TMROctree::findEnclosingRange`: locate the enclosing elements of the
first and last level-`TMR_MAX_LEVEL` descendants of `o` and bracket their
tags; `low`/`high` default to `0`/`num_elements` (the element count, per
the spec's note) when a search returns NULL.  `none` models either an
out-of-bounds access inside `findEnclosing` or fuel exhaustion. -/
def findEnclosingRange (elems : List TMROctant) (o : TMROctant) :
    Option (Int × Int) :=
  let p1 : TMROctant := { o with level := TMR_MAX_LEVEL }
  let p2 : TMROctant :=
    { o with
      x := o.x + (hOct o - 1), y := o.y + (hOct o - 1),
      z := o.z + (hOct o - 1), level := TMR_MAX_LEVEL }
  match findEnclosing elems p1 with
  | none => none
  | some FEOutcome.oob => none
  | some r1 =>
      match findEnclosing elems p2 with
      | none => none
      | some FEOutcome.oob => none
      | some r2 =>
          let low : Int := match r1 with
            | FEOutcome.found i => (elems.getD i default).tag
            | _ => 0
          let high : Int := match r2 with
            | FEOutcome.found i => (elems.getD i default).tag + 1
            | _ => (elems.length : Int)
          some (low, high)

/-- The order clamp at the top of `TMROctree::createNodes`. -/
def clampOrder (ord : Int) : Nat :=
  if ord < 2 then 2 else if 3 < ord then 3 else ord.toNat

/-- The `order^3` candidate nodes one element contributes in
`TMROctree::createNodes`: tensor-product positions at step `h` (order 2,
`h = 1 << (TMR_MAX_LEVEL - level)`) or `h/2` (order 3,
`h/2 = 1 << (TMR_MAX_LEVEL - level - 1)`), each with `level = 0` and
`tag = 1`.  For order 3 an element of level `TMR_MAX_LEVEL` makes the C
code shift by a negative count (undefined behaviour), modelled as an
error. -/
def nodesOfElement (o : TMROctant) (ord : Nat) :
    Except Unit (List TMROctant) :=
  if ord = 2 then
    if o.level ≤ TMR_MAX_LEVEL then
      Except.ok ((List.range 2).flatMap (fun kk =>
        (List.range 2).flatMap (fun jj =>
          (List.range 2).map (fun ii =>
            ⟨o.x + ii * 2 ^ (TMR_MAX_LEVEL - o.level),
             o.y + jj * 2 ^ (TMR_MAX_LEVEL - o.level),
             o.z + kk * 2 ^ (TMR_MAX_LEVEL - o.level), 0, 1⟩))))
    else Except.error ()
  else
    if o.level + 1 ≤ TMR_MAX_LEVEL then
      Except.ok ((List.range 3).flatMap (fun kk =>
        (List.range 3).flatMap (fun jj =>
          (List.range 3).map (fun ii =>
            ⟨o.x + ii * 2 ^ (TMR_MAX_LEVEL - o.level - 1),
             o.y + jj * 2 ^ (TMR_MAX_LEVEL - o.level - 1),
             o.z + kk * 2 ^ (TMR_MAX_LEVEL - o.level - 1), 0, 1⟩))))
    else Except.error ()

/-- `TMROctree::createNodes`: clamp the order, emit all per-element
candidates, sort (and key-deduplicate) them into the node array. -/
def createNodes (elems : List TMROctant) (ordArg : Int) :
    Except Unit (List TMROctant) := do
  let ord := clampOrder ordArg
  let all ← elems.mapM (fun o => nodesOfElement o ord)
  Except.ok (sortUnique all.flatten)

/-! ### Interpolation, translated from the commented-out single-tree
`TMROctree::createInterpolation` (designated by the spec as the
authoritative reference for §4.13).  `double` weights are idealised as
rationals. -/

structure TMRIndexWeight where
  index : Int
  weight : ℚ
deriving DecidableEq, Repr

def iwLe (a b : TMRIndexWeight) : Prop := a.index ≤ b.index

instance : DecidableRel iwLe := fun a b => by unfold iwLe; infer_instance

instance : IsTotal TMRIndexWeight iwLe := ⟨by
  intro a b
  unfold iwLe
  omega⟩

instance : IsTrans TMRIndexWeight iwLe := ⟨by
  intro a b c h1 h2
  unfold iwLe at *
  omega⟩

/-- Coalesce runs of equal indices in a sorted list, summing weights: the
first argument is the entry currently being accumulated. -/
def coalesceGo : TMRIndexWeight → List TMRIndexWeight → List TMRIndexWeight
  | a, [] => [a]
  | a, b :: rest =>
      if b.index = a.index then coalesceGo ⟨a.index, a.weight + b.weight⟩ rest
      else a :: coalesceGo b rest

/-- Coalesce runs of equal indices in a sorted list, summing weights. -/
def coalesceIW : List TMRIndexWeight → List TMRIndexWeight
  | [] => []
  | a :: rest => coalesceGo a rest

/-- Modelled from the spec: `TMRIndexWeight::uniqueSort` sorts the
`(index, weight)` pairs by index and coalesces duplicates, summing
weights. -/
def uniqueSortIW (l : List TMRIndexWeight) : List TMRIndexWeight :=
  coalesceIW (List.insertionSort iwLe l)

/-- Modelled from the spec: `TMROctantArray::contains` with `use_nodes=1`
compares by `(x, y, z)` only (callers guarantee uniqueness in that mode). -/
def nodeContains (ns : List TMROctant) (px py pz : Nat) : Option TMROctant :=
  ns.find? (fun t =>
    decide (t.x = px) && decide (t.y = py) && decide (t.z = pz))

/-- Expansion of one coarse node pointer `t` with scale factor `scale`:
an independent node (`tag >= 0`) contributes `(tag, scale)`; a dependent
node is unravelled through the coarse dependent-node table with its weights
multiplied by `scale`.  Dependent-table accesses outside the arrays (the C
code reads them unchecked) are modelled as errors. -/
def expandTag (dp : List Nat) (dc : List Int) (dw : List ℚ)
    (t : TMROctant) (scale : ℚ) : Except Unit (List TMRIndexWeight) :=
  if 0 ≤ t.tag then Except.ok [⟨t.tag, scale⟩]
  else
    let node := (-t.tag - 1).toNat
    match dp.get? node, dp.get? (node + 1) with
    | some a, some b =>
        if a ≤ b ∧ b ≤ dc.length ∧ b ≤ dw.length then
          Except.ok ((List.range (b - a)).map (fun j =>
            ⟨dc.getD (a + j) 0, scale * dw.getD (a + j) 0⟩))
        else Except.error ()
    | _, _ => Except.error ()

/-- A stencil lookup `coarse->nodes->contains(&p, use_nodes)` followed by
`t->tag`: the C code dereferences the result without a null check, so a
missing coarse node is an error outcome. -/
def lookupExpand (cn : List TMROctant) (dp : List Nat) (dc : List Int)
    (dw : List ℚ) (px py pz : Nat) (scale : ℚ) :
    Except Unit (List TMRIndexWeight) :=
  match nodeContains cn px py pz with
  | none => Except.error ()
  | some t => expandTag dp dc dw t scale

/-- Effectful map over a list in the `Except` monad, written with
structural recursion so that the kernel can evaluate it. -/
def mapME {α β : Type} (g : α → Except Unit β) : List α → Except Unit (List β)
  | [] => Except.ok []
  | a :: l => do
      let b ← g a
      let bs ← mapME g l
      Except.ok (b :: bs)

theorem exceptBind_ok {α β : Type} (a : α) (k : α → Except Unit β) :
    (Except.ok a : Except Unit α) >>= k = k a := rfl

theorem exceptBind_err {α β : Type} (e : Unit) (k : α → Except Unit β) :
    (Except.error e : Except Unit α) >>= k = Except.error e := rfl

/-- The weight list assembled by one iteration of the `createInterpolation`
loop for the fine node `f` (before `uniqueSort`): coincident coarse node if
present, otherwise the stencil selected by `f`'s child id (child id 0 has
no branch in the C code and produces an empty row). -/
def interpRowCore (cn : List TMROctant) (dp : List Nat) (dc : List Int)
    (dw : List ℚ) (f : TMROctant) : Except Unit (List TMRIndexWeight) :=
  match nodeContains cn f.x f.y f.z with
  | some t => expandTag dp dc dw t 1
  | none =>
      let id := childId f
      let h := hOct f
      let n := getSibling 0 f
      if id = 1 ∨ id = 2 ∨ id = 4 then do
        let w1 ← lookupExpand cn dp dc dw n.x n.y n.z (1/2)
        let w2 ←
          if id = 1 then
            lookupExpand cn dp dc dw (n.x + 2 * h) n.y n.z (1/2)
          else if id = 2 then
            lookupExpand cn dp dc dw n.x (n.y + 2 * h) n.z (1/2)
          else
            lookupExpand cn dp dc dw n.x n.y (n.z + 2 * h) (1/2)
        Except.ok (w1 ++ w2)
      else if id = 3 ∨ id = 5 ∨ id = 6 then do
        let ie : Nat × Nat × Nat :=
          if id = 3 then (1, 0, 0) else if id = 5 then (1, 0, 0)
          else (0, 1, 0)
        let je : Nat × Nat × Nat :=
          if id = 3 then (0, 1, 0) else if id = 5 then (0, 0, 1)
          else (0, 0, 1)
        let ws ← mapME (fun q =>
          lookupExpand cn dp dc dw
            (n.x + 2 * h * (q.2 * ie.1 + q.1 * je.1))
            (n.y + 2 * h * (q.2 * ie.2.1 + q.1 * je.2.1))
            (n.z + 2 * h * (q.2 * ie.2.2 + q.1 * je.2.2)) (1/4))
          ([(0, 0), (0, 1), (1, 0), (1, 1)] : List (Nat × Nat))
        Except.ok ws.flatten
      else if id = 7 then do
        let ws ← mapME (fun q =>
          lookupExpand cn dp dc dw
            (n.x + 2 * h * q.2.2) (n.y + 2 * h * q.2.1)
            (n.z + 2 * h * q.1) (1/8))
          ([(0, 0, 0), (0, 0, 1), (0, 1, 0), (0, 1, 1),
            (1, 0, 0), (1, 0, 1), (1, 1, 0), (1, 1, 1)] :
            List (Nat × Nat × Nat))
        Except.ok ws.flatten
      else Except.ok []

/-- One interpolation row: the assembled weights, unique-sorted. -/
def interpRow (cn : List TMROctant) (dp : List Nat) (dc : List Int)
    (dw : List ℚ) (f : TMROctant) : Except Unit (List TMRIndexWeight) :=
  (interpRowCore cn dp dc dw f).map uniqueSortIW

/-- `TMROctree::createInterpolation`: one row per fine node with
non-negative tag, in node order. -/
def createInterpolationRows (fineNodes : List TMROctant)
    (cn : List TMROctant) (dp : List Nat) (dc : List Int) (dw : List ℚ) :
    Except Unit (List (List TMRIndexWeight)) :=
  mapME (interpRow cn dp dc dw)
    (fineNodes.filter (fun f => decide (0 ≤ f.tag)))

/-! ### Properties of the level-uniform constructor -/

theorem mem_uniformOctants {L : Nat} {o : TMROctant} :
    o ∈ uniformOctants L ↔
      ∃ xi yi zi, xi < 2 ^ L ∧ yi < 2 ^ L ∧ zi < 2 ^ L ∧
        o = ⟨xi * 2 ^ (TMR_MAX_LEVEL - L), yi * 2 ^ (TMR_MAX_LEVEL - L),
          zi * 2 ^ (TMR_MAX_LEVEL - L), L, 0⟩ := by
  unfold uniformOctants
  simp only [List.mem_flatMap, List.mem_map, List.mem_range]
  constructor
  · rintro ⟨zi, hz, yi, hy, xi, hx, rfl⟩
    exact ⟨xi, yi, zi, hx, hy, hz, rfl⟩
  · rintro ⟨xi, yi, zi, hx, hy, hz, rfl⟩
    exact ⟨zi, hz, yi, hy, xi, hx, rfl⟩

theorem uniformOctants_eq (L : Nat) :
    uniformOctants L =
      ((List.range (2 ^ L) ×ˢ (List.range (2 ^ L) ×ˢ
        List.range (2 ^ L))).map
        (fun t : Nat × Nat × Nat =>
          (⟨t.2.2 * 2 ^ (TMR_MAX_LEVEL - L), t.2.1 * 2 ^ (TMR_MAX_LEVEL - L),
            t.1 * 2 ^ (TMR_MAX_LEVEL - L), L, 0⟩ : TMROctant))) := by
  unfold uniformOctants
  simp [SProd.sprod, List.product, List.map_flatMap, List.map_map,
    Function.comp_def]

theorem uniformOctants_length (L : Nat) :
    (uniformOctants L).length = 2 ^ (3 * L) := by
  rw [uniformOctants_eq, List.length_map, List.length_product,
    List.length_product, List.length_range]
  rw [show 3 * L = L + (L + L) by ring, pow_add, pow_add]

theorem uniformOctants_nodupKeys (L : Nat) :
    (uniformOctants L).Pairwise (fun a b => ¬octFieldsEq a b) := by
  have hpos : (0:Nat) < 2 ^ (TMR_MAX_LEVEL - L) :=
    Nat.pos_pow_of_pos _ (by norm_num)
  have hinj : Function.Injective (fun t : Nat × Nat × Nat =>
      (⟨t.2.2 * 2 ^ (TMR_MAX_LEVEL - L), t.2.1 * 2 ^ (TMR_MAX_LEVEL - L),
        t.1 * 2 ^ (TMR_MAX_LEVEL - L), L, 0⟩ : TMROctant)) := by
    intro a b hab
    obtain ⟨a1, a2, a3⟩ := a
    obtain ⟨b1, b2, b3⟩ := b
    simp only [TMROctant.mk.injEq] at hab
    have h1 : a1 = b1 := Nat.eq_of_mul_eq_mul_right hpos hab.2.2.1
    have h2 : a2 = b2 := Nat.eq_of_mul_eq_mul_right hpos hab.2.1
    have h3 : a3 = b3 := Nat.eq_of_mul_eq_mul_right hpos hab.1
    simp [h1, h2, h3]
  have hnd : (uniformOctants L).Nodup := by
    rw [uniformOctants_eq]
    exact ((List.nodup_range _).product
      ((List.nodup_range _).product (List.nodup_range _))).map hinj
  refine hnd.imp_of_mem ?_
  intro a b ha hb hne hf
  have hta : a.tag = 0 := by
    obtain ⟨_, _, _, _, _, _, rfl⟩ := mem_uniformOctants.mp ha
    rfl
  have htb : b.tag = 0 := by
    obtain ⟨_, _, _, _, _, _, rfl⟩ := mem_uniformOctants.mp hb
    rfl
  obtain ⟨h1, h2, h3, h4⟩ := hf
  apply hne
  obtain ⟨ax, ay, az, al, at'⟩ := a
  obtain ⟨bx, b2, b3, b4, b5⟩ := b
  simp only at h1 h2 h3 h4 hta htb
  subst h1; subst h2; subst h3; subst h4; subst hta; subst htb
  rfl

theorem uniformOctants_valid {L : Nat} (hL : L ≤ TMR_MAX_LEVEL)
    {o : TMROctant} (ho : o ∈ uniformOctants L) :
    validOct o ∧ o.level = L := by
  obtain ⟨xi, yi, zi, hx, hy, hz, rfl⟩ := mem_uniformOctants.mp ho
  have hpow : 2 ^ L * 2 ^ (TMR_MAX_LEVEL - L) = hmax := by
    rw [← pow_add]
    unfold hmax
    congr 1
    omega
  have hh : hOct (⟨xi * 2 ^ (TMR_MAX_LEVEL - L), yi * 2 ^ (TMR_MAX_LEVEL - L),
      zi * 2 ^ (TMR_MAX_LEVEL - L), L, 0⟩ : TMROctant) =
      2 ^ (TMR_MAX_LEVEL - L) := rfl
  refine ⟨⟨hL, ?_, ?_, ?_, ?_, ?_, ?_⟩, rfl⟩
  · rw [hh]; exact dvd_mul_left _ _
  · rw [hh]; exact dvd_mul_left _ _
  · rw [hh]; exact dvd_mul_left _ _
  · rw [hh]
    show xi * 2 ^ (TMR_MAX_LEVEL - L) + 2 ^ (TMR_MAX_LEVEL - L) ≤ hmax
    calc xi * 2 ^ (TMR_MAX_LEVEL - L) + 2 ^ (TMR_MAX_LEVEL - L) =
        (xi + 1) * 2 ^ (TMR_MAX_LEVEL - L) := by ring
      _ ≤ 2 ^ L * 2 ^ (TMR_MAX_LEVEL - L) :=
          Nat.mul_le_mul_right _ (by omega)
      _ = hmax := hpow
  · rw [hh]
    show yi * 2 ^ (TMR_MAX_LEVEL - L) + 2 ^ (TMR_MAX_LEVEL - L) ≤ hmax
    calc yi * 2 ^ (TMR_MAX_LEVEL - L) + 2 ^ (TMR_MAX_LEVEL - L) =
        (yi + 1) * 2 ^ (TMR_MAX_LEVEL - L) := by ring
      _ ≤ 2 ^ L * 2 ^ (TMR_MAX_LEVEL - L) :=
          Nat.mul_le_mul_right _ (by omega)
      _ = hmax := hpow
  · rw [hh]
    show zi * 2 ^ (TMR_MAX_LEVEL - L) + 2 ^ (TMR_MAX_LEVEL - L) ≤ hmax
    calc zi * 2 ^ (TMR_MAX_LEVEL - L) + 2 ^ (TMR_MAX_LEVEL - L) =
        (zi + 1) * 2 ^ (TMR_MAX_LEVEL - L) := by ring
      _ ≤ 2 ^ L * 2 ^ (TMR_MAX_LEVEL - L) :=
          Nat.mul_le_mul_right _ (by omega)
      _ = hmax := hpow

theorem aligned_unique {h a b p : Nat} (h1 : a * h ≤ p) (h2 : p < a * h + h)
    (h3 : b * h ≤ p) (h4 : p < b * h + h) : a = b := by
  rcases Nat.lt_trichotomy a b with hab | hab | hab
  · have hstep : (a + 1) * h ≤ b * h := Nat.mul_le_mul_right _ (by omega)
    rw [add_mul, one_mul] at hstep
    omega
  · exact hab
  · have hstep : (b + 1) * h ≤ a * h := Nat.mul_le_mul_right _ (by omega)
    rw [add_mul, one_mul] at hstep
    omega

theorem uniformOctants_cover {L : Nat} (hL : L ≤ TMR_MAX_LEVEL)
    {px py pz : Nat} (hx : px < hmax) (hy : py < hmax) (hz : pz < hmax) :
    ∃! o, o ∈ uniformOctants L ∧ pointInCube o px py pz := by
  have hpos : (0:Nat) < 2 ^ (TMR_MAX_LEVEL - L) :=
    Nat.pos_pow_of_pos _ (by norm_num)
  have hpow : 2 ^ L * 2 ^ (TMR_MAX_LEVEL - L) = hmax := by
    rw [← pow_add]
    unfold hmax
    congr 1
    omega
  have hdiv : ∀ p : Nat, p < hmax →
      p / 2 ^ (TMR_MAX_LEVEL - L) < 2 ^ L := by
    intro p hp
    rw [Nat.div_lt_iff_lt_mul hpos]
    have hc : 2 ^ (TMR_MAX_LEVEL - L) * 2 ^ L = hmax := by
      rw [← hpow]; ring
    omega
  have hin : ∀ p : Nat, p / 2 ^ (TMR_MAX_LEVEL - L) *
        2 ^ (TMR_MAX_LEVEL - L) ≤ p ∧
      p < p / 2 ^ (TMR_MAX_LEVEL - L) * 2 ^ (TMR_MAX_LEVEL - L) +
        2 ^ (TMR_MAX_LEVEL - L) := by
    intro p
    have h1 := Nat.div_add_mod p (2 ^ (TMR_MAX_LEVEL - L))
    have h1' : p / 2 ^ (TMR_MAX_LEVEL - L) * 2 ^ (TMR_MAX_LEVEL - L) =
        2 ^ (TMR_MAX_LEVEL - L) * (p / 2 ^ (TMR_MAX_LEVEL - L)) := by ring
    have h2 := Nat.mod_lt p hpos
    omega
  refine ⟨⟨px / 2 ^ (TMR_MAX_LEVEL - L) * 2 ^ (TMR_MAX_LEVEL - L),
      py / 2 ^ (TMR_MAX_LEVEL - L) * 2 ^ (TMR_MAX_LEVEL - L),
      pz / 2 ^ (TMR_MAX_LEVEL - L) * 2 ^ (TMR_MAX_LEVEL - L), L, 0⟩,
      ⟨?_, ?_⟩, ?_⟩
  · exact mem_uniformOctants.mpr ⟨px / 2 ^ (TMR_MAX_LEVEL - L),
      py / 2 ^ (TMR_MAX_LEVEL - L), pz / 2 ^ (TMR_MAX_LEVEL - L),
      hdiv px hx, hdiv py hy, hdiv pz hz, rfl⟩
  · exact ⟨(hin px).1, (hin px).2, (hin py).1, (hin py).2,
      (hin pz).1, (hin pz).2⟩
  · rintro o ⟨hom, hop⟩
    obtain ⟨xi, yi, zi, hxi, hyi, hzi, rfl⟩ := mem_uniformOctants.mp hom
    obtain ⟨p1, p2, p3, p4, p5, p6⟩ := hop
    have e1 : xi = px / 2 ^ (TMR_MAX_LEVEL - L) :=
      aligned_unique p1 p2 (hin px).1 (hin px).2
    have e2 : yi = py / 2 ^ (TMR_MAX_LEVEL - L) :=
      aligned_unique p3 p4 (hin py).1 (hin py).2
    have e3 : zi = pz / 2 ^ (TMR_MAX_LEVEL - L) :=
      aligned_unique p5 p6 (hin pz).1 (hin pz).2
    rw [e1, e2, e3]

theorem TMR_MAX_LEVEL_eq : TMR_MAX_LEVEL = 30 := rfl

theorem clampRefineLevel_nonneg (rl : Int) : 0 ≤ clampRefineLevel rl := by
  unfold clampRefineLevel
  rw [TMR_MAX_LEVEL_eq]
  split_ifs <;> omega

/-- C8: `TMROctree(int refine_level)` is claimed to clamp the level into
`[0, LMAX]` on entry and build the sorted uniform grid of `2^(3L)` level-`L`
octants tiling `[0, HMAX)^3`.  The clamp is off by one: `refine_level =
TMR_MAX_LEVEL + 1` passes unclamped and the constructor then computes
`1 << (TMR_MAX_LEVEL - refine_level)` with a negative shift count
(undefined behaviour, modelled as an error outcome).  For every argument
the clamp does keep within `[0, TMR_MAX_LEVEL]`, the claimed grid is
built. -/
theorem spec_C8 :
    (clampRefineLevel ((TMR_MAX_LEVEL : Int) + 1) = (TMR_MAX_LEVEL : Int) + 1 ∧
      tmrOctreeOfLevel ((TMR_MAX_LEVEL : Int) + 1) = Except.error ()) ∧
    (∀ rl : Int, clampRefineLevel rl ≤ (TMR_MAX_LEVEL : Int) →
      ∃ l, tmrOctreeOfLevel rl = Except.ok l ∧
        List.Sorted octLt l ∧
        l.length = 2 ^ (3 * (clampRefineLevel rl).toNat) ∧
        (∀ o ∈ l, validOct o ∧ o.level = (clampRefineLevel rl).toNat) ∧
        (∀ px py pz : Nat, px < hmax → py < hmax → pz < hmax →
          ∃! o, o ∈ l ∧ pointInCube o px py pz)) := by
  constructor
  · constructor
    · decide
    · rfl
  · intro rl hrl
    set L := (clampRefineLevel rl).toNat with hLdef
    have hL : L ≤ TMR_MAX_LEVEL := by
      have := clampRefineLevel_nonneg rl
      unfold TMR_MAX_LEVEL at *
      omega
    have hok : tmrOctreeOfLevel rl =
        Except.ok (sortUnique (uniformOctants L)) := by
      unfold tmrOctreeOfLevel
      rw [if_neg (by omega)]
    have hvalid : ∀ o ∈ uniformOctants L, validOct o ∧ o.level = L :=
      fun o ho => uniformOctants_valid hL ho
    have hbound : ∀ o ∈ uniformOctants L, coordBounded o :=
      fun o ho => coordBounded_of_valid (hvalid o ho).1
    have hperm : List.Perm (sortUnique (uniformOctants L))
        (uniformOctants L) :=
      sortUnique_perm_of_nodupKeys (uniformOctants_nodupKeys L)
    refine ⟨sortUnique (uniformOctants L), hok, ?_, ?_, ?_, ?_⟩
    · exact sortUnique_sorted _ hbound
    · rw [hperm.length_eq, uniformOctants_length]
    · intro o ho
      exact hvalid o (hperm.mem_iff.mp ho)
    · intro px py pz hx hy hz
      obtain ⟨o, ⟨hom, hop⟩, huniq⟩ := uniformOctants_cover hL hx hy hz
      exact ⟨o, ⟨hperm.mem_iff.mpr hom, hop⟩,
        fun o' ⟨ho'm, ho'p⟩ => huniq o' ⟨hperm.mem_iff.mp ho'm, ho'p⟩⟩

/-- Witness for the universally quantified part of `spec_C8`, at
`refine_level = 2`. -/
theorem spec_C8_witness :
    clampRefineLevel 2 ≤ (TMR_MAX_LEVEL : Int) ∧
    ∃ l, tmrOctreeOfLevel 2 = Except.ok l ∧
      List.Sorted octLt l ∧
      l.length = 2 ^ (3 * (clampRefineLevel 2).toNat) ∧
      (∀ o ∈ l, validOct o ∧ o.level = (clampRefineLevel 2).toNat) ∧
      (∀ px py pz : Nat, px < hmax → py < hmax → pz < hmax →
        ∃! o, o ∈ l ∧ pointInCube o px py pz) :=
  ⟨by decide, spec_C8.2 2 (by decide)⟩

/-! ### Safety of the `findEnclosing` binary search -/

theorem tdiv2_bounds {d : Int} (hd : 0 ≤ d) :
    0 ≤ Int.tdiv d 2 ∧ Int.tdiv d 2 ≤ d := by
  rw [Int.tdiv_eq_ediv hd (by norm_num)]
  omega

theorem tdiv2_neg_one : Int.tdiv (-1) 2 = 0 := by decide

theorem getI_some {elems : List TMROctant} {i : Int} (h1 : 0 ≤ i)
    (h2 : i < (elems.length : Int)) : ∃ e, getI elems i = some e := by
  unfold getI
  rw [if_pos ⟨h1, h2⟩]
  have hlt : i.toNat < elems.length := by omega
  exact ⟨elems.get ⟨i.toNat, hlt⟩, List.get?_eq_get hlt⟩

theorem getI_zero {elems : List TMROctant} (h : elems ≠ []) :
    getI elems 0 = some elems.headI := by
  unfold getI
  cases elems with
  | nil => simp at h
  | cons a l =>
      rw [if_pos (by constructor <;> simp)]
      rfl

theorem fePost_safe (elems : List TMROctant) (o : TMROctant)
    {low mid : Int} (h1 : 0 ≤ mid) (h2 : mid < (elems.length : Int))
    (h3 : 0 ≤ low) (h4 : low < (elems.length : Int)) :
    fePost elems o low mid ≠ FEOutcome.oob := by
  obtain ⟨em, hem⟩ := getI_some h1 h2
  obtain ⟨el, hel⟩ := getI_some h3 h4
  unfold fePost
  rw [hem, hel]
  by_cases hc : containsCube em o <;> by_cases hc' : containsCube el o <;>
    simp [hc, hc']

theorem feGo_safe (elems : List TMROctant) (o : TMROctant)
    (hne : elems ≠ []) (h0 : ¬octLt o elems.headI) :
    ∀ (fuel : Nat) (low high mid : Int),
      0 ≤ low → low ≤ (elems.length : Int) - 1 →
      high ≤ (elems.length : Int) - 1 →
      ((low ≤ mid ∧ mid ≤ high) ∨
        (mid = high ∧ high = low - 1 ∧ 1 ≤ low)) →
      (high - low + 1).toNat + 1 ≤ fuel →
      ∃ r, feGo elems o fuel low high mid = some r ∧ r ≠ FEOutcome.oob := by
  intro fuel
  induction fuel with
  | zero =>
      intro low high mid _ _ _ _ hf
      omega
  | succ fuel ih =>
      intro low high mid hl0 hln hhn hinv _
      rw [feGo]
      by_cases hgual : high = mid
      · rw [if_pos hgual]
        refine ⟨fePost elems o low mid, rfl, ?_⟩
        rcases hinv with ⟨hlm, hmh⟩ | ⟨hmh, hhl, hl1⟩
        · have g1 : (0:Int) ≤ mid := by omega
          have g2 : mid < (elems.length : Int) := by omega
          have g4 : low < (elems.length : Int) := by omega
          exact fePost_safe elems o g1 g2 hl0 g4
        · have g1 : (0:Int) ≤ mid := by omega
          have g2 : mid < (elems.length : Int) := by omega
          have g4 : low < (elems.length : Int) := by omega
          exact fePost_safe elems o g1 g2 hl0 g4
      · rw [if_neg hgual]
        rcases hinv with ⟨hlm, hmh⟩ | ⟨hmh, hhl, hl1⟩
        · have g1 : (0:Int) ≤ mid := by omega
          have g2 : mid < (elems.length : Int) := by omega
          obtain ⟨em, hem⟩ := getI_some g1 g2
          rw [hem]
          dsimp only
          by_cases hc : containsCube em o
          · rw [if_pos hc]
            exact ⟨_, rfl, by simp⟩
          · rw [if_neg hc]
            by_cases hlt : octLt o em
            · rw [if_pos hlt]
              by_cases hml : mid = low
              · have hmid0 : mid ≠ 0 := by
                  intro hm0
                  apply h0
                  have : getI elems mid = some elems.headI := by
                    rw [hm0]
                    exact getI_zero hne
                  rw [this] at hem
                  cases hem
                  exact hlt
                have harg : mid - 1 - low = -1 := by omega
                have hmid' : mid - 1 - Int.tdiv (mid - 1 - low) 2 =
                    mid - 1 := by
                  rw [harg, tdiv2_neg_one]
                  omega
                rw [hmid']
                have := ih low (mid - 1) (mid - 1) (by omega) (by omega)
                  (by omega) (Or.inr ⟨rfl, by omega, by omega⟩) (by omega)
                exact this
              · have hd : 0 ≤ mid - 1 - low := by omega
                obtain ⟨hd1, hd2⟩ := tdiv2_bounds hd
                exact ih low (mid - 1)
                  (mid - 1 - Int.tdiv (mid - 1 - low) 2) hl0 hln (by omega)
                  (Or.inl ⟨by omega, by omega⟩) (by omega)
            · rw [if_neg hlt]
              have hd : 0 ≤ high - (mid + 1) := by omega
              obtain ⟨hd1, hd2⟩ := tdiv2_bounds hd
              exact ih (mid + 1) high
                (high - Int.tdiv (high - (mid + 1)) 2) (by omega) (by omega)
                hhn (Or.inl ⟨by omega, by omega⟩) (by omega)
        · exact absurd hmh.symm hgual

/-- C10 counterexample: with two stored elements and a query octant that is
Morton-ordered strictly before the first element, the binary-search loop
drives `high` to `-1`, exits with `mid = -1`, and the post-loop check reads
`elems[-1]` — an out-of-bounds access, so `mid` does become negative. -/
theorem spec_C10_cex :
    findEnclosing
      [⟨2 ^ 29, 0, 0, 1, 0⟩, ⟨0, 2 ^ 29, 0, 1, 0⟩]
      ⟨0, 0, 0, 1, 0⟩ = some FEOutcome.oob := by
  decide

/-- C10 (amended): for every element array with at least one entry whose
first element is not Morton-after the query, `findEnclosing` terminates
within `size + 2` loop steps and never accesses an index outside
`[0, size)`. -/
theorem spec_C10 (elems : List TMROctant) (o : TMROctant)
    (hne : elems ≠ []) (h0 : ¬octLt o elems.headI) :
    ∃ r, findEnclosing elems o = some r ∧ r ≠ FEOutcome.oob := by
  unfold findEnclosing
  have hn1 : 1 ≤ elems.length := by
    cases elems with
    | nil => simp at hne
    | cons a l => simp
  have hd : (0:Int) ≤ (elems.length : Int) - 1 - 0 := by omega
  obtain ⟨hd1, hd2⟩ := tdiv2_bounds hd
  exact feGo_safe elems o hne h0 (elems.length + 2) 0
    ((elems.length : Int) - 1)
    (0 + Int.tdiv ((elems.length : Int) - 1 - 0) 2) (by omega) (by omega)
    (by omega) (Or.inl ⟨by omega, by omega⟩) (by omega)

/-- Witness for `spec_C10` on a singleton element array. -/
theorem spec_C10_witness :
    ∃ r, findEnclosing [⟨0, 0, 0, 0, 0⟩] ⟨0, 0, 0, 1, 0⟩ = some r ∧
      r ≠ FEOutcome.oob :=
  spec_C10 [⟨0, 0, 0, 0, 0⟩] ⟨0, 0, 0, 1, 0⟩ (by decide) (by decide)

/-! ### The coarsen scan -/

theorem coarsenLoop_eq_scan (arr : List TMROctant) :
    ∀ (fuel i : Nat), arr.length - i < fuel →
      coarsenLoopGo arr fuel i = coarsenScan (arr.drop i) := by
  intro fuel
  induction fuel with
  | zero =>
      intro i hf
      omega
  | succ fuel ih =>
      intro i hf
      by_cases hi : i < arr.length
      · have hdrop : arr.drop i = arr.get ⟨i, hi⟩ :: arr.drop (i + 1) :=
          List.drop_eq_getElem_cons hi
        rw [coarsenLoopGo, dif_pos hi, hdrop, coarsenScan_cons]
        have hget7 : (arr.drop (i + 1)).get? 6 = arr.get? (i + 7) := by
          rw [List.get?_drop]
        have hcond : famTest (arr.get ⟨i, hi⟩) (arr.drop (i + 1)) = true ↔
            (0 < (arr.get ⟨i, hi⟩).level ∧ childId (arr.get ⟨i, hi⟩) = 0 ∧
              i + 7 < arr.length ∧
              childId (arr.getD (i + 7) default) = 7 ∧
              octCmpEq (arr.get ⟨i, hi⟩)
                (getSibling 0 (arr.getD (i + 7) default))) := by
          unfold famTest
          rw [hget7]
          by_cases h7 : i + 7 < arr.length
          · have hsome : arr.get? (i + 7) = some (arr.get ⟨i + 7, h7⟩) :=
              List.get?_eq_get h7
            have hgetD : arr.getD (i + 7) default = arr.get ⟨i + 7, h7⟩ := by
              rw [List.getD_eq_get?, hsome]
              rfl
            rw [hsome, hgetD]
            simp only [Bool.and_eq_true, decide_eq_true_eq]
            constructor
            · rintro ⟨⟨⟨ha, hb⟩, hc⟩, hd⟩
              exact ⟨ha, hb, h7, hc, hd⟩
            · rintro ⟨ha, hb, _, hc, hd⟩
              exact ⟨⟨⟨ha, hb⟩, hc⟩, hd⟩
          · have hnone : arr.get? (i + 7) = none :=
              List.get?_eq_none.mpr (by omega)
            rw [hnone]
            dsimp only
            constructor
            · intro hfalse
              exact absurd hfalse (by simp)
            · rintro ⟨_, _, h7', _⟩
              exact absurd h7' h7
        by_cases hfam : famTest (arr.get ⟨i, hi⟩) (arr.drop (i + 1))
        · rw [if_pos hfam, if_pos (hcond.mp hfam)]
          have hdd : (arr.drop (i + 1)).drop 7 = arr.drop (i + 8) := by
            rw [List.drop_drop]
          rw [hdd, ih (i + 8) (by omega)]
        · rw [if_neg (fun hc => hfam (hcond.mpr hc)),
            if_neg (by simpa using hfam)]
          rw [ih (i + 1) (by omega)]
      · rw [coarsenLoopGo, dif_neg hi,
          List.drop_eq_nil_of_le (by omega), coarsenScan]

/-- C2 (amended): `coarsen` performs the single left-to-right scan that
emits the parent octant exactly when the scanned entry has positive level
and child id 0 and the entry seven positions later exists with child id 7
and an equal 0-sibling (consuming those eight entries — the six entries in
between are not inspected), and otherwise emits the scanned entry
unchanged; the result is the element array of a new octree (sorted and
key-deduplicated), the input list being left untouched.  `coarsenLoop` is
the translation of the C loop, `coarsenScan` the formal rendition of that
description. -/
theorem spec_C2 (elems : List TMROctant) :
    coarsen elems = sortUnique (coarsenScan elems) := by
  unfold coarsen
  rw [coarsenLoop_eq_scan elems (elems.length + 1) 0 (by omega),
    List.drop_zero]

/-- C2 counterexample: a sorted, duplicate-free element array of eight
entries whose first entry is child 0 and whose last entry is child 7 of the
root, but whose middle six entries are deeper octants (children of the
root's child 1), is collapsed by `coarsen` to the root parent alone even
though the eight consecutive entries are not the eight children of one
common parent. -/
theorem spec_C2_cex :
    List.Sorted octLt
      [⟨0, 0, 0, 1, 0⟩,
       ⟨2 ^ 29, 0, 0, 2, 0⟩, ⟨2 ^ 29 + 2 ^ 28, 0, 0, 2, 0⟩,
       ⟨2 ^ 29, 2 ^ 28, 0, 2, 0⟩, ⟨2 ^ 29 + 2 ^ 28, 2 ^ 28, 0, 2, 0⟩,
       ⟨2 ^ 29, 0, 2 ^ 28, 2, 0⟩, ⟨2 ^ 29 + 2 ^ 28, 0, 2 ^ 28, 2, 0⟩,
       ⟨2 ^ 29, 2 ^ 29, 2 ^ 29, 1, 0⟩] ∧
    coarsen
      [⟨0, 0, 0, 1, 0⟩,
       ⟨2 ^ 29, 0, 0, 2, 0⟩, ⟨2 ^ 29 + 2 ^ 28, 0, 0, 2, 0⟩,
       ⟨2 ^ 29, 2 ^ 28, 0, 2, 0⟩, ⟨2 ^ 29 + 2 ^ 28, 2 ^ 28, 0, 2, 0⟩,
       ⟨2 ^ 29, 0, 2 ^ 28, 2, 0⟩, ⟨2 ^ 29 + 2 ^ 28, 0, 2 ^ 28, 2, 0⟩,
       ⟨2 ^ 29, 2 ^ 29, 2 ^ 29, 1, 0⟩] = [⟨0, 0, 0, 0, 0⟩] ∧
    ¬([⟨0, 0, 0, 1, 0⟩,
       ⟨2 ^ 29, 0, 0, 2, 0⟩, ⟨2 ^ 29 + 2 ^ 28, 0, 0, 2, 0⟩,
       ⟨2 ^ 29, 2 ^ 28, 0, 2, 0⟩, ⟨2 ^ 29 + 2 ^ 28, 2 ^ 28, 0, 2, 0⟩,
       ⟨2 ^ 29, 0, 2 ^ 28, 2, 0⟩, ⟨2 ^ 29 + 2 ^ 28, 0, 2 ^ 28, 2, 0⟩,
       ⟨2 ^ 29, 2 ^ 29, 2 ^ 29, 1, 0⟩] =
      childrenList ⟨0, 0, 0, 0, 0⟩) := by
  refine ⟨by decide, by decide, by decide⟩

/-! ### Membership in the sibling-expansion hash -/

theorem mem_hashAdd_of_mem {l : List TMROctant} {o b : TMROctant}
    (h : b ∈ l) : b ∈ hashAdd l o := by
  unfold hashAdd
  split_ifs
  · exact h
  · exact List.mem_append_left _ h

theorem hashAdd_covers (l : List TMROctant) (o : TMROctant) :
    ∃ b ∈ hashAdd l o, octFieldsEq b o := by
  unfold hashAdd
  split_ifs with h
  · rw [List.any_eq_true] at h
    obtain ⟨b, hb, hbe⟩ := h
    exact ⟨b, hb, by simpa using hbe⟩
  · exact ⟨o, List.mem_append_right _ (List.mem_singleton_self o),
      ⟨rfl, rfl, rfl, rfl⟩⟩

theorem hashAdd_nodupKeys {l : List TMROctant} {o : TMROctant}
    (h : l.Pairwise (fun a b => ¬octFieldsEq a b)) :
    (hashAdd l o).Pairwise (fun a b => ¬octFieldsEq a b) := by
  unfold hashAdd
  split_ifs with hc
  · exact h
  · rw [List.pairwise_append]
    refine ⟨h, List.pairwise_singleton _ _, ?_⟩
    intro a ha b hb
    rw [List.mem_singleton] at hb
    subst hb
    intro hf
    apply hc
    rw [List.any_eq_true]
    exact ⟨a, ha, by simpa using hf⟩

theorem sibFold_mono (o : TMROctant) : ∀ (js : List Nat)
    (acc : List TMROctant) (b : TMROctant), b ∈ acc →
    b ∈ js.foldl (fun acc2 j =>
      let q := getSibling j o
      if q.x < hmax ∧ q.y < hmax ∧ q.z < hmax then hashAdd acc2 q
      else acc2) acc
  | [], _, _, hb => hb
  | j :: js, acc, b, hb => by
      rw [List.foldl_cons]
      apply sibFold_mono o js
      dsimp only
      split_ifs
      · exact mem_hashAdd_of_mem hb
      · exact hb

theorem sibFold_mem (o : TMROctant) : ∀ (js : List Nat)
    (acc : List TMROctant) (b : TMROctant),
    b ∈ js.foldl (fun acc2 j =>
      let q := getSibling j o
      if q.x < hmax ∧ q.y < hmax ∧ q.z < hmax then hashAdd acc2 q
      else acc2) acc →
    b ∈ acc ∨ ∃ j ∈ js, b = getSibling j o
  | [], acc, b, hb => Or.inl hb
  | j :: js, acc, b, hb => by
      rw [List.foldl_cons] at hb
      rcases sibFold_mem o js _ b hb with hin | ⟨j', hj', rfl⟩
      · dsimp only at hin
        split_ifs at hin
        · rcases mem_hashAdd hin with hin | rfl
          · exact Or.inl hin
          · exact Or.inr ⟨j, List.mem_cons_self _ _, rfl⟩
        · exact Or.inl hin
      · exact Or.inr ⟨j', List.mem_cons_of_mem _ hj', rfl⟩

theorem sibFold_covers (o : TMROctant) : ∀ (js : List Nat)
    (acc : List TMROctant) (j : Nat), j ∈ js →
    (getSibling j o).x < hmax → (getSibling j o).y < hmax →
    (getSibling j o).z < hmax →
    ∃ b ∈ js.foldl (fun acc2 j =>
      let q := getSibling j o
      if q.x < hmax ∧ q.y < hmax ∧ q.z < hmax then hashAdd acc2 q
      else acc2) acc, octFieldsEq b (getSibling j o)
  | [], _, _, hj, _, _, _ => absurd hj (List.not_mem_nil _)
  | j' :: js, acc, j, hj, hx, hy, hz => by
      rw [List.foldl_cons]
      rcases List.mem_cons.mp hj with rfl | hj
      · have hstep : (getSibling j o) ∈
            (if (getSibling j o).x < hmax ∧ (getSibling j o).y < hmax ∧
              (getSibling j o).z < hmax then hashAdd acc (getSibling j o)
            else acc) ∨ True := Or.inr trivial
        obtain ⟨b, hbmem, hbf⟩ := hashAdd_covers acc (getSibling j o)
        refine ⟨b, ?_, hbf⟩
        apply sibFold_mono o js
        dsimp only
        rw [if_pos ⟨hx, hy, hz⟩]
        exact hbmem
      · exact sibFold_covers o js _ j hj hx hy hz

theorem sibFold_nodupKeys (o : TMROctant) : ∀ (js : List Nat)
    (acc : List TMROctant),
    acc.Pairwise (fun a b => ¬octFieldsEq a b) →
    (js.foldl (fun acc2 j =>
      let q := getSibling j o
      if q.x < hmax ∧ q.y < hmax ∧ q.z < hmax then hashAdd acc2 q
      else acc2) acc).Pairwise (fun a b => ¬octFieldsEq a b)
  | [], _, h => h
  | j :: js, acc, h => by
      rw [List.foldl_cons]
      apply sibFold_nodupKeys o js
      dsimp only
      split_ifs
      · exact hashAdd_nodupKeys h
      · exact h

theorem siblingExpand_go_mem : ∀ (os : List TMROctant)
    (acc : List TMROctant) (b : TMROctant),
    b ∈ os.foldl (fun acc o => (List.range 8).foldl
      (fun acc2 j =>
        let q := getSibling j o
        if q.x < hmax ∧ q.y < hmax ∧ q.z < hmax then hashAdd acc2 q
        else acc2) acc) acc →
    b ∈ acc ∨ ∃ o ∈ os, ∃ j, j < 8 ∧ b = getSibling j o
  | [], acc, b, hb => Or.inl hb
  | o :: os, acc, b, hb => by
      rw [List.foldl_cons] at hb
      rcases siblingExpand_go_mem os _ b hb with hin | ⟨o', ho', j, hj, rfl⟩
      · rcases sibFold_mem o _ _ _ hin with hin | ⟨j, hj, rfl⟩
        · exact Or.inl hin
        · exact Or.inr ⟨o, List.mem_cons_self _ _, j,
            List.mem_range.mp hj, rfl⟩
      · exact Or.inr ⟨o', List.mem_cons_of_mem _ ho', j, hj, rfl⟩

theorem siblingExpand_go_mono : ∀ (os : List TMROctant)
    (acc : List TMROctant) (b : TMROctant), b ∈ acc →
    b ∈ os.foldl (fun acc o => (List.range 8).foldl
      (fun acc2 j =>
        let q := getSibling j o
        if q.x < hmax ∧ q.y < hmax ∧ q.z < hmax then hashAdd acc2 q
        else acc2) acc) acc
  | [], _, _, hb => hb
  | o :: os, acc, b, hb => by
      rw [List.foldl_cons]
      exact siblingExpand_go_mono os _ b (sibFold_mono o _ acc b hb)

theorem siblingExpand_go_covers : ∀ (os : List TMROctant)
    (acc : List TMROctant) (o : TMROctant) (j : Nat), o ∈ os → j < 8 →
    (getSibling j o).x < hmax → (getSibling j o).y < hmax →
    (getSibling j o).z < hmax →
    ∃ b ∈ os.foldl (fun acc o => (List.range 8).foldl
      (fun acc2 j =>
        let q := getSibling j o
        if q.x < hmax ∧ q.y < hmax ∧ q.z < hmax then hashAdd acc2 q
        else acc2) acc) acc, octFieldsEq b (getSibling j o)
  | [], _, _, _, ho, _, _, _, _ => absurd ho (List.not_mem_nil _)
  | o' :: os, acc, o, j, ho, hj, hx, hy, hz => by
      rw [List.foldl_cons]
      rcases List.mem_cons.mp ho with rfl | ho
      · obtain ⟨b, hbmem, hbf⟩ := sibFold_covers o (List.range 8) acc j
          (List.mem_range.mpr hj) hx hy hz
        exact ⟨b, siblingExpand_go_mono os _ b hbmem, hbf⟩
      · exact siblingExpand_go_covers os _ o j ho hj hx hy hz

theorem siblingExpand_go_nodupKeys : ∀ (os : List TMROctant)
    (acc : List TMROctant),
    acc.Pairwise (fun a b => ¬octFieldsEq a b) →
    (os.foldl (fun acc o => (List.range 8).foldl
      (fun acc2 j =>
        let q := getSibling j o
        if q.x < hmax ∧ q.y < hmax ∧ q.z < hmax then hashAdd acc2 q
        else acc2) acc) acc).Pairwise (fun a b => ¬octFieldsEq a b)
  | [], _, h => h
  | o :: os, acc, h => by
      rw [List.foldl_cons]
      exact siblingExpand_go_nodupKeys os _ (sibFold_nodupKeys o _ acc h)

theorem siblingExpand_mem {child0s : List TMROctant} {b : TMROctant}
    (hb : b ∈ siblingExpand child0s) :
    ∃ o ∈ child0s, ∃ j, j < 8 ∧ b = getSibling j o := by
  unfold siblingExpand at hb
  rcases siblingExpand_go_mem child0s [] b hb with hin | h
  · simp at hin
  · exact h

theorem siblingExpand_covers {child0s : List TMROctant} {o : TMROctant}
    {j : Nat} (ho : o ∈ child0s) (hj : j < 8)
    (hx : (getSibling j o).x < hmax) (hy : (getSibling j o).y < hmax)
    (hz : (getSibling j o).z < hmax) :
    ∃ b ∈ siblingExpand child0s, octFieldsEq b (getSibling j o) := by
  unfold siblingExpand
  exact siblingExpand_go_covers child0s [] o j ho hj hx hy hz

theorem siblingExpand_nodupKeys (child0s : List TMROctant) :
    (siblingExpand child0s).Pairwise (fun a b => ¬octFieldsEq a b) := by
  unfold siblingExpand
  exact siblingExpand_go_nodupKeys child0s [] (List.Pairwise.nil)

/-! ### Refine at the level clamp (C4) -/

theorem childId_lt_8 (o : TMROctant) : childId o < 8 := by
  unfold childId
  split_ifs <;> norm_num

theorem testBit_ge {x m : Nat} (h : x.testBit m = true) : 2 ^ m ≤ x := by
  rw [Nat.testBit_to_div_mod] at h
  simp only [decide_eq_true_eq] at h
  by_contra hc
  push_neg at hc
  rw [Nat.div_eq_of_lt hc] at h
  simp at h

theorem clearBit_add_self (x m : Nat) :
    clearBit x m + (if x.testBit m then 1 else 0) * 2 ^ m = x := by
  unfold clearBit
  by_cases h : x.testBit m
  · rw [if_pos h, if_pos h]
    have := testBit_ge h
    have hp : (0:Nat) < 2 ^ m := Nat.pos_pow_of_pos _ (by norm_num)
    omega
  · rw [if_neg h, if_neg h]
    omega

theorem childId_bits (o : TMROctant) :
    childId o % 2 =
      (if o.x.testBit (TMR_MAX_LEVEL - o.level) then 1 else 0) ∧
    childId o / 2 % 2 =
      (if o.y.testBit (TMR_MAX_LEVEL - o.level) then 1 else 0) ∧
    childId o / 4 % 2 =
      (if o.z.testBit (TMR_MAX_LEVEL - o.level) then 1 else 0) := by
  unfold childId
  split_ifs <;> norm_num

theorem getSibling_childId_self (o : TMROctant) :
    getSibling (childId o) o = o := by
  unfold getSibling
  by_cases h0 : o.level = 0
  · rw [if_pos h0]
  · rw [if_neg h0]
    obtain ⟨hb1, hb2, hb3⟩ := childId_bits o
    rw [hb1, hb2, hb3, clearBit_add_self, clearBit_add_self,
      clearBit_add_self]

theorem foldl_hashAdd_congr (f : TMROctant × Int → TMROctant) :
    ∀ (ps : List (TMROctant × Int)) (acc : List TMROctant),
      (∀ pr ∈ ps, f pr = pr.1) →
      ps.foldl (fun acc pr => hashAdd acc (f pr)) acc =
        (ps.map Prod.fst).foldl hashAdd acc
  | [], _, _ => rfl
  | pr :: ps, acc, h => by
      rw [List.foldl_cons, List.map_cons, List.foldl_cons,
        h pr (List.mem_cons_self _ _)]
      exact foldl_hashAdd_congr f ps _ (fun pr hpr =>
        h pr (List.mem_cons_of_mem _ hpr))

theorem pairwise_fieldsEq_eq {l : List TMROctant}
    (hp : l.Pairwise (fun a b => ¬octFieldsEq a b)) {a b : TMROctant}
    (ha : a ∈ l) (hb : b ∈ l) (hf : octFieldsEq a b) : a = b := by
  by_contra hne
  have hsym : Symmetric (fun a b : TMROctant => ¬octFieldsEq a b) := by
    intro a b h hf'
    exact h ⟨hf'.1.symm, hf'.2.1.symm, hf'.2.2.1.symm, hf'.2.2.2.symm⟩
  exact hp.forall hsym ha hb hne hf

/-- C4 (amended): if every element of a valid, strictly sorted,
sibling-complete octree already has the effective (clamped) maximum level,
then `refine` with an all-positive refinement array returns the element
array unchanged.  (As stated for arbitrary octrees the claim fails: the
sibling-expansion step of `refine` adds the missing siblings of any
incomplete family — see the counterexample.) -/
theorem spec_C4 (elems : List TMROctant) (refinement : List Int)
    (min_level max_level : Int)
    (hs : List.Sorted octLt elems)
    (hv : ∀ o ∈ elems, validOct o)
    (hlen : elems.length ≤ refinement.length)
    (hpos : ∀ r ∈ refinement, 0 < r)
    (hmaxl : ∀ o ∈ elems, (o.level : Int) =
      (if (TMR_MAX_LEVEL : Int) < max_level then (TMR_MAX_LEVEL : Int)
       else max_level))
    (hclosed : ∀ o ∈ elems, ∀ j, j < 8 → getSibling j o ∈ elems) :
    refine elems refinement min_level max_level = elems := by
  unfold refine
  dsimp only
  have hpair : elems.Pairwise (fun a b => ¬octFieldsEq a b) :=
    hs.imp (fun h => not_octFieldsEq_of_octLt h)
  have hseed : ∀ pr ∈ List.zip elems refinement,
      refineSeed pr.1 pr.2
        (if (if (TMR_MAX_LEVEL : Int) < max_level then (TMR_MAX_LEVEL : Int)
              else max_level) < (if min_level < 0 then 0 else min_level)
         then (if (TMR_MAX_LEVEL : Int) < max_level then (TMR_MAX_LEVEL : Int)
              else max_level)
         else (if min_level < 0 then 0 else min_level))
        (if (TMR_MAX_LEVEL : Int) < max_level then (TMR_MAX_LEVEL : Int)
         else max_level) = pr.1 := by
    intro pr hpr
    have hmem := List.mem_zip hpr
    have hr := hpos pr.2 hmem.2
    have hl := hmaxl pr.1 hmem.1
    unfold refineSeed
    rw [if_neg (by omega), if_neg (by omega), if_neg (by omega)]
  have hfst : (List.zip elems refinement).map Prod.fst = elems :=
    List.map_fst_zip _ _ hlen
  rw [foldl_hashAdd_congr _ _ _ hseed, hfst,
    foldl_hashAdd_append elems [] (by simpa using hpair)]
  simp only [List.nil_append]
  rw [sortUnique_eq_self hs]
  have hmemiff : ∀ b, b ∈ siblingExpand elems ↔ b ∈ elems := by
    intro b
    constructor
    · intro hb
      obtain ⟨o, ho, j, hj, rfl⟩ := siblingExpand_mem hb
      exact hclosed o ho j hj
    · intro hb
      have hself : getSibling (childId b) b = b := getSibling_childId_self b
      have hbv := hv b hb
      have hhp := hOct_pos b
      obtain ⟨_, _, _, _, hbx, hby, hbz⟩ := hbv
      obtain ⟨c, hcmem, hcf⟩ := siblingExpand_covers hb (childId_lt_8 b)
        (by rw [hself]; omega) (by rw [hself]; omega)
        (by rw [hself]; omega)
      rw [hself] at hcf
      obtain ⟨o', ho', j', hj', rfl⟩ := siblingExpand_mem hcmem
      have : getSibling j' o' ∈ elems := hclosed o' ho' j' hj'
      have heq : getSibling j' o' = b := pairwise_fieldsEq_eq hpair this hb hcf
      rw [heq] at hcmem
      exact hcmem
  have hbound : ∀ o ∈ siblingExpand elems, coordBounded o := by
    intro o ho
    exact coordBounded_of_valid (hv o ((hmemiff o).mp ho))
  have hsorted1 : List.Sorted octLt (sortUnique (siblingExpand elems)) :=
    sortUnique_sorted _ hbound
  have hperm : List.Perm (sortUnique (siblingExpand elems))
      (siblingExpand elems) :=
    sortUnique_perm_of_nodupKeys (siblingExpand_nodupKeys elems)
  have heq1 : sortUnique (siblingExpand elems) = elems := by
    apply sorted_eq_of_mem_iff hsorted1 hs
    intro o
    rw [hperm.mem_iff]
    exact hmemiff o
  rw [heq1, sortUnique_eq_self hs]

/-- C4 counterexample: a single level-1 element (its seven siblings
missing) with `max_level = 1` and a positive refinement entry is not left
unchanged — the sibling-expansion step of `refine` adds the whole family,
so the result has eight elements. -/
theorem spec_C4_cex :
    refine [⟨0, 0, 0, 1, 0⟩] [1] 0 1 ≠ [⟨0, 0, 0, 1, 0⟩] := by
  decide

/-- Witness for `spec_C4`: the eight-element family of the root at level 1
with `max_level = 1` is left unchanged. -/
theorem spec_C4_witness :
    refine (childrenList ⟨0, 0, 0, 0, 0⟩) [1, 1, 1, 1, 1, 1, 1, 1] 0 1 =
      childrenList ⟨0, 0, 0, 0, 0⟩ :=
  spec_C4 (childrenList ⟨0, 0, 0, 0, 0⟩) [1, 1, 1, 1, 1, 1, 1, 1] 0 1
    (by decide) (by decide) (by decide) (by decide) (by decide) (by decide)

/-! ### createNodes (C7) -/

/-- Following the claim's wording (§4.7): the `order^3` tensor-product
candidate node positions of one element — the 8 corners at step `h` for
order 2, the 27 positions at half step `h/2` for order 3 — each carrying
`level = 0` and `tag = 1`. -/
def specStep (o : TMROctant) (ord : Nat) : Nat :=
  if ord = 2 then hOct o else hOct o / 2

def specCandidates (o : TMROctant) (ord : Nat) : List TMROctant :=
  (List.range ord).flatMap (fun kk =>
    (List.range ord).flatMap (fun jj =>
      (List.range ord).map (fun ii =>
        ⟨o.x + ii * specStep o ord,
         o.y + jj * specStep o ord,
         o.z + kk * specStep o ord, 0, 1⟩)))

theorem mem_of_mem_sortUnique {l : List TMROctant} {b : TMROctant}
    (h : b ∈ sortUnique l) : b ∈ l :=
  (sortOcts_perm l).mem_iff.mp ((dedupKeys_sublist _).mem h)

theorem mapM_except_ok {α β : Type} (f : α → Except Unit β) (g : α → β) :
    ∀ l : List α, (∀ a ∈ l, f a = Except.ok (g a)) →
      l.mapM f = Except.ok (l.map g)
  | [], _ => rfl
  | a :: l, h => by
      rw [List.mapM_cons, h a (List.mem_cons_self _ _),
        mapM_except_ok f g l (fun a ha => h a (List.mem_cons_of_mem _ ha))]
      rfl

theorem clampOrder_two_or_three (ord : Int) :
    clampOrder ord = 2 ∨ clampOrder ord = 3 := by
  unfold clampOrder
  split_ifs <;> omega

theorem nodesOfElement_eq_spec {o : TMROctant} (hv : validOct o)
    {ord : Nat} (hord : ord = 2 ∨ ord = 3)
    (h3 : ord = 3 → o.level < TMR_MAX_LEVEL) :
    nodesOfElement o ord = Except.ok (specCandidates o ord) := by
  rcases hord with rfl | rfl
  · unfold nodesOfElement
    rw [if_pos rfl, if_pos hv.1]
    rfl
  · have hl := h3 rfl
    obtain ⟨k, hk⟩ : ∃ k, TMR_MAX_LEVEL - o.level = k + 1 :=
      ⟨TMR_MAX_LEVEL - o.level - 1, by
        rw [TMR_MAX_LEVEL_eq] at *; omega⟩
    have hstep : specStep o 3 = 2 ^ (TMR_MAX_LEVEL - o.level - 1) := by
      show hOct o / 2 = _
      unfold hOct
      rw [hk, Nat.add_sub_cancel, pow_succ]
      omega
    unfold nodesOfElement specCandidates
    simp only [hstep]
    rw [if_neg (by omega),
      if_pos (show o.level + 1 ≤ TMR_MAX_LEVEL by
        rw [TMR_MAX_LEVEL_eq] at *; omega)]

theorem specCandidates_length (o : TMROctant) (ord : Nat) :
    (specCandidates o ord).length = ord ^ 3 := by
  unfold specCandidates
  simp [List.length_flatMap, List.map_map, Function.comp_def]
  ring

theorem specCandidates_mem {o : TMROctant} {ord : Nat} {nd : TMROctant}
    (h : nd ∈ specCandidates o ord) :
    nd.level = 0 ∧ nd.tag = 1 ∧
    ∃ ii jj kk, ii < ord ∧ jj < ord ∧ kk < ord ∧
      nd.x = o.x + ii * specStep o ord ∧
      nd.y = o.y + jj * specStep o ord ∧
      nd.z = o.z + kk * specStep o ord := by
  unfold specCandidates at h
  simp only [List.mem_flatMap, List.mem_map, List.mem_range] at h
  obtain ⟨kk, hkk, jj, hjj, ii, hii, rfl⟩ := h
  exact ⟨rfl, rfl, ii, jj, kk, hii, hjj, hkk, rfl, rfl, rfl⟩

theorem specStep_mul_le {o : TMROctant} {ord : Nat}
    (hord : ord = 2 ∨ ord = 3) {b : Nat} (hb : b < ord) :
    b * specStep o ord ≤ hOct o := by
  rcases hord with rfl | rfl
  · show b * hOct o ≤ hOct o
    have hb1 : b ≤ 1 := by omega
    calc b * hOct o ≤ 1 * hOct o := Nat.mul_le_mul_right _ hb1
      _ = hOct o := one_mul _
  · show b * (hOct o / 2) ≤ hOct o
    have hb2 : b ≤ 2 := by omega
    have h1 : b * (hOct o / 2) ≤ 2 * (hOct o / 2) :=
      Nat.mul_le_mul_right _ hb2
    omega

theorem specCandidates_bounded {o : TMROctant} (hv : validOct o)
    {ord : Nat} (hord : ord = 2 ∨ ord = 3) {nd : TMROctant}
    (h : nd ∈ specCandidates o ord) : coordBounded nd := by
  obtain ⟨_, _, ii, jj, kk, hii, hjj, hkk, hx, hy, hz⟩ :=
    specCandidates_mem h
  obtain ⟨_, _, _, _, hbx, hby, hbz⟩ := hv
  have hK := hmax_lt_KF
  have h1 := @specStep_mul_le o ord hord ii hii
  have h2 := @specStep_mul_le o ord hord jj hjj
  have h3 := @specStep_mul_le o ord hord kk hkk
  have h0 := hOct_pos o
  refine ⟨?_, ?_, ?_⟩ <;> omega

/-- C7 (amended): for every octree of valid elements — with, for effective
order 3, every element strictly below `TMR_MAX_LEVEL` — `createNodes`
clamps the order into `{2, 3}` and succeeds: each element contributes
exactly `order^3` candidate nodes at the claimed tensor-product positions
(step `h` for order 2, step `h/2` for order 3), each with `level = 0` and
`tag = 1`, and the stored node array is the sorted key-deduplicated union,
strictly Morton-sorted with no two nodes sharing `(x, y, z)`.  (As stated,
for order 3 and an element at level `TMR_MAX_LEVEL` the C code shifts by a
negative count — see the counterexample.) -/
theorem spec_C7 (elems : List TMROctant) (ord : Int)
    (hv : ∀ o ∈ elems, validOct o)
    (h3 : clampOrder ord = 3 → ∀ o ∈ elems, o.level < TMR_MAX_LEVEL) :
    (clampOrder ord = 2 ∨ clampOrder ord = 3) ∧
    (∀ o ∈ elems, nodesOfElement o (clampOrder ord) =
      Except.ok (specCandidates o (clampOrder ord)) ∧
      (specCandidates o (clampOrder ord)).length = clampOrder ord ^ 3 ∧
      ∀ nd ∈ specCandidates o (clampOrder ord), nd.level = 0 ∧ nd.tag = 1) ∧
    createNodes elems ord =
      Except.ok (sortUnique
        (elems.flatMap (fun o => specCandidates o (clampOrder ord)))) ∧
    List.Sorted octLt (sortUnique
      (elems.flatMap (fun o => specCandidates o (clampOrder ord)))) ∧
    (sortUnique (elems.flatMap
      (fun o => specCandidates o (clampOrder ord)))).Pairwise
        (fun a b => ¬(a.x = b.x ∧ a.y = b.y ∧ a.z = b.z)) := by
  have hord := clampOrder_two_or_three ord
  have hper : ∀ o ∈ elems, nodesOfElement o (clampOrder ord) =
      Except.ok (specCandidates o (clampOrder ord)) := by
    intro o ho
    exact nodesOfElement_eq_spec (hv o ho) hord
      (fun h => h3 h o ho)
  have hflat : ∀ nd ∈ elems.flatMap
      (fun o => specCandidates o (clampOrder ord)),
      coordBounded nd ∧ nd.level = 0 ∧ nd.tag = 1 := by
    intro nd hnd
    rw [List.mem_flatMap] at hnd
    obtain ⟨o, ho, hnd⟩ := hnd
    obtain ⟨h1, h2, _⟩ := specCandidates_mem hnd
    exact ⟨specCandidates_bounded (hv o ho) hord hnd, h1, h2⟩
  refine ⟨hord, ?_, ?_, ?_, ?_⟩
  · intro o ho
    refine ⟨hper o ho, specCandidates_length o _, ?_⟩
    intro nd hnd
    obtain ⟨h1, h2, _⟩ := specCandidates_mem hnd
    exact ⟨h1, h2⟩
  · unfold createNodes
    dsimp only
    rw [mapM_except_ok _ _ elems hper]
    show Except.ok (sortUnique (List.flatten _)) = _
    rw [← List.flatMap_def]
  · exact sortUnique_sorted _ (fun o ho => (hflat o ho).1)
  · have hsorted := sortUnique_sorted
      (elems.flatMap (fun o => specCandidates o (clampOrder ord)))
      (fun o ho => (hflat o ho).1)
    refine hsorted.imp_of_mem ?_
    intro a b ha hb hlt hco
    have hla := (hflat a (mem_of_mem_sortUnique ha)).2.1
    have hlb := (hflat b (mem_of_mem_sortUnique hb)).2.1
    have hk : okey a = okey b := by
      unfold okey
      rw [hco.1, hco.2.1, hco.2.2]
    unfold octLt at hlt
    omega

/-- C7 counterexample: a single element at level `TMR_MAX_LEVEL` with
order 3 makes `createNodes` shift by a negative count (`h/2` does not
exist at the finest level); no candidate nodes are emitted. -/
theorem spec_C7_cex :
    createNodes [⟨0, 0, 0, TMR_MAX_LEVEL, 0⟩] 3 = Except.error () := rfl

/-- Witness for `spec_C7`: the root octree at order 3. -/
theorem spec_C7_witness :
    (clampOrder 3 = 2 ∨ clampOrder 3 = 3) ∧
    (∀ o ∈ [(⟨0, 0, 0, 0, 0⟩ : TMROctant)],
      nodesOfElement o (clampOrder 3) =
        Except.ok (specCandidates o (clampOrder 3)) ∧
      (specCandidates o (clampOrder 3)).length = clampOrder 3 ^ 3 ∧
      ∀ nd ∈ specCandidates o (clampOrder 3), nd.level = 0 ∧ nd.tag = 1) ∧
    createNodes [(⟨0, 0, 0, 0, 0⟩ : TMROctant)] 3 =
      Except.ok (sortUnique
        ([(⟨0, 0, 0, 0, 0⟩ : TMROctant)].flatMap
          (fun o => specCandidates o (clampOrder 3)))) ∧
    List.Sorted octLt (sortUnique
      ([(⟨0, 0, 0, 0, 0⟩ : TMROctant)].flatMap
        (fun o => specCandidates o (clampOrder 3)))) ∧
    (sortUnique ([(⟨0, 0, 0, 0, 0⟩ : TMROctant)].flatMap
      (fun o => specCandidates o (clampOrder 3)))).Pairwise
        (fun a b => ¬(a.x = b.x ∧ a.y = b.y ∧ a.z = b.z)) :=
  spec_C7 [⟨0, 0, 0, 0, 0⟩] 3 (by decide) (by decide)

/-! ### The interpolation stencil (C6) -/

/-- Following the claim's wording: the coarse corner positions a fine node
draws from, selected by its child id — the 0-sibling and its offset by
`2h` along the one set axis for ids 1, 2, 4; the four corners spanned by
the two set axes for ids 3, 5, 6; all eight corners for id 7. -/
def specCorners (f : TMROctant) : List (Nat × Nat × Nat) :=
  let n := getSibling 0 f
  let h := hOct f
  let cid := childId f
  if cid = 1 then [(n.x, n.y, n.z), (n.x + 2 * h, n.y, n.z)]
  else if cid = 2 then [(n.x, n.y, n.z), (n.x, n.y + 2 * h, n.z)]
  else if cid = 4 then [(n.x, n.y, n.z), (n.x, n.y, n.z + 2 * h)]
  else if cid = 3 then
    [(n.x, n.y, n.z), (n.x + 2 * h, n.y, n.z),
     (n.x, n.y + 2 * h, n.z), (n.x + 2 * h, n.y + 2 * h, n.z)]
  else if cid = 5 then
    [(n.x, n.y, n.z), (n.x + 2 * h, n.y, n.z),
     (n.x, n.y, n.z + 2 * h), (n.x + 2 * h, n.y, n.z + 2 * h)]
  else if cid = 6 then
    [(n.x, n.y, n.z), (n.x, n.y + 2 * h, n.z),
     (n.x, n.y, n.z + 2 * h), (n.x, n.y + 2 * h, n.z + 2 * h)]
  else
    [(n.x, n.y, n.z), (n.x + 2 * h, n.y, n.z),
     (n.x, n.y + 2 * h, n.z), (n.x + 2 * h, n.y + 2 * h, n.z),
     (n.x, n.y, n.z + 2 * h), (n.x + 2 * h, n.y, n.z + 2 * h),
     (n.x, n.y + 2 * h, n.z + 2 * h),
     (n.x + 2 * h, n.y + 2 * h, n.z + 2 * h)]

/-- Following the claim's wording: weight 0.5 along an edge midpoint
(child ids 1, 2, 4), 0.25 at a face centre (ids 3, 5, 6), 0.125 at the
element centre (id 7). -/
def specWeight (f : TMROctant) : ℚ :=
  let cid := childId f
  if cid = 1 ∨ cid = 2 ∨ cid = 4 then 1 / 2
  else if cid = 3 ∨ cid = 5 ∨ cid = 6 then 1 / 4
  else 1 / 8

/-- Following the claim's wording: the interpolation row of a fine node
with no coincident coarse node — one lookup per corner of `specCorners`,
each at scale `specWeight` (a dependent corner being expanded through the
dependent table with this weight as factor), concatenated. -/
def specStencilRow (cn : List TMROctant) (dp : List Nat) (dc : List Int)
    (dw : List ℚ) (f : TMROctant) : Except Unit (List TMRIndexWeight) := do
  let ws ← mapME (fun p =>
    lookupExpand cn dp dc dw p.1 p.2.1 p.2.2 (specWeight f))
    (specCorners f)
  Except.ok ws.flatten

/-- The stencil-selection equivalence behind C6. -/
theorem interpRowCore_eq_stencil (cn : List TMROctant) (dp : List Nat)
    (dc : List Int) (dw : List ℚ) (f : TMROctant)
    (hnc : nodeContains cn f.x f.y f.z = none)
    (hid : childId f ≠ 0) :
    interpRowCore cn dp dc dw f = specStencilRow cn dp dc dw f := by
  have h8 := childId_lt_8 f
  have hcases : childId f = 1 ∨ childId f = 2 ∨ childId f = 3 ∨
      childId f = 4 ∨ childId f = 5 ∨ childId f = 6 ∨ childId f = 7 := by
    omega
  unfold interpRowCore specStencilRow specCorners specWeight
  rw [hnc]
  dsimp only
  rcases hcases with h | h | h | h | h | h | h <;>
    rw [h] <;>
    simp [mapME, exceptBind_ok, bind_assoc]

/-- C6: in `createInterpolation`, for every fine independent node with no
coincident coarse node and a nonzero child id, the assembled row equals
the stencil selected by the child id — corner lookups of `specCorners` at
scale `specWeight`, dependent corners expanded through the dependent table
with that weight as factor: two corners (the 0-sibling and its offset by
`2h` along the one set axis) at weight 0.5 for child ids 1, 2, 4; four
corners at 0.25 for ids 3, 5, 6; eight corners at 0.125 for id 7. -/
theorem spec_C6 (cn : List TMROctant) (dp : List Nat) (dc : List Int)
    (dw : List ℚ) (f : TMROctant) (hf : 0 ≤ f.tag)
    (hnc : nodeContains cn f.x f.y f.z = none)
    (hid : childId f ≠ 0) :
    interpRowCore cn dp dc dw f = specStencilRow cn dp dc dw f ∧
    ((childId f = 1 ∨ childId f = 2 ∨ childId f = 4) →
      (specCorners f).length = 2 ∧ specWeight f = 1 / 2) ∧
    ((childId f = 3 ∨ childId f = 5 ∨ childId f = 6) →
      (specCorners f).length = 4 ∧ specWeight f = 1 / 4) ∧
    (childId f = 7 →
      (specCorners f).length = 8 ∧ specWeight f = 1 / 8) := by
  refine ⟨interpRowCore_eq_stencil cn dp dc dw f hnc hid, ?_, ?_, ?_⟩
  · rintro (h | h | h) <;> simp [specCorners, specWeight, h]
  · rintro (h | h | h) <;> simp [specCorners, specWeight, h]
  · intro h
    simp [specCorners, specWeight, h]

/-- Witness for `spec_C6`: the fine edge-midpoint node at `(2^29, 0, 0)`
of level 1 (child id 1), with two independent coarse corner nodes. -/
theorem spec_C6_witness :
    (interpRowCore [⟨0, 0, 0, 0, 5⟩, ⟨2 ^ 30, 0, 0, 0, 7⟩] [] [] []
        ⟨2 ^ 29, 0, 0, 1, 1⟩ =
      specStencilRow [⟨0, 0, 0, 0, 5⟩, ⟨2 ^ 30, 0, 0, 0, 7⟩] [] [] []
        ⟨2 ^ 29, 0, 0, 1, 1⟩) ∧
    ((childId ⟨2 ^ 29, 0, 0, 1, 1⟩ = 1 ∨ childId ⟨2 ^ 29, 0, 0, 1, 1⟩ = 2 ∨
        childId ⟨2 ^ 29, 0, 0, 1, 1⟩ = 4) →
      (specCorners ⟨2 ^ 29, 0, 0, 1, 1⟩).length = 2 ∧
      specWeight ⟨2 ^ 29, 0, 0, 1, 1⟩ = 1 / 2) ∧
    ((childId ⟨2 ^ 29, 0, 0, 1, 1⟩ = 3 ∨ childId ⟨2 ^ 29, 0, 0, 1, 1⟩ = 5 ∨
        childId ⟨2 ^ 29, 0, 0, 1, 1⟩ = 6) →
      (specCorners ⟨2 ^ 29, 0, 0, 1, 1⟩).length = 4 ∧
      specWeight ⟨2 ^ 29, 0, 0, 1, 1⟩ = 1 / 4) ∧
    (childId ⟨2 ^ 29, 0, 0, 1, 1⟩ = 7 →
      (specCorners ⟨2 ^ 29, 0, 0, 1, 1⟩).length = 8 ∧
      specWeight ⟨2 ^ 29, 0, 0, 1, 1⟩ = 1 / 8) :=
  spec_C6 [⟨0, 0, 0, 0, 5⟩, ⟨2 ^ 30, 0, 0, 0, 7⟩] [] [] []
    ⟨2 ^ 29, 0, 0, 1, 1⟩ (by decide) (by decide) (by decide)

/-! ### Row sums of the interpolation operator (C5) -/

/-- The sum of the weights of one interpolation row. -/
def rowSum (l : List TMRIndexWeight) : ℚ :=
  (l.map (fun w => w.weight)).sum

/-- The claim's precondition: every coarse dependent-node row's weights
sum to 1. -/
def depSumOne (dp : List Nat) (dw : List ℚ) : Prop :=
  ∀ node a b, dp.get? node = some a → dp.get? (node + 1) = some b →
    a ≤ b → b ≤ dw.length →
    ((List.range (b - a)).map (fun j => dw.getD (a + j) 0)).sum = 1

theorem rowSum_append (l1 l2 : List TMRIndexWeight) :
    rowSum (l1 ++ l2) = rowSum l1 + rowSum l2 := by
  unfold rowSum
  rw [List.map_append, List.sum_append]

theorem expandTag_sum {dp : List Nat} {dc : List Int} {dw : List ℚ}
    {t : TMROctant} {scale : ℚ} {l : List TMRIndexWeight}
    (hd : depSumOne dp dw)
    (h : expandTag dp dc dw t scale = Except.ok l) : rowSum l = scale := by
  unfold expandTag at h
  by_cases ht : 0 ≤ t.tag
  · rw [if_pos ht] at h
    injection h with h
    rw [← h]
    unfold rowSum
    simp
  · rw [if_neg ht] at h
    dsimp only at h
    cases h1 : dp.get? (-t.tag - 1).toNat with
    | none => rw [h1] at h; exact Except.noConfusion h
    | some a =>
      cases h2 : dp.get? ((-t.tag - 1).toNat + 1) with
      | none => rw [h1, h2] at h; exact Except.noConfusion h
      | some b =>
        rw [h1, h2] at h
        dsimp only at h
        by_cases hg : a ≤ b ∧ b ≤ dc.length ∧ b ≤ dw.length
        · rw [if_pos hg] at h
          injection h with h
          rw [← h]
          unfold rowSum
          rw [List.map_map]
          have hcomp : ((fun w : TMRIndexWeight => w.weight) ∘
              (fun j => (⟨dc.getD (a + j) 0,
                scale * dw.getD (a + j) 0⟩ : TMRIndexWeight))) =
              fun j => scale * dw.getD (a + j) 0 := rfl
          rw [hcomp, List.sum_map_mul_left,
            hd _ a b h1 h2 hg.1 hg.2.2, mul_one]
        · rw [if_neg hg] at h
          exact Except.noConfusion h

theorem lookupExpand_sum {cn : List TMROctant} {dp : List Nat}
    {dc : List Int} {dw : List ℚ} {px py pz : Nat} {scale : ℚ}
    {l : List TMRIndexWeight} (hd : depSumOne dp dw)
    (h : lookupExpand cn dp dc dw px py pz scale = Except.ok l) :
    rowSum l = scale := by
  unfold lookupExpand at h
  cases hc : nodeContains cn px py pz with
  | none => rw [hc] at h; exact Except.noConfusion h
  | some t => rw [hc] at h; exact expandTag_sum hd h

theorem mapME_sum {g : Nat × Nat × Nat → Except Unit (List TMRIndexWeight)}
    {c : ℚ} :
    ∀ {ps : List (Nat × Nat × Nat)} {ws : List (List TMRIndexWeight)},
      mapME g ps = Except.ok ws →
      (∀ p ∈ ps, ∀ l, g p = Except.ok l → rowSum l = c) →
      rowSum ws.flatten = c * ps.length
  | [], ws, h, _ => by
      injection h with h
      rw [← h]
      unfold rowSum
      simp
  | p :: ps, ws, h, hall => by
      unfold mapME at h
      cases hg : g p with
      | error e => rw [hg, exceptBind_err] at h; exact Except.noConfusion h
      | ok b =>
        rw [hg, exceptBind_ok] at h
        cases hm : mapME g ps with
        | error e =>
            rw [hm, exceptBind_err] at h; exact Except.noConfusion h
        | ok bs =>
            rw [hm, exceptBind_ok] at h
            injection h with h
            rw [← h]
            have ih := mapME_sum hm
              (fun q hq l hl => hall q (List.mem_cons_of_mem _ hq) l hl)
            rw [List.flatten_cons, rowSum_append, ih,
              hall p (List.mem_cons_self _ _) b hg, List.length_cons]
            push_cast
            ring

theorem rowSum_cons (a : TMRIndexWeight) (l : List TMRIndexWeight) :
    rowSum (a :: l) = a.weight + rowSum l := by
  unfold rowSum
  simp

theorem coalesceGo_sum :
    ∀ (l : List TMRIndexWeight) (a : TMRIndexWeight),
      rowSum (coalesceGo a l) = a.weight + rowSum l
  | [], a => by unfold coalesceGo rowSum; simp
  | b :: rest, a => by
      unfold coalesceGo
      by_cases hb : b.index = a.index
      · rw [if_pos hb, coalesceGo_sum rest ⟨a.index, a.weight + b.weight⟩,
          rowSum_cons]
        show a.weight + b.weight + rowSum rest = _
        ring
      · rw [if_neg hb, rowSum_cons, coalesceGo_sum rest b, rowSum_cons]

theorem coalesceIW_sum (l : List TMRIndexWeight) :
    rowSum (coalesceIW l) = rowSum l := by
  cases l with
  | nil => rfl
  | cons a rest => exact coalesceGo_sum rest a

theorem uniqueSortIW_sum (l : List TMRIndexWeight) :
    rowSum (uniqueSortIW l) = rowSum l := by
  unfold uniqueSortIW
  rw [coalesceIW_sum]
  unfold rowSum
  exact ((List.perm_insertionSort iwLe l).map (fun w => w.weight)).sum_eq

theorem interpRowCore_coincident {cn : List TMROctant} {dp : List Nat}
    {dc : List Int} {dw : List ℚ} {f t : TMROctant}
    (hc : nodeContains cn f.x f.y f.z = some t) :
    interpRowCore cn dp dc dw f = expandTag dp dc dw t 1 := by
  unfold interpRowCore
  rw [hc]

theorem interpRowCore_sum {cn : List TMROctant} {dp : List Nat}
    {dc : List Int} {dw : List ℚ} {f : TMROctant}
    {l : List TMRIndexWeight} (hd : depSumOne dp dw)
    (h : interpRowCore cn dp dc dw f = Except.ok l)
    (hsel : nodeContains cn f.x f.y f.z ≠ none ∨ childId f ≠ 0) :
    rowSum l = 1 := by
  cases hc : nodeContains cn f.x f.y f.z with
  | some t =>
      rw [interpRowCore_coincident hc] at h
      exact expandTag_sum hd h
  | none =>
      have hid : childId f ≠ 0 := by
        rcases hsel with hs | hs
        · exact absurd hc hs
        · exact hs
      rw [interpRowCore_eq_stencil cn dp dc dw f hc hid] at h
      unfold specStencilRow at h
      cases hm : mapME (fun p =>
          lookupExpand cn dp dc dw p.1 p.2.1 p.2.2 (specWeight f))
          (specCorners f) with
      | error e => rw [hm, exceptBind_err] at h; exact Except.noConfusion h
      | ok ws =>
        rw [hm, exceptBind_ok] at h
        injection h with h
        rw [← h]
        rw [mapME_sum hm (fun p hp l' hl' => lookupExpand_sum hd hl')]
        have h8 := childId_lt_8 f
        have hcases : childId f = 1 ∨ childId f = 2 ∨ childId f = 3 ∨
            childId f = 4 ∨ childId f = 5 ∨ childId f = 6 ∨
            childId f = 7 := by omega
        rcases hcases with hcid | hcid | hcid | hcid | hcid | hcid | hcid <;>
          simp [specCorners, specWeight, hcid] <;> norm_num

theorem interpRow_sum {cn : List TMROctant} {dp : List Nat}
    {dc : List Int} {dw : List ℚ} {f : TMROctant}
    {r : List TMRIndexWeight} (hd : depSumOne dp dw)
    (h : interpRow cn dp dc dw f = Except.ok r)
    (hsel : nodeContains cn f.x f.y f.z ≠ none ∨ childId f ≠ 0) :
    rowSum r = 1 := by
  unfold interpRow at h
  cases hcore : interpRowCore cn dp dc dw f with
  | error e => rw [hcore] at h; exact Except.noConfusion h
  | ok l =>
      rw [hcore] at h
      injection h with h
      rw [← h, uniqueSortIW_sum]
      exact interpRowCore_sum hd hcore hsel

theorem mapME_mem {α β : Type} {g : α → Except Unit β} :
    ∀ {ps : List α} {ws : List β}, mapME g ps = Except.ok ws →
      ∀ w ∈ ws, ∃ p ∈ ps, g p = Except.ok w
  | [], ws, h, w, hw => by
      injection h with h
      rw [← h] at hw
      exact absurd hw (List.not_mem_nil w)
  | p :: ps, ws, h, w, hw => by
      unfold mapME at h
      cases hg : g p with
      | error e => rw [hg, exceptBind_err] at h; exact Except.noConfusion h
      | ok b =>
        rw [hg, exceptBind_ok] at h
        cases hm : mapME g ps with
        | error e =>
            rw [hm, exceptBind_err] at h; exact Except.noConfusion h
        | ok bs =>
            rw [hm, exceptBind_ok] at h
            injection h with h
            rw [← h] at hw
            rcases List.mem_cons.mp hw with rfl | hw'
            · exact ⟨p, List.mem_cons_self _ _, hg⟩
            · obtain ⟨q, hq, hgq⟩ := mapME_mem hm w hw'
              exact ⟨q, List.mem_cons_of_mem _ hq, hgq⟩

/-- C5 (amended): under the claim's precondition that every coarse
dependent-node row's weights sum to 1, every row of a successfully built
interpolation operator whose fine node either has a coincident coarse
node or a nonzero child id has weights summing exactly to 1 (after
duplicate coalescing).  Without the added disjunction the claim fails: a
fine node with child id 0 and no coincident coarse node assembles an
empty row of sum 0 — see the counterexample. -/
theorem spec_C5 (fineNodes cn : List TMROctant) (dp : List Nat)
    (dc : List Int) (dw : List ℚ) (rows : List (List TMRIndexWeight))
    (hd : depSumOne dp dw)
    (hok : createInterpolationRows fineNodes cn dp dc dw = Except.ok rows)
    (hcover : ∀ f ∈ fineNodes, 0 ≤ f.tag →
      nodeContains cn f.x f.y f.z ≠ none ∨ childId f ≠ 0) :
    ∀ r ∈ rows, rowSum r = 1 := by
  intro r hr
  unfold createInterpolationRows at hok
  obtain ⟨f, hf, hgf⟩ := mapME_mem hok r hr
  rw [List.mem_filter] at hf
  have htag : 0 ≤ f.tag := by
    have := hf.2
    simpa using this
  exact interpRow_sum hd hgf (hcover f hf.1 htag)

/-- C5 counterexample: the coarse tree is the root octree with its eight
order-2 corner nodes and empty dependent tables (a dependent-weight
precondition that holds vacuously); the fine node `(2^29, 0, 0)` — an
edge midpoint of a refined child, carrying node level 0 as createNodes
builds it — has no coincident coarse node and child id 0, so its
interpolation row is empty and sums to 0, not 1. -/
theorem spec_C5_cex :
    depSumOne [] [] ∧
    createInterpolationRows [⟨2 ^ 29, 0, 0, 0, 1⟩]
      [⟨0, 0, 0, 0, 0⟩, ⟨2 ^ 30, 0, 0, 0, 1⟩, ⟨0, 2 ^ 30, 0, 0, 2⟩,
       ⟨2 ^ 30, 2 ^ 30, 0, 0, 3⟩, ⟨0, 0, 2 ^ 30, 0, 4⟩,
       ⟨2 ^ 30, 0, 2 ^ 30, 0, 5⟩, ⟨0, 2 ^ 30, 2 ^ 30, 0, 6⟩,
       ⟨2 ^ 30, 2 ^ 30, 2 ^ 30, 0, 7⟩] [] [] [] = Except.ok [[]] ∧
    rowSum [] ≠ 1 := by
  refine ⟨?_, rfl, by norm_num [rowSum]⟩
  intro node a b h1
  exact absurd h1 (by simp)

/-- Witness for `spec_C5`: a one-node fine array whose node coincides
with the coarse corner node at the origin. -/
theorem spec_C5_witness :
    rowSum [(⟨0, (1 : ℚ)⟩ : TMRIndexWeight)] = 1 := by
  refine spec_C5 [⟨0, 0, 0, 0, 1⟩] [⟨0, 0, 0, 0, 0⟩] [] [] []
    [[⟨0, 1⟩]] ?_ rfl ?_ [⟨0, 1⟩] (List.mem_singleton_self _)
  · intro node a b h1
    exact absurd h1 (by simp)
  · intro f hf htag
    rcases List.mem_singleton.mp hf with rfl
    left
    intro hc
    exact absurd hc (by decide)

/-! ### The refine/coarsen round trip (C1) -/

instance : IsTrans TMROctant octLt :=
  ⟨fun _ _ _ h1 h2 => octLt_of_lt_of_le h1 (octLe_of_octLt h2)⟩

theorem foldl_hashAdd_congr_g (f : TMROctant × Int → TMROctant)
    (g : TMROctant → TMROctant) :
    ∀ (ps : List (TMROctant × Int)) (acc : List TMROctant),
      (∀ pr ∈ ps, f pr = g pr.1) →
      ps.foldl (fun acc pr => hashAdd acc (f pr)) acc =
        ((ps.map Prod.fst).map g).foldl hashAdd acc
  | [], _, _ => rfl
  | pr :: ps, acc, h => by
      rw [List.foldl_cons, List.map_cons, List.map_cons, List.foldl_cons,
        h pr (List.mem_cons_self _ _)]
      exact foldl_hashAdd_congr_g f g ps _ (fun q hq =>
        h q (List.mem_cons_of_mem _ hq))

theorem cubesDisjoint_symm {a b : TMROctant} (h : cubesDisjoint a b) :
    cubesDisjoint b a := by
  unfold cubesDisjoint at *
  tauto

theorem no_common_point {a b : TMROctant} (hd : cubesDisjoint a b)
    {px py pz : Nat} (hpa : pointInCube a px py pz)
    (hpb : pointInCube b px py pz) : False := by
  unfold cubesDisjoint at hd
  unfold pointInCube at hpa hpb
  omega

theorem childOct_anchor_mem {p : TMROctant} (hl : p.level < TMR_MAX_LEVEL)
    (k : Nat) :
    pointInCube p (childOct p k).x (childOct p k).y (childOct p k).z := by
  unfold pointInCube childOct
  dsimp only
  have hm2 : k % 2 < 2 := Nat.mod_lt _ (by norm_num)
  have hm22 : k / 2 % 2 < 2 := Nat.mod_lt _ (by norm_num)
  have hm24 : k / 4 % 2 < 2 := Nat.mod_lt _ (by norm_num)
  have hhp : hOct p = 2 ^ (TMR_MAX_LEVEL - (p.level + 1)) * 2 := by
    unfold hOct
    rw [show TMR_MAX_LEVEL - p.level = TMR_MAX_LEVEL - (p.level + 1) + 1
      from by omega, pow_succ]
  have hE : 0 < 2 ^ (TMR_MAX_LEVEL - (p.level + 1)) :=
    Nat.pos_pow_of_pos _ (by norm_num)
  have hb : ∀ b : Nat, b < 2 →
      b * 2 ^ (TMR_MAX_LEVEL - (p.level + 1)) ≤
        2 ^ (TMR_MAX_LEVEL - (p.level + 1)) := by
    intro b hb
    calc b * 2 ^ (TMR_MAX_LEVEL - (p.level + 1)) ≤
        1 * 2 ^ (TMR_MAX_LEVEL - (p.level + 1)) :=
          Nat.mul_le_mul_right _ (by omega)
      _ = 2 ^ (TMR_MAX_LEVEL - (p.level + 1)) := one_mul _
  have h1 := hb _ hm2
  have h2 := hb _ hm22
  have h3 := hb _ hm24
  omega

theorem childOct_mk_eq {o : TMROctant} {j j' : Nat}
    (hx : (childOct o j).x = (childOct o j').x)
    (hy : (childOct o j).y = (childOct o j').y)
    (hz : (childOct o j).z = (childOct o j').z) :
    childOct o j = childOct o j' := by
  unfold childOct at *
  dsimp only at hx hy hz
  simp only [TMROctant.mk.injEq]
  exact ⟨hx, hy, hz, trivial, trivial⟩

theorem child_fieldsEq_eq {elems : List TMROctant}
    (hv : ∀ o ∈ elems, validOct o)
    (hlvl : ∀ o ∈ elems, o.level < TMR_MAX_LEVEL)
    (hdisj : elems.Pairwise cubesDisjoint)
    {o o' : TMROctant} (ho : o ∈ elems) (ho' : o' ∈ elems)
    {j j' : Nat}
    (hf : octFieldsEq (childOct o j) (childOct o' j')) :
    childOct o j = childOct o' j' := by
  obtain ⟨hx, hy, hz, hlev⟩ := hf
  by_cases heq : o = o'
  · subst heq
    exact childOct_mk_eq hx hy hz
  · exfalso
    have hd : cubesDisjoint o o' :=
      hdisj.forall (fun _ _ h => cubesDisjoint_symm h) ho ho' heq
    have h1 := childOct_anchor_mem (hlvl o ho) j
    have h2 := childOct_anchor_mem (hlvl o' ho') j'
    rw [← hx, ← hy, ← hz] at h2
    exact no_common_point hd h1 h2

theorem mem_childrenList {p b : TMROctant} :
    b ∈ childrenList p ↔ ∃ k, k < 8 ∧ b = childOct p k := by
  unfold childrenList
  constructor
  · intro h
    simp only [List.mem_cons, List.not_mem_nil, or_false] at h
    rcases h with rfl | rfl | rfl | rfl | rfl | rfl | rfl | rfl
    exacts [⟨0, by norm_num, rfl⟩, ⟨1, by norm_num, rfl⟩,
      ⟨2, by norm_num, rfl⟩, ⟨3, by norm_num, rfl⟩,
      ⟨4, by norm_num, rfl⟩, ⟨5, by norm_num, rfl⟩,
      ⟨6, by norm_num, rfl⟩, ⟨7, by norm_num, rfl⟩]
  · rintro ⟨k, hk, rfl⟩
    interval_cases k <;> simp

theorem childOct_lt_childOct {p : TMROctant} (hp : validOct p)
    (hl : p.level < TMR_MAX_LEVEL) {a b : Nat} (h8a : a < 8) (h8b : b < 8)
    (hab : a < b) : octLt (childOct p a) (childOct p b) := by
  left
  rw [okey_childOct hp hl a, okey_childOct hp hl b,
    Nat.mod_eq_of_lt h8a, Nat.mod_eq_of_lt h8b]
  have hE : 0 < 8 ^ (TMR_MAX_LEVEL - (p.level + 1)) :=
    Nat.pos_pow_of_pos _ (by norm_num)
  have h1 : a * 8 ^ (TMR_MAX_LEVEL - (p.level + 1)) <
      b * 8 ^ (TMR_MAX_LEVEL - (p.level + 1)) := by
    exact Nat.mul_lt_mul_of_lt_of_le hab le_rfl hE
  omega

theorem childrenList_sorted {p : TMROctant} (hp : validOct p)
    (hl : p.level < TMR_MAX_LEVEL) :
    List.Sorted octLt (childrenList p) := by
  have hchain : List.Chain' octLt (childrenList p) := by
    unfold childrenList
    simp only [List.chain'_cons, List.chain'_singleton, and_true]
    refine ⟨?_, ?_, ?_, ?_, ?_, ?_, ?_⟩ <;>
      apply childOct_lt_childOct hp hl <;> norm_num
  exact List.chain'_iff_pairwise.mp hchain

theorem okey_childOct_lt {p : TMROctant} (hp : validOct p)
    (hl : p.level < TMR_MAX_LEVEL) {k : Nat} (hk : k < 8) :
    okey (childOct p k) < okey p + 8 ^ (TMR_MAX_LEVEL - p.level) := by
  rw [okey_childOct hp hl k, Nat.mod_eq_of_lt hk]
  have hE : 0 < 8 ^ (TMR_MAX_LEVEL - (p.level + 1)) :=
    Nat.pos_pow_of_pos _ (by norm_num)
  have hsplit : 8 ^ (TMR_MAX_LEVEL - p.level) =
      8 ^ (TMR_MAX_LEVEL - (p.level + 1)) * 8 := by
    rw [show TMR_MAX_LEVEL - p.level = TMR_MAX_LEVEL - (p.level + 1) + 1
      from by omega, pow_succ]
  have h1 : k * 8 ^ (TMR_MAX_LEVEL - (p.level + 1)) <
      8 * 8 ^ (TMR_MAX_LEVEL - (p.level + 1)) :=
    Nat.mul_lt_mul_of_lt_of_le hk le_rfl hE
  omega

theorem okey_le_okey_childOct {p : TMROctant} (hp : validOct p)
    (hl : p.level < TMR_MAX_LEVEL) (k : Nat) :
    okey p ≤ okey (childOct p k) := by
  rw [okey_childOct hp hl k]
  omega

theorem flatMap_children_sorted : ∀ {elems : List TMROctant},
    List.Sorted octLt elems → (∀ o ∈ elems, validOct o) →
    (∀ o ∈ elems, o.level < TMR_MAX_LEVEL) →
    elems.Pairwise cubesDisjoint →
    List.Sorted octLt (elems.flatMap childrenList)
  | [], _, _, _, _ => List.sorted_nil
  | p :: rest, hs, hv, hlvl, hdisj => by
      rw [List.flatMap_cons]
      have hp := hv p (List.mem_cons_self _ _)
      have hpl := hlvl p (List.mem_cons_self _ _)
      unfold List.Sorted
      rw [List.pairwise_append]
      refine ⟨childrenList_sorted hp hpl,
        flatMap_children_sorted hs.of_cons
          (fun o ho => hv o (List.mem_cons_of_mem _ ho))
          (fun o ho => hlvl o (List.mem_cons_of_mem _ ho))
          (List.Pairwise.sublist (List.sublist_cons_self _ _) hdisj), ?_⟩
      intro a ha b hb
      obtain ⟨k, hk, rfl⟩ := mem_childrenList.mp ha
      rw [List.mem_flatMap] at hb
      obtain ⟨q, hq, hbq⟩ := hb
      obtain ⟨k', hk', rfl⟩ := mem_childrenList.mp hbq
      have hqv := hv q (List.mem_cons_of_mem _ hq)
      have hql := hlvl q (List.mem_cons_of_mem _ hq)
      have hpq : octLt p q := (List.sorted_cons.mp hs).1 q hq
      have hdq : cubesDisjoint p q := (List.pairwise_cons.mp hdisj).1 q hq
      have hint := key_interval_le_of_octLt hp hqv hdq hpq
      have h1 := okey_childOct_lt hp hpl hk
      have h2 := okey_le_okey_childOct hqv hql k'
      left
      omega

/-- The refinement pass of C1: with an all-positive refinement array,
`min_level = 0` and `max_level = LMAX`, `refine` returns exactly the
Morton-sorted array of all eight children of every element. -/
theorem refine_children (elems : List TMROctant) (refinement : List Int)
    (hs : List.Sorted octLt elems)
    (hv : ∀ o ∈ elems, validOct o)
    (hlvl : ∀ o ∈ elems, o.level < TMR_MAX_LEVEL)
    (hdisj : elems.Pairwise cubesDisjoint)
    (hlen : elems.length ≤ refinement.length)
    (hpos : ∀ r ∈ refinement, 0 < r) :
    refine elems refinement 0 (TMR_MAX_LEVEL : Int) =
      elems.flatMap childrenList := by
  unfold refine
  dsimp only
  have hseed : ∀ pr ∈ List.zip elems refinement,
      refineSeed pr.1 pr.2
        (if (if (TMR_MAX_LEVEL : Int) < (TMR_MAX_LEVEL : Int)
              then (TMR_MAX_LEVEL : Int) else (TMR_MAX_LEVEL : Int)) <
            (if (0 : Int) < 0 then 0 else 0)
         then (if (TMR_MAX_LEVEL : Int) < (TMR_MAX_LEVEL : Int)
              then (TMR_MAX_LEVEL : Int) else (TMR_MAX_LEVEL : Int))
         else (if (0 : Int) < 0 then 0 else 0))
        (if (TMR_MAX_LEVEL : Int) < (TMR_MAX_LEVEL : Int)
         then (TMR_MAX_LEVEL : Int) else (TMR_MAX_LEVEL : Int)) =
      childOct pr.1 0 := by
    intro pr hpr
    have hmem := List.mem_zip hpr
    have hr := hpos pr.2 hmem.2
    have hl := hlvl pr.1 hmem.1
    unfold refineSeed
    rw [ite_self, if_neg (by omega), if_neg (by omega),
      if_pos (by exact_mod_cast (by omega : (pr.1.level : Int) <
        (TMR_MAX_LEVEL : Int)))]
    rw [childOct_zero]
  have hfst : (List.zip elems refinement).map Prod.fst = elems :=
    List.map_fst_zip _ _ hlen
  have hC0pair : (elems.map (fun o => childOct o 0)).Pairwise
      (fun a b => ¬octFieldsEq a b) := by
    rw [List.pairwise_map]
    have hcomb := hdisj.and
      (hs.imp (fun {a b} h => not_octFieldsEq_of_octLt h))
    refine hcomb.imp ?_
    intro a b hab hf
    obtain ⟨hx, hy, hz, _⟩ := hf
    unfold childOct at hx hy hz
    dsimp only at hx hy hz
    have ha := hOct_pos a
    have hb := hOct_pos b
    unfold cubesDisjoint at hab
    have hax : a.x = b.x := by omega
    have hay : a.y = b.y := by omega
    have haz : a.z = b.z := by omega
    rcases hab.1 with h | h | h | h | h | h <;> omega
  rw [foldl_hashAdd_congr_g _ (fun o => childOct o 0) _ _ hseed, hfst,
    foldl_hashAdd_append _ [] (by simpa using hC0pair)]
  simp only [List.nil_append]
  set S0 := elems.map (fun o => childOct o 0) with hS0
  have hS0mem : ∀ c, c ∈ S0 ↔ ∃ o ∈ elems, c = childOct o 0 := by
    intro c
    rw [hS0, List.mem_map]
    constructor
    · rintro ⟨o, ho, rfl⟩; exact ⟨o, ho, rfl⟩
    · rintro ⟨o, ho, rfl⟩; exact ⟨o, ho, rfl⟩
  have hC0perm : List.Perm (sortUnique S0) S0 :=
    sortUnique_perm_of_nodupKeys hC0pair
  have hXmem : ∀ b, b ∈ siblingExpand (sortUnique S0) ↔
      ∃ o ∈ elems, ∃ j, j < 8 ∧ b = childOct o j := by
    intro b
    constructor
    · intro hb
      obtain ⟨c, hc, j, hj, rfl⟩ := siblingExpand_mem hb
      obtain ⟨o, ho, rfl⟩ := (hS0mem c).mp (hC0perm.mem_iff.mp hc)
      rw [getSibling_childOct (hv o ho) (hlvl o ho) j 0]
      exact ⟨o, ho, j, hj, rfl⟩
    · rintro ⟨o, ho, j, hj, rfl⟩
      have hov := hv o ho
      have hol := hlvl o ho
      have hc0 : childOct o 0 ∈ sortUnique S0 :=
        hC0perm.mem_iff.mpr ((hS0mem _).mpr ⟨o, ho, rfl⟩)
      have hcv := childOct_valid hov hol j
      have hhp := hOct_pos (childOct o j)
      obtain ⟨_, _, _, _, hbx, hby, hbz⟩ := hcv
      have hsib : getSibling j (childOct o 0) = childOct o j :=
        getSibling_childOct hov hol j 0
      obtain ⟨b', hb'mem, hb'f⟩ := siblingExpand_covers hc0 hj
        (by rw [hsib]; omega) (by rw [hsib]; omega) (by rw [hsib]; omega)
      rw [hsib] at hb'f
      obtain ⟨c', hc', j', hj', rfl⟩ := siblingExpand_mem hb'mem
      obtain ⟨o', ho', rfl⟩ := (hS0mem c').mp (hC0perm.mem_iff.mp hc')
      rw [getSibling_childOct (hv o' ho') (hlvl o' ho') j' 0] at hb'f hb'mem
      have heq := child_fieldsEq_eq hv hlvl hdisj ho' ho hb'f
      rw [heq] at hb'mem
      exact hb'mem
  have hXvalid : ∀ b ∈ siblingExpand (sortUnique S0), validOct b := by
    intro b hb
    obtain ⟨o, ho, j, hj, rfl⟩ := (hXmem b).mp hb
    exact childOct_valid (hv o ho) (hlvl o ho) j
  have hSCsorted : List.Sorted octLt (elems.flatMap childrenList) :=
    flatMap_children_sorted hs hv hlvl hdisj
  have hsorted1 : List.Sorted octLt
      (sortUnique (siblingExpand (sortUnique S0))) :=
    sortUnique_sorted _ (fun o ho => coordBounded_of_valid (hXvalid o ho))
  have hperm1 : List.Perm (sortUnique (siblingExpand (sortUnique S0)))
      (siblingExpand (sortUnique S0)) :=
    sortUnique_perm_of_nodupKeys (siblingExpand_nodupKeys _)
  have heq1 : sortUnique (siblingExpand (sortUnique S0)) =
      elems.flatMap childrenList := by
    apply sorted_eq_of_mem_iff hsorted1 hSCsorted
    intro b
    rw [hperm1.mem_iff, hXmem b, List.mem_flatMap]
    constructor
    · rintro ⟨o, ho, j, hj, rfl⟩
      exact ⟨o, ho, mem_childrenList.mpr ⟨j, hj, rfl⟩⟩
    · rintro ⟨o, ho, hb⟩
      obtain ⟨j, hj, rfl⟩ := mem_childrenList.mp hb
      exact ⟨o, ho, j, hj, rfl⟩
  rw [heq1, sortUnique_eq_self hSCsorted]

/-- The coarsening scan undoes a uniform refinement: on the concatenated
child families of a list of sub-`LMAX` octants it emits exactly the
parents. -/
theorem coarsenScan_flatMap_children : ∀ (ps : List TMROctant),
    (∀ p ∈ ps, validOct p) → (∀ p ∈ ps, p.level < TMR_MAX_LEVEL) →
    coarsenScan (ps.flatMap childrenList) = ps
  | [], _, _ => rfl
  | p :: ps, hv, hlvl => by
      rw [List.flatMap_cons]
      have hp := hv p (List.mem_cons_self _ _)
      have hpl := hlvl p (List.mem_cons_self _ _)
      have hunf : childrenList p ++ ps.flatMap childrenList =
          childOct p 0 :: childOct p 1 :: childOct p 2 :: childOct p 3 ::
          childOct p 4 :: childOct p 5 :: childOct p 6 :: childOct p 7 ::
          ps.flatMap childrenList := by
        unfold childrenList
        simp
      rw [hunf, coarsenScan_cons]
      have h6 : (childOct p 1 :: childOct p 2 :: childOct p 3 ::
          childOct p 4 :: childOct p 5 :: childOct p 6 :: childOct p 7 ::
          ps.flatMap childrenList).get? 6 = some (childOct p 7) := rfl
      have hfam : famTest (childOct p 0) (childOct p 1 :: childOct p 2 ::
          childOct p 3 :: childOct p 4 :: childOct p 5 :: childOct p 6 ::
          childOct p 7 :: ps.flatMap childrenList) = true := by
        unfold famTest
        rw [h6]
        dsimp only
        rw [childId_childOct hp hpl 0, childId_childOct hp hpl 7,
          getSibling_childOct hp hpl 0 7]
        simp [octCmpEq, childOct]
      rw [if_pos hfam, parent_childOct hp hpl 0]
      have hdrop : (childOct p 1 :: childOct p 2 :: childOct p 3 ::
          childOct p 4 :: childOct p 5 :: childOct p 6 :: childOct p 7 ::
          ps.flatMap childrenList).drop 7 = ps.flatMap childrenList := rfl
      rw [hdrop, coarsenScan_flatMap_children ps
        (fun q hq => hv q (List.mem_cons_of_mem _ hq))
        (fun q hq => hlvl q (List.mem_cons_of_mem _ hq))]

/-- C1: for every valid linear octree `T` — strictly Morton-sorted,
pairwise-disjoint valid octants, all of level strictly below `LMAX` —
coarsening the tree obtained by refining every element by one level
(`refine` with all-positive entries and bounds `(0, LMAX)`) returns
exactly the element array of `T`. -/
theorem spec_C1 (elems : List TMROctant) (refinement : List Int)
    (hs : List.Sorted octLt elems)
    (hv : ∀ o ∈ elems, validOct o)
    (hlvl : ∀ o ∈ elems, o.level < TMR_MAX_LEVEL)
    (hdisj : elems.Pairwise cubesDisjoint)
    (hlen : elems.length ≤ refinement.length)
    (hpos : ∀ r ∈ refinement, 0 < r) :
    coarsen (refine elems refinement 0 (TMR_MAX_LEVEL : Int)) = elems := by
  rw [refine_children elems refinement hs hv hlvl hdisj hlen hpos]
  unfold coarsen
  rw [coarsenLoop_eq_scan _ _ 0 (by omega), List.drop_zero,
    coarsenScan_flatMap_children elems hv hlvl, sortUnique_eq_self hs]

/-- Witness for `spec_C1`: the single-element root octree refined once and
coarsened back. -/
theorem spec_C1_witness :
    coarsen (refine [(⟨0, 0, 0, 0, 0⟩ : TMROctant)] [1] 0
      (TMR_MAX_LEVEL : Int)) = [(⟨0, 0, 0, 0, 0⟩ : TMROctant)] :=
  spec_C1 [⟨0, 0, 0, 0, 0⟩] [1] (by simp) (by decide)
    (by decide) (by simp) (by simp) (by simp)

/-! ### Correctness of the findEnclosing binary search (C3) -/

theorem tdiv2_eq_zero {d : Int} (hd : 0 ≤ d) :
    Int.tdiv d 2 = 0 ↔ d ≤ 1 := by
  rw [Int.tdiv_eq_ediv hd (by norm_num)]
  omega

theorem tdiv2_lt {d : Int} (hd : 2 ≤ d) : Int.tdiv d 2 < d := by
  rw [Int.tdiv_eq_ediv (by omega) (by norm_num)]
  omega

theorem getI_some_inv {elems : List TMROctant} {i : Int} {em : TMROctant}
    (h : getI elems i = some em) :
    0 ≤ i ∧ i < (elems.length : Int) ∧ elems.get? i.toNat = some em := by
  unfold getI at h
  by_cases hc : 0 ≤ i ∧ i < (elems.length : Int)
  · rw [if_pos hc] at h
    exact ⟨hc.1, hc.2, h⟩
  · rw [if_neg hc] at h
    exact Option.noConfusion h

theorem containsCube_unique {e e' o : TMROctant}
    (hd : cubesDisjoint e e')
    (hc : containsCube e o) (hc' : containsCube e' o) : False := by
  have hp := hOct_pos o
  unfold containsCube at hc hc'
  unfold cubesDisjoint at hd
  omega

theorem enclosing_lt_of_octLt {e em o : TMROctant} (he : validOct e)
    (hem : validOct em) (ho : validOct o) (hd : cubesDisjoint e em)
    (hc : containsCube e o) (hlt : octLt o em) : okey e < okey em := by
  have h1 := (containsCube_keys he ho hc).1
  have hne := okey_ne_of_disjoint he hem hd
  rcases hlt with h | ⟨h, _⟩ <;> omega

theorem enclosing_gt_of_ge {e em o : TMROctant} (he : validOct e)
    (hem : validOct em) (ho : validOct o) (hd : cubesDisjoint e em)
    (hc : containsCube e o) (hnlt : ¬octLt o em) : okey em < okey e := by
  obtain ⟨h1, h2, _⟩ := containsCube_keys he ho hc
  have hne := okey_ne_of_disjoint he hem hd
  have hle : okey em ≤ okey o := by
    unfold octLt at hnlt
    push_neg at hnlt
    omega
  rcases Nat.lt_or_ge (okey em) (okey e) with h | h
  · exact h
  · exfalso
    have hgt : okey e < okey em := by omega
    have ho8 : (1:Nat) ≤ 8 ^ (TMR_MAX_LEVEL - o.level) :=
      Nat.one_le_pow _ _ (by norm_num)
    have hm8 : (1:Nat) ≤ 8 ^ (TMR_MAX_LEVEL - em.level) :=
      Nat.one_le_pow _ _ (by norm_num)
    exact key_intervals_disjoint he hem hd (le_of_lt hgt) (by omega)
      le_rfl (by omega)

theorem sorted_okey_index_lt {elems : List TMROctant}
    (hs : List.Sorted octLt elems) {i k : Nat} {a b : TMROctant}
    (ha : elems.get? i = some a) (hb : elems.get? k = some b)
    (h : okey a < okey b) : i < k := by
  by_contra hik
  push_neg at hik
  obtain ⟨hil, hia⟩ := List.get?_eq_some.mp ha
  obtain ⟨hkl, hkb⟩ := List.get?_eq_some.mp hb
  rcases Nat.eq_or_lt_of_le hik with heq | hlt
  · subst heq
    have hab : a = b := by rw [← hia, ← hkb]
    rw [hab] at h
    exact lt_irrefl _ h
  · have hp : List.Pairwise octLt elems := hs
    rw [List.pairwise_iff_get] at hp
    have hrel := hp ⟨k, hkl⟩ ⟨i, hil⟩ (Fin.mk_lt_mk.mpr hlt)
    rw [hia, hkb] at hrel
    unfold octLt at hrel
    rcases hrel with hh | ⟨hh, _⟩ <;> omega

/-- The binary-search loop finds the unique stored element whose cube
contains the query, whenever its index lies in `[low, high]` and the
midpoint invariants of the C code hold. -/
theorem feGo_finds (elems : List TMROctant) (o : TMROctant)
    (hs : List.Sorted octLt elems)
    (hv : ∀ x ∈ elems, validOct x)
    (hdisj : elems.Pairwise cubesDisjoint)
    (ho : validOct o)
    {j : Nat} {e : TMROctant} (hj : elems.get? j = some e)
    (hcont : containsCube e o) :
    ∀ (fuel : Nat) (low high mid : Int),
      0 ≤ low → low ≤ (j : Int) → (j : Int) ≤ high →
      high < (elems.length : Int) →
      low ≤ mid → mid ≤ high →
      (high = mid → high ≤ low + 1) →
      (high - low).toNat + 1 ≤ fuel →
      feGo elems o fuel low high mid = some (FEOutcome.found j) := by
  have hje : e ∈ elems := List.get?_mem hj
  have hev := hv e hje
  have hdisj_idx : ∀ {m : Nat} {em : TMROctant}, elems.get? m = some em →
      m ≠ j → cubesDisjoint e em := by
    intro m em hm hne
    obtain ⟨hjl, hja⟩ := List.get?_eq_some.mp hj
    obtain ⟨hml, hma⟩ := List.get?_eq_some.mp hm
    have hp := hdisj
    rw [List.pairwise_iff_get] at hp
    rcases Nat.lt_or_ge j m with h | h
    · have := hp ⟨j, hjl⟩ ⟨m, hml⟩ (Fin.mk_lt_mk.mpr h)
      rw [hja, hma] at this
      exact this
    · have hmx : m < j := by omega
      have := hp ⟨m, hml⟩ ⟨j, hjl⟩ (Fin.mk_lt_mk.mpr hmx)
      rw [hja, hma] at this
      exact cubesDisjoint_symm this
  have huniq : ∀ {m : Nat} {em : TMROctant}, elems.get? m = some em →
      containsCube em o → m = j := by
    intro m em hm hc
    by_contra hne
    exact containsCube_unique (hdisj_idx hm hne) hcont hc
  have hne_of_nc : ∀ {m : Nat} {em : TMROctant}, elems.get? m = some em →
      ¬containsCube em o → m ≠ j := by
    intro m em hm hc hmj
    apply hc
    rw [hmj, hj] at hm
    injection hm with hm
    rw [← hm]
    exact hcont
  have hAcmp : ∀ {m : Nat} {em : TMROctant}, elems.get? m = some em →
      ¬containsCube em o → octLt o em → j < m := by
    intro m em hm hc hlt
    have hmj := hne_of_nc hm hc
    have hkey := enclosing_lt_of_octLt hev (hv em (List.get?_mem hm)) ho
      (hdisj_idx hm hmj) hcont hlt
    exact sorted_okey_index_lt hs hj hm hkey
  have hBcmp : ∀ {m : Nat} {em : TMROctant}, elems.get? m = some em →
      ¬containsCube em o → ¬octLt o em → m < j := by
    intro m em hm hc hnlt
    have hmj := hne_of_nc hm hc
    have hkey := enclosing_gt_of_ge hev (hv em (List.get?_mem hm)) ho
      (hdisj_idx hm hmj) hcont hnlt
    exact sorted_okey_index_lt hs hm hj hkey
  intro fuel
  induction fuel with
  | zero =>
      intro low high mid _ hlj hjh _ _ _ _ hf
      omega
  | succ fuel ih =>
      intro low high mid hl0 hlj hjh hhn hlm hmh hexit hfuel
      rw [feGo]
      by_cases heq : high = mid
      · rw [if_pos heq]
        have hm0 : (0:Int) ≤ mid := by omega
        have hmlen : mid < (elems.length : Int) := by omega
        obtain ⟨em, hem⟩ := getI_some hm0 hmlen
        obtain ⟨_, _, hgetm⟩ := getI_some_inv hem
        unfold fePost
        rw [hem]
        dsimp only
        by_cases hc : containsCube em o
        · rw [if_pos hc]
          rw [huniq hgetm hc]
        · rw [if_neg hc]
          have hmj : mid.toNat ≠ j := hne_of_nc hgetm hc
          have hbnd := hexit heq
          have hjlow : (j : Int) = low := by omega
          have hlown : low < (elems.length : Int) := by omega
          obtain ⟨el, hel⟩ := getI_some hl0 hlown
          obtain ⟨_, _, hgetl⟩ := getI_some_inv hel
          have hlj' : low.toNat = j := by omega
          rw [hlj', hj] at hgetl
          injection hgetl with hgetl
          rw [hel]
          dsimp only
          rw [if_pos (hgetl ▸ hcont), hlj']
      · rw [if_neg heq]
        have hm0 : (0:Int) ≤ mid := by omega
        have hmlen : mid < (elems.length : Int) := by omega
        obtain ⟨em, hem⟩ := getI_some hm0 hmlen
        obtain ⟨_, _, hgetm⟩ := getI_some_inv hem
        rw [hem]
        dsimp only
        by_cases hc : containsCube em o
        · rw [if_pos hc]
          rw [huniq hgetm hc]
        · rw [if_neg hc]
          by_cases hlt : octLt o em
          · rw [if_pos hlt]
            have hjm : j < mid.toNat := hAcmp hgetm hc hlt
            have hjmi : (j : Int) < mid := by omega
            have hd : 0 ≤ mid - 1 - low := by omega
            obtain ⟨hd1, hd2⟩ := tdiv2_bounds hd
            exact ih low (mid - 1) (mid - 1 - Int.tdiv (mid - 1 - low) 2)
              hl0 hlj (by omega) (by omega) (by omega) (by omega)
              (by
                intro hq
                have h0' : Int.tdiv (mid - 1 - low) 2 = 0 := by omega
                have := (tdiv2_eq_zero hd).mp h0'
                omega)
              (by omega)
          · rw [if_neg hlt]
            have hmj : mid.toNat < j := hBcmp hgetm hc hlt
            have hmji : mid < (j : Int) := by omega
            have hd : 0 ≤ high - (mid + 1) := by omega
            obtain ⟨hd1, hd2⟩ := tdiv2_bounds hd
            exact ih (mid + 1) high (high - Int.tdiv (high - (mid + 1)) 2)
              (by omega) (by omega) hjh hhn (by omega) (by omega)
              (by
                intro hq
                have h0' : Int.tdiv (high - (mid + 1)) 2 = 0 := by omega
                have := (tdiv2_eq_zero hd).mp h0'
                omega)
              (by omega)

/-- Soundness of every `found` result of the search, for any input
array: the returned index holds an element whose cube contains the
query. -/
theorem feGo_found_contains (elems : List TMROctant) (o : TMROctant) :
    ∀ (fuel : Nat) (low high mid : Int) (i : Nat),
      feGo elems o fuel low high mid = some (FEOutcome.found i) →
      ∃ em, elems.get? i = some em ∧ containsCube em o
  | 0, _, _, _, _, h => Option.noConfusion h
  | fuel + 1, low, high, mid, i, h => by
      rw [feGo] at h
      by_cases heq : high = mid
      · rw [if_pos heq] at h
        injection h with h
        unfold fePost at h
        cases hgm : getI elems mid with
        | none => rw [hgm] at h; exact FEOutcome.noConfusion h
        | some em =>
            rw [hgm] at h
            dsimp only at h
            by_cases hc : containsCube em o
            · rw [if_pos hc] at h
              injection h with h
              obtain ⟨_, _, hget⟩ := getI_some_inv hgm
              exact ⟨em, h ▸ hget, hc⟩
            · rw [if_neg hc] at h
              cases hgl : getI elems low with
              | none => rw [hgl] at h; exact FEOutcome.noConfusion h
              | some el =>
                  rw [hgl] at h
                  dsimp only at h
                  by_cases hcl : containsCube el o
                  · rw [if_pos hcl] at h
                    injection h with h
                    obtain ⟨_, _, hget⟩ := getI_some_inv hgl
                    exact ⟨el, h ▸ hget, hcl⟩
                  · rw [if_neg hcl] at h
                    exact FEOutcome.noConfusion h
      · rw [if_neg heq] at h
        cases hgm : getI elems mid with
        | none =>
            rw [hgm] at h
            injection h with h
            exact FEOutcome.noConfusion h
        | some em =>
            rw [hgm] at h
            dsimp only at h
            by_cases hc : containsCube em o
            · rw [if_pos hc] at h
              injection h with h
              injection h with h
              obtain ⟨_, _, hget⟩ := getI_some_inv hgm
              exact ⟨em, h ▸ hget, hc⟩
            · rw [if_neg hc] at h
              by_cases hlt : octLt o em
              · rw [if_pos hlt] at h
                exact feGo_found_contains elems o fuel _ _ _ i h
              · rw [if_neg hlt] at h
                exact feGo_found_contains elems o fuel _ _ _ i h

/-- `findEnclosing` returns the index of the (unique) stored element
containing the query, for sorted, valid, pairwise-disjoint arrays. -/
theorem findEnclosing_finds (elems : List TMROctant) (o : TMROctant)
    (hs : List.Sorted octLt elems)
    (hv : ∀ x ∈ elems, validOct x)
    (hdisj : elems.Pairwise cubesDisjoint)
    (ho : validOct o)
    {j : Nat} {e : TMROctant} (hj : elems.get? j = some e)
    (hcont : containsCube e o) :
    findEnclosing elems o = some (FEOutcome.found j) := by
  unfold findEnclosing
  have hjlen : j < elems.length := (List.get?_eq_some.mp hj).1
  have hd : (0:Int) ≤ (elems.length : Int) - 1 - 0 := by omega
  obtain ⟨hd1, hd2⟩ := tdiv2_bounds hd
  apply feGo_finds elems o hs hv hdisj ho hj hcont
    (elems.length + 2) 0 ((elems.length : Int) - 1)
    (0 + Int.tdiv ((elems.length : Int) - 1 - 0) 2)
    (by omega) (by omega) (by omega) (by omega) (by omega) (by omega)
  · intro hq
    by_contra hgt
    push_neg at hgt
    have h2d : (2:Int) ≤ (elems.length : Int) - 1 - 0 := by omega
    have := tdiv2_lt h2d
    omega
  · omega

/-- C3 (amended): for a strictly Morton-sorted array of pairwise-disjoint
valid octants that stores an element enclosing the valid query octant
`o`, `findEnclosing` returns that element's index (a non-null result whose
cube contains `o`'s cube); and for any input array whatsoever, whenever
the search returns an element, that element's cube contains `o`'s cube.
(As stated — with the enclosing element replaced by the claim's
partition-of-the-domain hypothesis — the claim fails: a query coarser
than the stored elements yields NULL; see the counterexample.) -/
theorem spec_C3 (elems : List TMROctant) (o : TMROctant)
    (hs : List.Sorted octLt elems)
    (hv : ∀ x ∈ elems, validOct x)
    (hdisj : elems.Pairwise cubesDisjoint)
    (ho : validOct o)
    (hex : ∃ j e, elems.get? j = some e ∧ containsCube e o) :
    (∃ j e, findEnclosing elems o = some (FEOutcome.found j) ∧
      elems.get? j = some e ∧ containsCube e o) ∧
    (∀ (arr : List TMROctant) (i : Nat),
      findEnclosing arr o = some (FEOutcome.found i) →
      ∃ em, arr.get? i = some em ∧ containsCube em o) := by
  obtain ⟨j, e, hj, hcont⟩ := hex
  constructor
  · exact ⟨j, e, findEnclosing_finds elems o hs hv hdisj ho hj hcont,
      hj, hcont⟩
  · intro arr i h
    unfold findEnclosing at h
    exact feGo_found_contains arr o _ _ _ _ i h

/-- C3 counterexample: the eight children of the root form a sorted,
valid, pairwise-disjoint, uniformly level-1 (hence 2:1 balanced) array
whose cubes partition the domain, yet querying the root octant — whose
cube lies inside the domain — returns NULL: no stored element contains
it. -/
theorem spec_C3_cex :
    findEnclosing (childrenList ⟨0, 0, 0, 0, 0⟩) ⟨0, 0, 0, 0, 0⟩ =
      some FEOutcome.nullPtr ∧
    List.Sorted octLt (childrenList ⟨0, 0, 0, 0, 0⟩) ∧
    (∀ x ∈ childrenList ⟨0, 0, 0, 0, 0⟩, validOct x) ∧
    (childrenList ⟨0, 0, 0, 0, 0⟩).Pairwise cubesDisjoint ∧
    (∀ x ∈ childrenList ⟨0, 0, 0, 0, 0⟩, x.level = 1) ∧
    (∀ px py pz : Nat, px < hmax → py < hmax → pz < hmax →
      ∃ c ∈ childrenList ⟨0, 0, 0, 0, 0⟩, pointInCube c px py pz) ∧
    validOct ⟨0, 0, 0, 0, 0⟩ := by
  refine ⟨by rfl, by decide, by decide, by decide, by decide, ?_,
    by decide⟩
  intro px py pz hx hy hz
  have hh : hmax = 2 ^ 29 * 2 := by decide
  refine ⟨childOct ⟨0, 0, 0, 0, 0⟩
    (px / 2 ^ 29 + 2 * (py / 2 ^ 29) + 4 * (pz / 2 ^ 29)), ?_, ?_⟩
  · exact mem_childrenList.mpr ⟨_, by omega, rfl⟩
  · have hbx : px / 2 ^ 29 < 2 := by omega
    have hby : py / 2 ^ 29 < 2 := by omega
    have hbz : pz / 2 ^ 29 < 2 := by omega
    unfold pointInCube childOct hOct
    dsimp only
    have he : (2:Nat) ^ (TMR_MAX_LEVEL - (0 + 1)) = 2 ^ 29 := by
      rw [TMR_MAX_LEVEL_eq]
    have hmod : (px / 2 ^ 29 + 2 * (py / 2 ^ 29) + 4 * (pz / 2 ^ 29)) % 2 =
        px / 2 ^ 29 := by omega
    have hmod2 : (px / 2 ^ 29 + 2 * (py / 2 ^ 29) + 4 * (pz / 2 ^ 29)) / 2
        % 2 = py / 2 ^ 29 := by omega
    have hmod4 : (px / 2 ^ 29 + 2 * (py / 2 ^ 29) + 4 * (pz / 2 ^ 29)) / 4
        % 2 = pz / 2 ^ 29 := by omega
    rw [he, hmod, hmod2, hmod4]
    have h1 := Nat.div_add_mod px (2 ^ 29)
    have h2 := Nat.div_add_mod py (2 ^ 29)
    have h3 := Nat.div_add_mod pz (2 ^ 29)
    have h1m : px % 2 ^ 29 < 2 ^ 29 := Nat.mod_lt _ (by norm_num)
    have h2m : py % 2 ^ 29 < 2 ^ 29 := Nat.mod_lt _ (by norm_num)
    have h3m : pz % 2 ^ 29 < 2 ^ 29 := Nat.mod_lt _ (by norm_num)
    refine ⟨?_, ?_, ?_, ?_, ?_, ?_⟩ <;> omega

/-- Witness for `spec_C3`: a single stored root element containing a
level-1 query. -/
theorem spec_C3_witness :
    (∃ j e, findEnclosing [(⟨0, 0, 0, 0, 0⟩ : TMROctant)]
        ⟨0, 0, 0, 1, 0⟩ = some (FEOutcome.found j) ∧
      [(⟨0, 0, 0, 0, 0⟩ : TMROctant)].get? j = some e ∧
      containsCube e ⟨0, 0, 0, 1, 0⟩) ∧
    (∀ (arr : List TMROctant) (i : Nat),
      findEnclosing arr ⟨0, 0, 0, 1, 0⟩ = some (FEOutcome.found i) →
      ∃ em, arr.get? i = some em ∧ containsCube em ⟨0, 0, 0, 1, 0⟩) :=
  spec_C3 [⟨0, 0, 0, 0, 0⟩] ⟨0, 0, 0, 1, 0⟩ (by simp) (by decide)
    (by simp) (by decide) ⟨0, ⟨0, 0, 0, 0, 0⟩, rfl, by decide⟩

/-! ### Exactness of findEnclosingRange (C9) -/

theorem containsCube_probe {e : TMROctant} {px py pz : Nat} {t : Int} :
    containsCube e ⟨px, py, pz, TMR_MAX_LEVEL, t⟩ ↔
      pointInCube e px py pz := by
  unfold containsCube pointInCube hOct
  dsimp only
  rw [Nat.sub_self, pow_zero]
  omega

theorem probe_valid {px py pz : Nat} {t : Int} (hx : px < hmax)
    (hy : py < hmax) (hz : pz < hmax) :
    validOct ⟨px, py, pz, TMR_MAX_LEVEL, t⟩ := by
  unfold validOct hOct
  dsimp only
  rw [Nat.sub_self, pow_zero]
  exact ⟨le_rfl, one_dvd _, one_dvd _, one_dvd _, by omega, by omega,
    by omega⟩

theorem index_interval_le {elems : List TMROctant}
    (hs : List.Sorted octLt elems) (hv : ∀ x ∈ elems, validOct x)
    (hdisj : elems.Pairwise cubesDisjoint) {i k : Nat} {a b : TMROctant}
    (hik : i < k) (ha : elems.get? i = some a)
    (hb : elems.get? k = some b) :
    okey a + 8 ^ (TMR_MAX_LEVEL - a.level) ≤ okey b := by
  obtain ⟨hil, hia⟩ := List.get?_eq_some.mp ha
  obtain ⟨hkl, hkb⟩ := List.get?_eq_some.mp hb
  have hp : List.Pairwise octLt elems := hs
  rw [List.pairwise_iff_get] at hp
  have hlt := hp ⟨i, hil⟩ ⟨k, hkl⟩ (Fin.mk_lt_mk.mpr hik)
  rw [hia, hkb] at hlt
  have hpd := hdisj
  rw [List.pairwise_iff_get] at hpd
  have hd := hpd ⟨i, hil⟩ ⟨k, hkl⟩ (Fin.mk_lt_mk.mpr hik)
  rw [hia, hkb] at hd
  exact key_interval_le_of_octLt (hv a (List.get?_mem ha))
    (hv b (List.get?_mem hb)) hd hlt

/-- Two valid cubes intersect exactly when their Morton-key intervals
overlap. -/
theorem cubes_intersect_iff_keys {a b : TMROctant} (ha : validOct a)
    (hb : validOct b) :
    ¬cubesDisjoint a b ↔
      (okey a < okey b + 8 ^ (TMR_MAX_LEVEL - b.level) ∧
       okey b < okey a + 8 ^ (TMR_MAX_LEVEL - a.level)) := by
  constructor
  · intro hnd
    unfold cubesDisjoint at hnd
    push_neg at hnd
    obtain ⟨h1, h2, h3, h4, h5, h6⟩ := hnd
    have hha := hOct_pos a
    have hhb := hOct_pos b
    have hpa : pointInCube a (if a.x ≤ b.x then b.x else a.x)
        (if a.y ≤ b.y then b.y else a.y)
        (if a.z ≤ b.z then b.z else a.z) := by
      unfold pointInCube
      split_ifs <;> omega
    have hpb : pointInCube b (if a.x ≤ b.x then b.x else a.x)
        (if a.y ≤ b.y then b.y else a.y)
        (if a.z ≤ b.z then b.z else a.z) := by
      unfold pointInCube
      split_ifs <;> omega
    obtain ⟨hka1, hka2⟩ := point_key_mem ha hpa
    obtain ⟨hkb1, hkb2⟩ := point_key_mem hb hpb
    omega
  · rintro ⟨hab, hba⟩ hd
    rcases Nat.le_total (okey a) (okey b) with h | h
    · exact key_intervals_disjoint ha hb hd h hba le_rfl
        (by have : (0:Nat) < 8 ^ (TMR_MAX_LEVEL - b.level) :=
              Nat.pos_pow_of_pos _ (by norm_num)
            omega)
    · exact key_intervals_disjoint ha hb hd le_rfl
        (by have : (0:Nat) < 8 ^ (TMR_MAX_LEVEL - a.level) :=
              Nat.pos_pow_of_pos _ (by norm_num)
            omega) h hab

theorem getD_of_get? {elems : List TMROctant} {j : Nat} {e : TMROctant}
    (h : elems.get? j = some e) : elems.getD j default = e := by
  rw [List.getD_eq_get?, h]
  rfl

set_option maxHeartbeats 2000000 in
/-- C9: for every octree whose element array is strictly Morton-sorted
with pairwise-disjoint valid cubes that cover (hence partition) the
domain, and whose element tags equal their array indices,
`findEnclosingRange(o)` for a valid octant `o` returns the half-open
index range `[low, high)` holding exactly the indices of the elements
whose cubes intersect the cube of `o`, bracketed by the enclosing
elements of `o`'s first and last level-`LMAX` descendants.  (The 2:1
balance hypothesis of the claim is not needed.) -/
theorem spec_C9 (elems : List TMROctant) (o : TMROctant)
    (hs : List.Sorted octLt elems)
    (hv : ∀ x ∈ elems, validOct x)
    (hdisj : elems.Pairwise cubesDisjoint)
    (ho : validOct o)
    (htags : ∀ (i : Nat) (e : TMROctant), elems.get? i = some e →
      e.tag = (i : Int))
    (hcover : ∀ px py pz : Nat, px < hmax → py < hmax → pz < hmax →
      ∃ x ∈ elems, pointInCube x px py pz) :
    ∃ lo hi : Int, findEnclosingRange elems o = some (lo, hi) ∧
      0 ≤ lo ∧ lo ≤ hi ∧ hi ≤ (elems.length : Int) ∧
      ∀ (i : Nat) (e : TMROctant), elems.get? i = some e →
        (¬cubesDisjoint e o ↔ lo ≤ (i : Int) ∧ (i : Int) < hi) := by
  have hho := hOct_pos o
  have hbx := ho.2.2.2.2.1
  have hby := ho.2.2.2.2.2.1
  have hbz := ho.2.2.2.2.2.2
  obtain ⟨e1, he1m, hp1⟩ := hcover o.x o.y o.z (by omega) (by omega)
    (by omega)
  obtain ⟨j1, hj1⟩ := List.mem_iff_get?.mp he1m
  have he1v := hv e1 he1m
  obtain ⟨e2, he2m, hp2⟩ := hcover (o.x + (hOct o - 1))
    (o.y + (hOct o - 1)) (o.z + (hOct o - 1)) (by omega) (by omega)
    (by omega)
  obtain ⟨j2, hj2⟩ := List.mem_iff_get?.mp he2m
  have he2v := hv e2 he2m
  have hf1 : findEnclosing elems { o with level := TMR_MAX_LEVEL } =
      some (FEOutcome.found j1) :=
    findEnclosing_finds elems _ hs hv hdisj
      (probe_valid (by omega) (by omega) (by omega)) hj1
      (containsCube_probe.mpr hp1)
  have hf2 : findEnclosing elems
      { o with
        x := o.x + (hOct o - 1), y := o.y + (hOct o - 1),
        z := o.z + (hOct o - 1), level := TMR_MAX_LEVEL } =
      some (FEOutcome.found j2) :=
    findEnclosing_finds elems _ hs hv hdisj
      (probe_valid (by omega) (by omega) (by omega)) hj2
      (containsCube_probe.mpr hp2)
  have hoff : ilv KF (o.x + (hOct o - 1)) (o.y + (hOct o - 1))
      (o.z + (hOct o - 1)) =
      okey o + (8 ^ (TMR_MAX_LEVEL - o.level) - 1) := by
    have hlt : hOct o - 1 < hOct o := by omega
    rw [okey_offset ho hlt hlt hlt]
    have h2 : hOct o - 1 = 2 ^ (TMR_MAX_LEVEL - o.level) - 1 := rfl
    rw [h2, ilv_max]
  have hk1 := point_key_mem he1v hp1
  have hk2 := point_key_mem he2v hp2
  rw [hoff] at hk2
  have hko : okey o = ilv KF o.x o.y o.z := rfl
  rw [← hko] at hk1
  have hm8 : (1:Nat) ≤ 8 ^ (TMR_MAX_LEVEL - o.level) :=
    Nat.one_le_pow _ _ (by norm_num)
  have he18 : (1:Nat) ≤ 8 ^ (TMR_MAX_LEVEL - e1.level) :=
    Nat.one_le_pow _ _ (by norm_num)
  have he28 : (1:Nat) ≤ 8 ^ (TMR_MAX_LEVEL - e2.level) :=
    Nat.one_le_pow _ _ (by norm_num)
  have hj1len : j1 < elems.length := (List.get?_eq_some.mp hj1).1
  have hj2len : j2 < elems.length := (List.get?_eq_some.mp hj2).1
  have hj1j2 : j1 ≤ j2 := by
    by_contra hcon
    push_neg at hcon
    have := index_interval_le hs hv hdisj hcon hj2 hj1
    omega
  refine ⟨(j1 : Int), (j2 : Int) + 1, ?_, by omega, by omega, by omega,
    ?_⟩
  · unfold findEnclosingRange
    dsimp only
    rw [hf1, hf2]
    dsimp only
    rw [getD_of_get? hj1, getD_of_get? hj2, htags j1 e1 hj1,
      htags j2 e2 hj2]
  · intro i e hi
    have hev := hv e (List.get?_mem hi)
    have hei8 : (1:Nat) ≤ 8 ^ (TMR_MAX_LEVEL - e.level) :=
      Nat.one_le_pow _ _ (by norm_num)
    rw [cubes_intersect_iff_keys hev ho]
    constructor
    · rintro ⟨hlt1, hlt2⟩
      constructor
      · by_contra hcon
        push_neg at hcon
        have hcon' : i < j1 := by omega
        have := index_interval_le hs hv hdisj hcon' hi hj1
        omega
      · by_contra hcon
        push_neg at hcon
        have hcon' : j2 < i := by omega
        have := index_interval_le hs hv hdisj hcon' hj2 hi
        omega
    · rintro ⟨hge, hlt⟩
      have hi1 : j1 ≤ i := by omega
      have hi2 : i ≤ j2 := by omega
      constructor
      · rcases Nat.eq_or_lt_of_le hi2 with heq | hlt'
        · have h1 : elems.get? j2 = some e := heq ▸ hi
          rw [h1] at hj2
          have hee : e = e2 := Option.some_inj.mp hj2
          rw [hee]
          omega
        · have := index_interval_le hs hv hdisj hlt' hi hj2
          omega
      · rcases Nat.eq_or_lt_of_le hi1 with heq | hlt'
        · have h1 : elems.get? i = some e1 := heq ▸ hj1
          rw [h1] at hi
          have hee : e1 = e := Option.some_inj.mp hi
          rw [← hee]
          omega
        · have := index_interval_le hs hv hdisj hlt' hj1 hi
          omega

/-- Witness for `spec_C9`: the single-root octree queried with the root
octant itself. -/
theorem spec_C9_witness :
    ∃ lo hi : Int,
      findEnclosingRange [(⟨0, 0, 0, 0, 0⟩ : TMROctant)] ⟨0, 0, 0, 0, 0⟩ =
        some (lo, hi) ∧
      0 ≤ lo ∧ lo ≤ hi ∧
      hi ≤ (([(⟨0, 0, 0, 0, 0⟩ : TMROctant)].length : Int)) ∧
      ∀ (i : Nat) (e : TMROctant),
        [(⟨0, 0, 0, 0, 0⟩ : TMROctant)].get? i = some e →
        (¬cubesDisjoint e ⟨0, 0, 0, 0, 0⟩ ↔
          lo ≤ (i : Int) ∧ (i : Int) < hi) := by
  apply spec_C9 [⟨0, 0, 0, 0, 0⟩] ⟨0, 0, 0, 0, 0⟩ (by simp) (by decide)
    (by simp) (by decide)
  · intro i e h
    cases i with
    | zero =>
        injection h with h
        rw [← h]
        rfl
    | succ n => exact Option.noConfusion h
  · intro px py pz hx hy hz
    refine ⟨⟨0, 0, 0, 0, 0⟩, List.mem_singleton_self _, ?_⟩
    unfold pointInCube hOct
    dsimp only
    rw [Nat.sub_zero]
    unfold hmax at hx hy hz
    exact ⟨Nat.zero_le _, by omega, Nat.zero_le _, by omega,
      Nat.zero_le _, by omega⟩

end TMR
